import Mathlib

/-!
# ctl — allocators and pools

A shallow embedding of the memory-management core of `ctl`
(`src/allocator.cpp`, `src/ctl/allocator.hpp`, `src/pool.cpp`,
`src/ctl/pool.hpp`, `src/ctl/stream.hpp`).

Conventions of the embedding:

* `Ulen`, `Address` and `Uint64` values are natural numbers below `2^64`,
  `Uint32` values are natural numbers below `2^32`; every arithmetic
  operation of the source that is performed in one of these types is
  reduced modulo the width of the type.
  A subtraction `a - b` of such values is written `(a + (2^64 - b)) % 2^64`.
* Raw memory is a map from byte addresses to byte values.
* The buffers owned by a `Pool` are kept by content (a list of bytes, a list
  of 64-bit words); an access outside a buffer is undefined behaviour in the
  source and is a fault (`none`) in the embedding.
-/

namespace ctl

/-! ## Machine types -/

/-- Number of values of a 64-bit unsigned integer (`Ulen`, `Address`, `Uint64`). -/
def U64 : Nat := 2 ^ 64

/-- Number of values of a 32-bit unsigned integer (`Uint32`). -/
def U32 : Nat := 2 ^ 32

/-- Raw memory: the byte stored at each address. -/
abbrev Mem := Nat → Nat

/-- Store of one byte. -/
def Mem.store (m : Mem) (addr val : Nat) : Mem :=
  fun x => if x = addr then val else m x

/-! ## `Allocator` (allocator.hpp, allocator.cpp) -/

/-- `Allocator::round`: `((len + 16 - 1) / 16) * 16` in `Ulen` arithmetic. -/
def Allocator.round (len : Nat) : Nat :=
  (((len + 16 - 1) % U64) / 16 * 16) % U64

/-- The store `dst_w[i] = 0_u64`: eight zero bytes from `addr + 8 * i`. -/
def Allocator.storeWord0 (m : Mem) (addr i : Nat) : Mem :=
  (List.range 8).foldl (fun acc k => acc.store (addr + 8 * i + k) 0) m

/-- `Allocator::memzero`: `len / 8` word stores followed by `len % 8` byte
stores starting right after the last word. -/
def Allocator.memzero (m : Mem) (addr len : Nat) : Mem :=
  let n_words := len / 8
  let n_bytes := len % 8
  let dst_b := addr + 8 * n_words
  let m1 := (List.range n_words).foldl (fun acc i => Allocator.storeWord0 acc addr i) m
  (List.range n_bytes).foldl (fun acc i => acc.store (dst_b + i) 0) m1

/-- `Allocator::memcopy`: byte by byte, in ascending order. -/
def Allocator.memcopy (m : Mem) (dst src len : Nat) : Mem :=
  (List.range len).foldl (fun acc i => acc.store (dst + i) (acc (src + i))) m

/-! ## `ArenaAllocator` -/

/-- The anonymous struct `region_` of `ArenaAllocator`. -/
structure Region where
  beg : Nat
  end_ : Nat
deriving DecidableEq, Repr

/-- `ArenaAllocator`: a region and the bump cursor. -/
structure ArenaAllocator where
  region_ : Region
  cursor_ : Nat
deriving DecidableEq, Repr

/-- `ArenaAllocator::ArenaAllocator(base, length)`. -/
def ArenaAllocator.new (base length : Nat) : ArenaAllocator :=
  { region_ := { beg := base, end_ := (base + length) % U64 }, cursor_ := base }

/-- `ArenaAllocator::length`. -/
def ArenaAllocator.length (a : ArenaAllocator) : Nat :=
  (a.region_.end_ + (U64 - a.region_.beg)) % U64

/-- `ArenaAllocator::owns`. -/
def ArenaAllocator.owns (a : ArenaAllocator) (addr len : Nat) : Bool :=
  decide (addr ≥ a.region_.beg) && decide ((addr + len) % U64 ≤ a.region_.end_)

/-- `ArenaAllocator::reset`. -/
def ArenaAllocator.reset (a : ArenaAllocator) : ArenaAllocator :=
  { a with cursor_ := a.region_.beg }

/-- `ArenaAllocator::alloc`: the returned address (0 on failure), the arena
and the memory after the call. -/
def ArenaAllocator.alloc (a : ArenaAllocator) (m : Mem) (req_len : Nat) (zero : Bool) :
    Nat × ArenaAllocator × Mem :=
  let new_len := Allocator.round req_len
  if (a.cursor_ + new_len) % U64 > a.region_.end_ then
    (0, a, m)
  else
    let addr := a.cursor_
    let a1 := { a with cursor_ := (a.cursor_ + new_len) % U64 }
    if zero then (addr, a1, Allocator.memzero m addr req_len) else (addr, a1, m)

/-- `ArenaAllocator::free`. -/
def ArenaAllocator.free (a : ArenaAllocator) (addr req_old_len : Nat) : ArenaAllocator :=
  if addr = 0 then a
  else
    let old_len := Allocator.round req_old_len
    if (addr + old_len) % U64 = a.cursor_ then
      { a with cursor_ := (a.cursor_ + (U64 - old_len)) % U64 }
    else a

/-- `ArenaAllocator::shrink`. -/
def ArenaAllocator.shrink (a : ArenaAllocator) (addr req_old_len req_new_len : Nat) :
    ArenaAllocator :=
  let old_len := Allocator.round req_old_len
  let new_len := Allocator.round req_new_len
  if (addr + old_len) % U64 = a.cursor_ then
    { a with cursor_ := ((a.cursor_ + (U64 - old_len)) % U64 + new_len) % U64 }
  else a

/-- `ArenaAllocator::grow`: the returned address (0 on failure), the arena and
the memory after the call. -/
def ArenaAllocator.grow (a : ArenaAllocator) (m : Mem)
    (src_addr req_old_len req_new_len : Nat) (zero : Bool) : Nat × ArenaAllocator × Mem :=
  let old_len := Allocator.round req_old_len
  let new_len := Allocator.round req_new_len
  let req_delta := (req_new_len + (U64 - req_old_len)) % U64
  if (src_addr + old_len) % U64 = a.cursor_ then
    let delta := (new_len + (U64 - old_len)) % U64
    if (a.cursor_ + delta) % U64 ≥ a.region_.end_ then
      (0, a, m)
    else
      let m1 := if zero then Allocator.memzero m ((src_addr + req_old_len) % U64) req_delta else m
      (src_addr, { a with cursor_ := (a.cursor_ + delta) % U64 }, m1)
  else
    let r := a.alloc m req_new_len false
    let dst_addr := r.1
    if dst_addr = 0 then
      (0, r.2.1, r.2.2)
    else
      let m1 := Allocator.memcopy r.2.2 dst_addr src_addr req_old_len
      let m2 := if zero then Allocator.memzero m1 ((dst_addr + req_old_len) % U64) req_delta else m1
      (dst_addr, r.2.1.free src_addr req_old_len, m2)

/-- A run of `alloc(n, false)` calls, one per request of the list, in order:
the returned addresses, the arena and the memory after the last call. -/
def ArenaAllocator.allocSeq (a : ArenaAllocator) (m : Mem) :
    List Nat → List Nat × ArenaAllocator × Mem
  | [] => ([], a, m)
  | n :: ns =>
    let r := a.alloc m n false
    let rest := ArenaAllocator.allocSeq r.2.1 r.2.2 ns
    (r.1 :: rest.1, rest.2)


/-- The cursor invariant of an arena: `begin ≤ cursor ≤ end`. -/
def ArenaAllocator.Inv (a : ArenaAllocator) : Prop :=
  a.region_.beg ≤ a.cursor_ ∧ a.cursor_ ≤ a.region_.end_

instance (a : ArenaAllocator) : Decidable a.Inv := by
  unfold ArenaAllocator.Inv; infer_instance

/-- A block `(addr, len)` handed out by the arena: it starts at or after
`begin`, its rounded length does not wrap (`len ≤ 2^64 - 16`) and its rounded
end is at or before `end`. -/
def ArenaAllocator.Block (a : ArenaAllocator) (addr len : Nat) : Prop :=
  a.region_.beg ≤ addr ∧ len + 16 ≤ U64 ∧ addr + Allocator.round len ≤ a.region_.end_

instance (a : ArenaAllocator) (addr len : Nat) : Decidable (a.Block addr len) := by
  unfold ArenaAllocator.Block; infer_instance

/-- The all-zero memory, used for concrete runs. -/
def Mem.zero : Mem := fun _ => 0

/-! ## The `Allocator` interface, as used by `Pool` -/

/-- The four virtual operations of `Allocator` over an allocator state `σ`.
`alloc` and `grow` return the address (0 on failure) and the new state. A
buffer obtained with `zero = true` is zero-filled. -/
structure Allocator (σ : Type) where
  alloc : σ → Nat → Bool → Nat × σ
  free : σ → Nat → Nat → σ
  shrink : σ → Nat → Nat → Nat → σ
  grow : σ → Nat → Nat → Nat → Bool → Nat × σ

/-- `Allocator::allocate<T>(count, zero)` with `sizeofT = sizeof(T)`: the
pointer (0 for `nullptr`) and the new allocator state. -/
def Allocator.allocate {σ : Type} (A : Allocator σ) (s : σ) (sizeofT count : Nat)
    (zero : Bool) : Nat × σ :=
  A.alloc s ((count * sizeofT) % U64) zero

/-- `Allocator::deallocate<T>(ptr, count)` with `sizeofT = sizeof(T)`. -/
def Allocator.deallocate {σ : Type} (A : Allocator σ) (s : σ) (sizeofT ptr count : Nat) : σ :=
  A.free s ptr ((count * sizeofT) % U64)

/-! ## Little-endian byte images -/

/-- The `k` bytes of the in-memory image of an unsigned integer, lowest first. -/
def toLE : Nat → Nat → List Nat
  | 0, _ => []
  | k + 1, v => (v % 256) :: toLE k (v / 256)

/-- The unsigned integer whose in-memory image is the given bytes. -/
def fromLE : List Nat → Nat
  | [] => 0
  | b :: bs => b + 256 * fromLE bs

/-- The byte image of an array of 64-bit words (`Slice<Word>::cast<Uint8>`). -/
def wordsToBytes : List Nat → List Nat
  | [] => []
  | w :: ws => toLE 8 w ++ wordsToBytes ws

/-- The `n` 64-bit words whose byte image is the given bytes. -/
def bytesToWords : Nat → List Nat → List Nat
  | 0, _ => []
  | n + 1, bs => fromLE (bs.take 8) :: bytesToWords n (bs.drop 8)

/-! ## `Stream` (stream.hpp, stream.cpp) -/

/-- A stream that stores and returns bytes faithfully: a byte sequence and a
position, written and read the way `FileStream` writes and reads a file that
transfers every byte it is given. -/
structure Stream where
  content : List Nat
  offset_ : Nat
deriving DecidableEq, Repr

/-- `Stream::write`: the bytes go to the current position, which advances by
the number of bytes written; the result tells whether all were written. -/
def Stream.write (st : Stream) (data : List Nat) : Bool × Stream :=
  (true, { content := st.content.take st.offset_ ++ data
                        ++ st.content.drop (st.offset_ + data.length),
           offset_ := st.offset_ + data.length })

/-- `Stream::read` of `n` bytes: whether all `n` bytes were read, the bytes
read, and the stream advanced by the number of bytes read. -/
def Stream.read (st : Stream) (n : Nat) : Bool × List Nat × Stream :=
  let got := (st.content.drop st.offset_).take n
  (decide (got.length = n), got, { st with offset_ := st.offset_ + got.length })

/-! ## `Pool` (pool.hpp, pool.cpp) -/

/-- `Pool::BITS`: the number of bits of a `Word`. -/
def BITS : Nat := 64

/-- `Pool`. `data_` and `used_` are the addresses of the two buffers;
`dataMem` is the content of the object buffer (bytes) and `usedMem` the
content of the occupancy buffer (64-bit words). -/
structure Pool where
  size_ : Nat
  length_ : Nat
  capacity_ : Nat
  data_ : Nat
  used_ : Nat
  last_ : Nat
  dataMem : List Nat
  usedMem : List Nat
deriving DecidableEq, Repr

/-- `PoolHeader`, the serialized head of a pool. -/
structure PoolHeader where
  magic : List Nat
  version : Nat
  length : Nat
  size : Nat
  capacity : Nat
deriving DecidableEq, Repr

/-- The 32-byte in-memory image of a `PoolHeader`. -/
def PoolHeader.toBytes (h : PoolHeader) : List Nat :=
  h.magic.take 4 ++ toLE 4 h.version ++ toLE 8 h.length ++ toLE 8 h.size ++ toLE 8 h.capacity

/-- The `PoolHeader` whose in-memory image is the given 32 bytes. -/
def PoolHeader.ofBytes (bs : List Nat) : PoolHeader :=
  { magic := bs.take 4,
    version := fromLE ((bs.drop 4).take 4),
    length := fromLE ((bs.drop 8).take 8),
    size := fromLE ((bs.drop 16).take 8),
    capacity := fromLE ((bs.drop 24).take 8) }

/-- The bytes of `"pool"`. -/
def poolMagic : List Nat := [112, 111, 111, 108]

/-- `Pool::create`: the pool, or `none`, and the allocator state after the
call. -/
def Pool.create {σ : Type} (A : Allocator σ) (s : σ) (size capacity : Nat) : Option Pool × σ :=
  let capacity := (((capacity + (BITS - 1)) % U64) / BITS * BITS) % U64
  let r1 := A.allocate s 1 ((size * capacity) % U64) true
  if r1.1 = 0 then (none, r1.2)
  else
    let r2 := A.allocate r1.2 8 (capacity / BITS) true
    if r2.1 = 0 then
      (none, A.deallocate r2.2 1 r1.1 ((size * capacity) % U64))
    else
      (some { size_ := size, length_ := 0, capacity_ := capacity,
              data_ := r1.1, used_ := r2.1, last_ := 0,
              dataMem := List.replicate ((size * capacity) % U64) 0,
              usedMem := List.replicate (capacity / BITS) 0 }, r2.2)

/-- `Pool::save`: whether every write succeeded, and the stream after the
call. The slices written are the first `capacity_ / BITS` words of the
occupancy buffer and the first `size_ * capacity_` bytes of the object buffer. -/
def Pool.save (p : Pool) (st : Stream) : Bool × Stream :=
  let header : PoolHeader :=
    { magic := poolMagic, version := 1 % U32, length := p.length_ % U64,
      size := p.size_ % U64, capacity := p.capacity_ % U64 }
  let w1 := st.write header.toBytes
  if w1.1 = false then (false, w1.2)
  else
    let w2 := w1.2.write (wordsToBytes (p.usedMem.take (p.capacity_ / BITS)))
    if w2.1 = false then (false, w2.2)
    else w2.2.write (p.dataMem.take ((p.size_ * p.capacity_) % U64))

/-- `Pool::load`: the pool, or `none`, the allocator state and the stream
after the call. -/
def Pool.load {σ : Type} (A : Allocator σ) (s : σ) (st : Stream) : Option Pool × σ × Stream :=
  let r0 := st.read 32
  if r0.1 = false then (none, s, r0.2.2)
  else
    let header := PoolHeader.ofBytes r0.2.1
    if header.magic ≠ poolMagic then (none, s, r0.2.2)
    else if header.version ≠ 1 then (none, s, r0.2.2)
    else
      let n_words := header.capacity / BITS
      let n_bytes := (header.size * header.capacity) % U64
      let u := A.allocate s 8 n_words false
      let d := A.allocate u.2 1 n_bytes false
      if u.1 = 0 ∨ d.1 = 0 then
        (none, A.deallocate (A.deallocate d.2 8 u.1 n_words) 1 d.1 n_bytes, r0.2.2)
      else
        let r1 := r0.2.2.read ((n_words * 8) % U64)
        if r1.1 = false then
          (none, A.deallocate (A.deallocate d.2 8 u.1 n_words) 1 d.1 n_bytes, r1.2.2)
        else
          let r2 := r1.2.2.read n_bytes
          if r2.1 = false then
            (none, A.deallocate (A.deallocate d.2 8 u.1 n_words) 1 d.1 n_bytes, r2.2.2)
          else
            (some { size_ := header.size, length_ := header.length,
                    capacity_ := header.capacity, data_ := d.1, used_ := u.1, last_ := 0,
                    dataMem := r2.2.1, usedMem := bytesToWords n_words r1.2.1 },
             d.2, r2.2.2)

/-- The primitive behind `count_trailing_zeros`, on at most `fuel` bits. -/
def ctzAux : Nat → Nat → Nat
  | 0, _ => 0
  | fuel + 1, v => if v % 2 = 1 then 0 else 1 + ctzAux fuel (v / 2)

/-- `count_trailing_zeros` of a 64-bit value: the index of its lowest set
bit (64 for the value 0, which `Pool::allocate` never passes). -/
def count_trailing_zeros (value : Nat) : Nat := ctzAux 64 value

/-- `~word` on a 64-bit word. -/
def compl64 (word : Nat) : Nat := U64 - 1 - word

/-- The pool after one slot of word `w_index` is taken: `used_[w_index] |=
Word(1) << b_index` and `length_++`. -/
def Pool.occupy (p : Pool) (w_index word b_index : Nat) : Pool :=
  { p with usedMem := p.usedMem.set w_index ((word ||| ((1 <<< b_index) % U64)) % U64),
           length_ := (p.length_ + 1) % U64 }

/-- The scan loop of `Pool::allocate`, entered with the loop variable at
`w_index`: `for (...; w_index < n_words; w_index--)`. Decrementing the
`Uint32` index 0 gives `2^32 - 1`, which is not below `n_words`, so the loop
ends there. -/
def Pool.allocateScan (p : Pool) (n_words : Nat) : Nat → Option (Pool × Option Nat)
  | 0 =>
    if 0 < n_words then
      match p.usedMem[0]? with
      | none => none
      | some word =>
        if compl64 word ≠ 0 then
          let b_index := count_trailing_zeros (compl64 word)
          some ({ p.occupy 0 word b_index with last_ := 0 }, some ((0 * BITS + b_index) % U32))
        else some (p, none)
    else some (p, none)
  | w + 1 =>
    if w + 1 < n_words then
      match p.usedMem[w + 1]? with
      | none => none
      | some word =>
        if compl64 word ≠ 0 then
          let b_index := count_trailing_zeros (compl64 word)
          some ({ p.occupy (w + 1) word b_index with last_ := w + 1 },
                some (((w + 1) * BITS + b_index) % U32))
        else Pool.allocateScan p n_words w
    else some (p, none)

/-- `Pool::allocate`: `none` when the call reads outside the occupancy
buffer; otherwise the pool after the call and the returned `PoolRef` index
(`none` for an empty result). -/
def Pool.allocate (p : Pool) : Option (Pool × Option Nat) :=
  let n_words := (p.capacity_ / BITS) % U32
  let w_index := p.last_
  match p.usedMem[w_index]? with
  | none => none
  | some word =>
    if compl64 word ≠ 0 then
      let b_index := count_trailing_zeros (compl64 word)
      some (p.occupy w_index word b_index, some ((w_index * BITS + b_index) % U32))
    else
      Pool.allocateScan p n_words ((n_words + (U32 - 1)) % U32)

/-- `Pool::deallocate`: `none` when the call accesses a word outside the
occupancy buffer; otherwise the pool after the call. -/
def Pool.deallocate (p : Pool) (ref : Nat) : Option Pool :=
  let w_index := ref / BITS
  let b_index := ref % BITS
  match p.usedMem[w_index]? with
  | none => none
  | some word =>
    some { p with usedMem := p.usedMem.set w_index (word &&& compl64 ((1 <<< b_index) % U64)),
                  length_ := (p.length_ + (U64 - 1)) % U64 }

/-- A store of one byte through `Pool::operator[]`: byte `off` of the slot
at `data_ + size_ * ref.index`; `none` when outside the object buffer. -/
def Pool.write (p : Pool) (ref off val : Nat) : Option Pool :=
  if (p.size_ * ref) % U64 + off < p.dataMem.length then
    some { p with dataMem := p.dataMem.set ((p.size_ * ref) % U64 + off) val }
  else none

/-- Bit `i` of the occupancy bitset: object `i` is in use. -/
def Pool.isUsed (p : Pool) (i : Nat) : Bool :=
  match p.usedMem[i / BITS]? with
  | none => false
  | some word => word.testBit (i % BITS)

/-- The number of set bits of a 64-bit word. -/
def popcount64 (w : Nat) : Nat := (List.range 64).countP (fun i => w.testBit i)

/-- The popcount of an occupancy bitset: the set bits over all its words. -/
def popcount (ws : List Nat) : Nat := (ws.map popcount64).sum

/-- A run of `n` calls of `Pool::allocate`: the pool after the last call and
the results in call order; `none` when a call faults. -/
def Pool.allocateN (p : Pool) : Nat → Option (Pool × List (Option Nat))
  | 0 => some (p, [])
  | n + 1 =>
    match p.allocate with
    | none => none
    | some (p1, r) =>
      match Pool.allocateN p1 n with
      | none => none
      | some (p2, rs) => some (p2, r :: rs)

/-- The states of a pool that a client can reach: `Pool::create` on any
allocator, then `allocate`, `deallocate` of a `PoolRef` whose object is in
use, and stores of bytes into slots. -/
inductive Pool.Reachable : Pool → Prop
  | create {σ : Type} (A : Allocator σ) (s s1 : σ) (size capacity : Nat) (p : Pool) :
      size < U64 → capacity < U64 →
      Pool.create A s size capacity = (some p, s1) → Pool.Reachable p
  | allocate (p p1 : Pool) (r : Option Nat) :
      Pool.Reachable p → p.allocate = some (p1, r) → Pool.Reachable p1
  | deallocate (p p1 : Pool) (ref : Nat) :
      Pool.Reachable p → ref < U32 → p.isUsed ref = true →
      p.deallocate ref = some p1 → Pool.Reachable p1
  | write (p p1 : Pool) (ref off val : Nat) :
      Pool.Reachable p → ref < U32 → val < 256 →
      p.write ref off val = some p1 → Pool.Reachable p1

/-- A pool of capacity `2^32 + 64` (object size 1) in the state reached from
`Pool::create` by 64 calls of `allocate`: word 0 of the occupancy bitset is
full, the other `2^26` words are empty. -/
def Pool.aliasExample : Pool :=
  { size_ := 1, length_ := 64, capacity_ := 2 ^ 32 + 64, data_ := 4096, used_ := 8192,
    last_ := 0, dataMem := List.replicate (2 ^ 32 + 64) 0,
    usedMem := (U64 - 1) :: List.replicate 67108864 0 }

/-- A pool of capacity 128 with slots 0 and 2 of word 0 in use and word 1
full. -/
def Pool.smallExample : Pool :=
  { size_ := 1, length_ := 66, capacity_ := 128, data_ := 4096, used_ := 8192,
    last_ := 1, dataMem := List.replicate 128 0, usedMem := [5, U64 - 1] }

/-- The representation invariant of a pool: fields within their types, the
occupancy buffer of `capacity_ / BITS` 64-bit words, the object buffer of
`size_ * capacity_` bytes, and `length_` equal to the popcount of the
occupancy bitset. -/
def Pool.Good (p : Pool) : Prop :=
  p.size_ < U64 ∧ p.capacity_ < U64 ∧
  p.usedMem.length = p.capacity_ / BITS ∧ (∀ w ∈ p.usedMem, w < U64) ∧
  p.dataMem.length = (p.size_ * p.capacity_) % U64 ∧ (∀ b ∈ p.dataMem, b < 256) ∧
  p.length_ = popcount p.usedMem

/-- An allocator that grants every request, used for concrete runs: its
state is the next free address, `alloc` returns it and moves it past the
block, `free` and `shrink` do nothing, `grow` allocates anew. -/
def Allocator.bump : Allocator Nat :=
  { alloc := fun s len _ => (s, s + len + 16),
    free := fun s _ _ => s,
    shrink := fun s _ _ _ => s,
    grow := fun s _ _ new_len _ => (s, s + new_len + 16) }

/-- The pool `Pool::create(size = 8, capacity = 64)` returns on
`Allocator.bump` started at address 4096. -/
def Pool.freshExample : Pool :=
  { size_ := 8, length_ := 0, capacity_ := 64, data_ := 4096, used_ := 4624, last_ := 0,
    dataMem := List.replicate 512 0, usedMem := [0] }

/-! ## `TemporaryAllocator` (allocator.hpp, allocator.cpp) -/

/-- `TemporaryAllocator::Block`: `addr` is the address of the `Block` object
(the address the parent allocator returned for it), `arena_` the arena over
the bytes `data_[]` that follow the header. -/
structure Block where
  addr : Nat
  arena_ : ArenaAllocator
deriving DecidableEq, Repr

/-- `TemporaryAllocator`. `chain` lists the blocks reachable from `head_`
through the `next_` links, `head_` first; the `prev_` link of a block leads to
its predecessor in the list. `tail` is the position of `tail_` in `chain`
(`head_` and `tail_` are null exactly when `chain` is empty). `lost` collects
the blocks that `add` cuts off by overwriting `tail_->next_`: no pointer of
the allocator leads to them any more. -/
structure TemporaryAllocator where
  chain : List Block
  tail : Nat
  lost : List Block
deriving DecidableEq, Repr

/-- The empty `TemporaryAllocator` (`head_ = tail_ = nullptr`). -/
def TemporaryAllocator.empty : TemporaryAllocator := { chain := [], tail := 0, lost := [] }

/-- The first chunk size of `TemporaryAllocator::add`, `2 << 20` (2 MiB). -/
def TemporaryAllocator.MIN_BLOCK : Nat := 2 <<< 20

/-- The sizing loop of `TemporaryAllocator::add`,
`while (block_size < len) block_size *= 2;` in `Ulen` arithmetic, run for at
most `fuel` tests of the condition: `none` when the loop is still running. -/
def TemporaryAllocator.blockSize : Nat → Nat → Nat → Option Nat
  | 0, _, _ => none
  | fuel + 1, len, block_size =>
    if block_size < len then TemporaryAllocator.blockSize fuel len ((block_size * 2) % U64)
    else some block_size

/-- The linking step of `TemporaryAllocator::add`:
`if (tail_) { tail_->next_ = node; node->prev_ = tail_; tail_ = node; }
else { tail_ = node; head_ = node; }`. Overwriting `tail_->next_` cuts off the
blocks that followed `tail_`. -/
def TemporaryAllocator.link (t : TemporaryAllocator) (node : Block) : TemporaryAllocator :=
  if t.chain = [] then { chain := [node], tail := 0, lost := t.lost }
  else
    { chain := t.chain.take (t.tail + 1) ++ [node],
      tail := (t.chain.take (t.tail + 1)).length,
      lost := t.lost ++ t.chain.drop (t.tail + 1) }

/-- `TemporaryAllocator::add`: the result, the allocator and the state of the
parent allocator after the call; `none` when the sizing loop does not end
within `fuel` steps. `sizeofBlock` is `sizeof(Block)`. -/
def TemporaryAllocator.add {σ : Type} (sizeofBlock : Nat) (A : Allocator σ) (fuel : Nat)
    (t : TemporaryAllocator) (s : σ) (len : Nat) : Option (Bool × TemporaryAllocator × σ) :=
  match TemporaryAllocator.blockSize fuel len TemporaryAllocator.MIN_BLOCK with
  | none => none
  | some block_size =>
    let r := A.alloc s ((sizeofBlock + block_size) % U64) false
    if r.1 = 0 then some (false, t, r.2)
    else
      some (true,
        t.link { addr := r.1,
                 arena_ := ArenaAllocator.new ((r.1 + sizeofBlock) % U64) block_size },
        r.2)

/-- `tail_->arena_.alloc(new_len, zero)`: `none` when `tail_` is null. -/
def TemporaryAllocator.allocTail (t : TemporaryAllocator) (m : Mem) (new_len : Nat)
    (zero : Bool) : Option (Nat × TemporaryAllocator × Mem) :=
  match t.chain[t.tail]? with
  | none => none
  | some b =>
    let r := b.arena_.alloc m new_len zero
    some (r.1, { t with chain := t.chain.set t.tail { b with arena_ := r.2.1 } }, r.2.2)

/-- `TemporaryAllocator::alloc`: the returned address (0 on failure), the
allocator, the state of the parent allocator and the memory after the call;
`none` when the call has not returned within `fuel` nested calls and loop
steps. -/
def TemporaryAllocator.alloc {σ : Type} (sizeofBlock : Nat) (A : Allocator σ) :
    Nat → TemporaryAllocator → σ → Mem → Nat → Bool →
      Option (Nat × TemporaryAllocator × σ × Mem)
  | 0, _, _, _, _, _ => none
  | fuel + 1, t, s, m, new_len, zero =>
    match (if t.chain = [] then
             TemporaryAllocator.add sizeofBlock A (fuel + 1) t s (Allocator.round new_len)
           else some (true, t, s)) with
    | none => none
    | some (false, t1, s1) => some (0, t1, s1, m)
    | some (true, t1, s1) =>
      match t1.allocTail m (Allocator.round new_len) zero with
      | none => none
      | some (addr, t2, m2) =>
        if addr ≠ 0 then some (addr, t2, s1, m2)
        else
          match TemporaryAllocator.add sizeofBlock A (fuel + 1) t2 s1
              (Allocator.round new_len) with
          | none => none
          | some (false, t3, s3) => some (0, t3, s3, m2)
          | some (true, t3, s3) =>
            TemporaryAllocator.alloc sizeofBlock A fuel t3 s3 m2 (Allocator.round new_len) zero

/-- The walk of `TemporaryAllocator::free` from position `i` towards the
head (`node = node->prev_`): the first block that owns the range frees it. -/
def TemporaryAllocator.freeFrom (chain : List Block) (addr old_len : Nat) :
    Nat → List Block
  | 0 =>
    match chain[0]? with
    | none => chain
    | some b =>
      if b.arena_.owns addr old_len then
        chain.set 0 { b with arena_ := b.arena_.free addr old_len }
      else chain
  | i + 1 =>
    match chain[i + 1]? with
    | none => chain
    | some b =>
      if b.arena_.owns addr old_len then
        chain.set (i + 1) { b with arena_ := b.arena_.free addr old_len }
      else TemporaryAllocator.freeFrom chain addr old_len i

/-- `TemporaryAllocator::free`: the walk starts at `tail_`. -/
def TemporaryAllocator.free (t : TemporaryAllocator) (addr old_len : Nat) :
    TemporaryAllocator :=
  if addr = 0 then t
  else if t.chain = [] then t
  else { t with chain := TemporaryAllocator.freeFrom t.chain addr old_len t.tail }

/-- The walk of `TemporaryAllocator::shrink` from `head_` through `next_`. -/
def TemporaryAllocator.shrinkIn (addr old_len new_len : Nat) : List Block → List Block
  | [] => []
  | b :: bs =>
    if b.arena_.owns addr old_len then
      { b with arena_ := b.arena_.shrink addr old_len new_len } :: bs
    else b :: TemporaryAllocator.shrinkIn addr old_len new_len bs

/-- `TemporaryAllocator::shrink`. -/
def TemporaryAllocator.shrink (t : TemporaryAllocator) (addr old_len new_len : Nat) :
    TemporaryAllocator :=
  { t with chain := TemporaryAllocator.shrinkIn addr old_len new_len t.chain }

/-- The in-place loop of `TemporaryAllocator::grow` from `head_` through
`next_`: every block that owns the range is asked to grow it; the first
non-zero result is returned (0 when there is none). -/
def TemporaryAllocator.growIn (m : Mem) (old_addr old_len new_len : Nat) (zero : Bool) :
    List Block → Nat × List Block × Mem
  | [] => (0, [], m)
  | b :: bs =>
    if b.arena_.owns old_addr old_len then
      let r := b.arena_.grow m old_addr old_len new_len zero
      if r.1 ≠ 0 then (r.1, { b with arena_ := r.2.1 } :: bs, r.2.2)
      else
        let rest := TemporaryAllocator.growIn r.2.2 old_addr old_len new_len zero bs
        (rest.1, { b with arena_ := r.2.1 } :: rest.2.1, rest.2.2)
    else
      let rest := TemporaryAllocator.growIn m old_addr old_len new_len zero bs
      (rest.1, b :: rest.2.1, rest.2.2)

/-- `TemporaryAllocator::grow`. -/
def TemporaryAllocator.grow {σ : Type} (sizeofBlock : Nat) (A : Allocator σ) (fuel : Nat)
    (t : TemporaryAllocator) (s : σ) (m : Mem) (old_addr old_len new_len : Nat) (zero : Bool) :
    Option (Nat × TemporaryAllocator × σ × Mem) :=
  let g := TemporaryAllocator.growIn m old_addr old_len new_len zero t.chain
  if g.1 ≠ 0 then some (g.1, { t with chain := g.2.1 }, s, g.2.2)
  else
    match TemporaryAllocator.alloc sizeofBlock A fuel { t with chain := g.2.1 } s g.2.2
        new_len false with
    | none => none
    | some (new_addr, t1, s1, m1) =>
      if new_addr = 0 then some (0, t1, s1, m1)
      else
        let m2 := Allocator.memcopy m1 new_addr old_addr old_len
        let m3 := if zero then
            Allocator.memzero m2 ((new_addr + old_len) % U64) ((new_len + (U64 - old_len)) % U64)
          else m2
        some (new_addr, t1.free old_addr old_len, s1, m3)

/-- `TemporaryAllocator::reset`: every block reachable from `head_` through
`next_` has its arena reset, and `tail_ = head_`. -/
def TemporaryAllocator.reset (t : TemporaryAllocator) : TemporaryAllocator :=
  { t with chain := t.chain.map (fun b => { b with arena_ := b.arena_.reset }), tail := 0 }

/-- The walk of `TemporaryAllocator::~TemporaryAllocator` from position `i`
towards the head (`node = prev`): each block met is freed to the parent with
length `sizeof(Block) + node->arena_.length()`. -/
def TemporaryAllocator.releaseFrom {σ : Type} (sizeofBlock : Nat) (A : Allocator σ)
    (chain : List Block) (s : σ) : Nat → σ
  | 0 =>
    match chain[0]? with
    | none => s
    | some b => A.free s b.addr ((sizeofBlock + b.arena_.length) % U64)
  | i + 1 =>
    match chain[i + 1]? with
    | none => s
    | some b =>
      TemporaryAllocator.releaseFrom sizeofBlock A chain
        (A.free s b.addr ((sizeofBlock + b.arena_.length) % U64)) i

/-- `TemporaryAllocator::~TemporaryAllocator`: the state of the parent
allocator after the destructor. -/
def TemporaryAllocator.destroy {σ : Type} (sizeofBlock : Nat) (A : Allocator σ)
    (t : TemporaryAllocator) (s : σ) : σ :=
  if t.chain = [] then s
  else TemporaryAllocator.releaseFrom sizeofBlock A t.chain s t.tail

/-- A run of `alloc(len, false)` calls on a `TemporaryAllocator`, one per
request of the list, in order: the returned addresses, the allocator, the
state of the parent allocator and the memory after the last call. -/
def TemporaryAllocator.allocSeq {σ : Type} (sizeofBlock : Nat) (A : Allocator σ) (fuel : Nat) :
    TemporaryAllocator → σ → Mem → List Nat →
      Option (List Nat × TemporaryAllocator × σ × Mem)
  | t, s, m, [] => some ([], t, s, m)
  | t, s, m, n :: ns =>
    match TemporaryAllocator.alloc sizeofBlock A fuel t s m n false with
    | none => none
    | some (addr, t1, s1, m1) =>
      match TemporaryAllocator.allocSeq sizeofBlock A fuel t1 s1 m1 ns with
      | none => none
      | some (addrs, r) => some (addr :: addrs, r)

/-- The state of a parent allocator that records its calls: the next free
address, the blocks handed out by `alloc` and the blocks given to `free`, as
(address, length) pairs, latest first. -/
structure Heap where
  next : Nat
  allocs : List (Nat × Nat)
  frees : List (Nat × Nat)
deriving DecidableEq, Repr

/-- A parent allocator that grants every request that fits below `2^64`, from
fresh 16-byte aligned addresses, refuses the others, and records every call;
used for concrete runs. -/
def Allocator.recording : Allocator Heap :=
  { alloc := fun h len _ =>
      if h.next + len + 32 ≤ U64 then
        (h.next, { h with next := h.next + Allocator.round len + 16,
                          allocs := (h.next, len) :: h.allocs })
      else (0, h),
    free := fun h addr len => { h with frees := (addr, len) :: h.frees },
    shrink := fun h _ _ _ => h,
    grow := fun h _ _ new_len _ =>
      if h.next + new_len + 32 ≤ U64 then
        (h.next, { h with next := h.next + Allocator.round new_len + 16,
                          allocs := (h.next, new_len) :: h.allocs })
      else (0, h) }

/-- A block of a `TemporaryAllocator` is well formed: its address is not
null, its arena starts right after the header, satisfies the cursor
invariant and ends inside the 64-bit address space. -/
def Block.WF (sizeofBlock : Nat) (b : Block) : Prop :=
  b.addr ≠ 0 ∧ b.arena_.region_.beg = b.addr + sizeofBlock ∧ b.arena_.Inv ∧
  b.arena_.region_.end_ < U64

instance (sizeofBlock : Nat) (b : Block) : Decidable (b.WF sizeofBlock) := by
  unfold Block.WF
  infer_instance

/-- A `TemporaryAllocator` is well formed: its blocks are, and `tail_` points
into the chain. -/
def TemporaryAllocator.WF (sizeofBlock : Nat) (t : TemporaryAllocator) : Prop :=
  (∀ b ∈ t.chain, b.WF sizeofBlock) ∧ (t.chain ≠ [] → t.tail < t.chain.length)

instance (sizeofBlock : Nat) (t : TemporaryAllocator) : Decidable (t.WF sizeofBlock) := by
  unfold TemporaryAllocator.WF
  infer_instance

/-- A `TemporaryAllocator` with one 2 MiB block in the upper half of the
address space (header at `2^63`, nothing allocated yet). -/
def TemporaryAllocator.highExample : TemporaryAllocator :=
  { chain := [{ addr := 2 ^ 63,
                arena_ := { region_ := { beg := 2 ^ 63 + 48, end_ := 2 ^ 63 + 48 + 2097152 },
                            cursor_ := 2 ^ 63 + 48 } }],
    tail := 0, lost := [] }

/-- `ScratchAllocator<E>`: the inline arena over `data_[E]` and the spill
`TemporaryAllocator`. -/
structure ScratchAllocator where
  inline_ : ArenaAllocator
  temporary_ : TemporaryAllocator
deriving DecidableEq, Repr

/-- `ScratchAllocator<E>::ScratchAllocator`, for an object whose `data_`
array sits at address `base`. -/
def ScratchAllocator.new (base E : Nat) : ScratchAllocator :=
  { inline_ := ArenaAllocator.new base E, temporary_ := TemporaryAllocator.empty }

/-- `ScratchAllocator::alloc`:
`if (auto addr = inline_.alloc(new_len, zero)) return addr;
return temporary_.alloc(new_len, zero);`. -/
def ScratchAllocator.alloc {σ : Type} (sizeofBlock : Nat) (A : Allocator σ) (fuel : Nat)
    (sc : ScratchAllocator) (s : σ) (m : Mem) (new_len : Nat) (zero : Bool) :
    Option (Nat × ScratchAllocator × σ × Mem) :=
  let r := sc.inline_.alloc m new_len zero
  if r.1 ≠ 0 then some (r.1, { sc with inline_ := r.2.1 }, s, r.2.2)
  else
    match TemporaryAllocator.alloc sizeofBlock A fuel sc.temporary_ s r.2.2 new_len zero with
    | none => none
    | some (addr, t1, s1, m1) => some (addr, { inline_ := r.2.1, temporary_ := t1 }, s1, m1)

/-! ## `Array` (array.hpp) -/

/-- `Array<T>`: `items` are the elements `data_[0 .. length_)`, `capacity_`
the number of slots of the buffer and `data_` its address. -/
structure Array (α : Type) where
  items : List α
  capacity_ : Nat
  data_ : Nat
deriving DecidableEq, Repr

/-- `Array<T>::Array(allocator)`: no buffer, length and capacity 0. -/
def Array.empty {α : Type} : Array α := { items := [], capacity_ := 0, data_ := 0 }

/-- The sizing loop of `Array::reserve`,
`while (capacity < length) capacity = (capacity * RESIZE_FACTOR) / 100;` in
`Ulen` arithmetic, run for at most `fuel` tests of the condition. -/
def Array.growCapacity : Nat → Nat → Nat → Option Nat
  | 0, _, _ => none
  | fuel + 1, length, capacity =>
    if capacity < length then
      Array.growCapacity fuel length (((capacity * 250) % U64) / 100)
    else some capacity

/-- `Array<T>::reserve(length)` with `sizeofT = sizeof(T)`: the result, the
array and the allocator state after the call; `none` when the sizing loop
does not end within `fuel` steps. Destructors of moved-from elements only
pass null pointers to the allocator and are not recorded. -/
def Array.reserve {α σ : Type} (sizeofT : Nat) (A : Allocator σ) (fuel : Nat) (a : Array α)
    (s : σ) (length : Nat) : Option (Bool × Array α × σ) :=
  if length < a.capacity_ then some (true, a, s)
  else
    match Array.growCapacity fuel length 16 with
    | none => none
    | some capacity =>
      let r := A.allocate s sizeofT capacity false
      if r.1 = 0 then some (false, a, r.2)
      else
        some (true, { items := a.items, capacity_ := capacity, data_ := r.1 },
              A.deallocate r.2 sizeofT a.data_ a.capacity_)

/-- `Array<T>::push_back(T&&)`. -/
def Array.push_back {α σ : Type} (sizeofT : Nat) (A : Allocator σ) (fuel : Nat) (a : Array α)
    (s : σ) (value : α) : Option (Bool × Array α × σ) :=
  match Array.reserve sizeofT A fuel a s ((a.items.length + 1) % U64) with
  | none => none
  | some (false, a1, s1) => some (false, a1, s1)
  | some (true, a1, s1) => some (true, { a1 with items := a1.items ++ [value] }, s1)

/-! ## `Slab` (slab.hpp, slab.cpp) -/

/-- `Slab`: the array of caches (`Maybe<Pool>`, `none` for an invalid slot),
the object size and the per-cache capacity given to the constructor. -/
structure Slab where
  caches_ : Array (Option Pool)
  size_ : Nat
  capacity_ : Nat
deriving DecidableEq, Repr

/-- `Slab::Slab(allocator, size, capacity)`. -/
def Slab.new (size capacity : Nat) : Slab :=
  { caches_ := Array.empty, size_ := size, capacity_ := capacity }

/-- The result of one successful `Slab::allocate`: the cache number `i` the
slot was taken from, the pool-local index `c_ref->index`, and the index of
the returned `SlabRef`, `Uint32(i * capacity_) + c_ref->index`. -/
structure SlabTrace where
  cache : Nat
  localIndex : Nat
  index : Nat
deriving DecidableEq, Repr

/-- The first loop of `Slab::allocate`, entered with the loop variable at
`i`: `for (...; i < n_caches; i--)`. `none` when a pool faults; `some none`
when no valid cache has a free slot. -/
def Slab.scan (capacity_ : Nat) (caches : List (Option Pool)) :
    Nat → Option (Option (List (Option Pool) × SlabTrace))
  | 0 =>
    match caches[0]? with
    | none => some none
    | some none => some none
    | some (some pool) =>
      match pool.allocate with
      | none => none
      | some (p1, some l) =>
        some (some (caches.set 0 (some p1),
          { cache := 0, localIndex := l, index := ((0 * capacity_) % U64 % U32 + l) % U32 }))
      | some (_, none) => some none
  | i + 1 =>
    match caches[i + 1]? with
    | none => some none
    | some none => Slab.scan capacity_ caches i
    | some (some pool) =>
      match pool.allocate with
      | none => none
      | some (p1, some l) =>
        some (some (caches.set (i + 1) (some p1),
          { cache := i + 1, localIndex := l,
            index := (((i + 1) * capacity_) % U64 % U32 + l) % U32 }))
      | some (_, none) => Slab.scan capacity_ caches i

/-- The second loop of `Slab::allocate`: the position of the first invalid
cache slot. -/
def Slab.firstInvalid : List (Option Pool) → Option Nat
  | [] => none
  | none :: _ => some 0
  | some _ :: cs => (Slab.firstInvalid cs).map (fun j => j + 1)

/-- `Slab::allocate`, with the cache number and pool-local index of the slot
it takes: the result (`none` for an empty result), the slab and the allocator
state after the call. The outer `none` stands for a call that faults or has
not returned within `fuel` nested calls and loop steps. `sizeofCache` is
`sizeof(Maybe<Pool>)`. When `push_back` fails the new pool is destroyed. -/
def Slab.allocateTraced {σ : Type} (sizeofCache : Nat) (A : Allocator σ) :
    Nat → Slab → σ → Option (Option SlabTrace × Slab × σ)
  | 0, _, _ => none
  | fuel + 1, sl, s =>
    let n_caches := sl.caches_.items.length
    match (if n_caches = 0 then some none
           else Slab.scan sl.capacity_ sl.caches_.items (n_caches - 1)) with
    | none => none
    | some (some (caches, ref)) =>
      some (some ref, { sl with caches_ := { sl.caches_ with items := caches } }, s)
    | some none =>
      let r := Pool.create A s sl.size_ sl.capacity_
      match r.1 with
      | none => some (none, sl, r.2)
      | some pool =>
        match Slab.firstInvalid sl.caches_.items with
        | some j =>
          Slab.allocateTraced sizeofCache A fuel
            { sl with caches_ := { sl.caches_ with items := sl.caches_.items.set j (some pool) } }
            r.2
        | none =>
          match Array.push_back sizeofCache A (fuel + 1) sl.caches_ r.2 (some pool) with
          | none => none
          | some (false, arr, s2) =>
            some (none, { sl with caches_ := arr },
              A.deallocate
                (A.deallocate s2 1 pool.data_ ((pool.size_ * pool.capacity_) % U64))
                8 pool.used_ (pool.capacity_ / BITS))
          | some (true, arr, s2) =>
            Slab.allocateTraced sizeofCache A fuel { sl with caches_ := arr } s2

/-- `Slab::allocate`: the index of the returned `SlabRef`. -/
def Slab.allocate {σ : Type} (sizeofCache : Nat) (A : Allocator σ) (fuel : Nat) (sl : Slab)
    (s : σ) : Option (Option Nat × Slab × σ) :=
  (Slab.allocateTraced sizeofCache A fuel sl s).map
    (fun r => (r.1.map (fun tr => tr.index), r.2))

/-- A run of `n` calls of `Slab::allocate`: the traces of the results in call
order, the slab and the allocator state after the last call. -/
def Slab.allocateN {σ : Type} (sizeofCache : Nat) (A : Allocator σ) (fuel : Nat) :
    Nat → Slab → σ → Option (List (Option SlabTrace) × Slab × σ)
  | 0, sl, s => some ([], sl, s)
  | n + 1, sl, s =>
    match Slab.allocateTraced sizeofCache A fuel sl s with
    | none => none
    | some (r, sl1, s1) =>
      match Slab.allocateN sizeofCache A fuel n sl1 s1 with
      | none => none
      | some (rs, q) => some (r :: rs, q)

/-- `Slab::operator[]` and `Slab::deallocate` split a `SlabRef` into
`cache_idx = Uint32(index / capacity_)` and
`cache_ref = Uint32(index % capacity_)`. -/
def Slab.split (sl : Slab) (index : Nat) : Nat × Nat :=
  ((index / sl.capacity_) % U32, (index % sl.capacity_) % U32)

/-! ## `Slab::deallocate` -/

/-- `Pool::~Pool` (`drop`): both buffers go back to the allocator,
`deallocate(data_, size_ * capacity_)` then
`deallocate(used_, capacity_ / BITS)`. -/
def Pool.drop {σ : Type} (A : Allocator σ) (s : σ) (p : Pool) : σ :=
  A.deallocate (A.deallocate s 1 p.data_ ((p.size_ * p.capacity_) % U64))
    8 p.used_ (p.capacity_ / BITS)

/-- The loop of `Slab::deallocate`,
`while (!caches_.is_empty() && (*cache)->is_empty())`, with `cache` pointing
at slot `k`, for at most `fuel` tests of the condition. `none` is a fault:
`cache` points outside the array (after the last slot was popped,
`&caches_.last()` is `data_ - 1`) or at an invalid slot whose value is read. -/
def Slab.compact {σ : Type} (A : Allocator σ) :
    Nat → List (Option Pool) → Nat → σ → Option (List (Option Pool) × σ)
  | 0, _, _, _ => none
  | fuel + 1, caches, k, s =>
    if caches = [] then some (caches, s)
    else
      match caches[k]? with
      | none => none
      | some none => none
      | some (some pool) =>
        if pool.length_ ≠ 0 then some (caches, s)
        else if k ≠ caches.length - 1 then some (caches.set k none, pool.drop A s)
        else if caches.dropLast = [] then none
        else
          match caches.dropLast.getLast? with
          | some (some _) =>
            Slab.compact A fuel caches.dropLast (caches.dropLast.length - 1) (pool.drop A s)
          | _ => some (caches.dropLast, pool.drop A s)

/-- `Slab::deallocate`: the slab and the allocator state after the call;
`none` when the call faults (division by a zero capacity, a cache index
outside the array, an invalid cache, a pool access outside its buffer, or a
fault of the compaction loop). -/
def Slab.deallocate {σ : Type} (A : Allocator σ) (sl : Slab) (s : σ) (index : Nat) :
    Option (Slab × σ) :=
  if sl.capacity_ = 0 then none
  else
    let cache_idx := (index / sl.capacity_) % U32
    let cache_ref := (index % sl.capacity_) % U32
    match sl.caches_.items[cache_idx]? with
    | none => none
    | some none => none
    | some (some pool) =>
      match pool.deallocate cache_ref with
      | none => none
      | some p1 =>
        match Slab.compact A (sl.caches_.items.length + 1)
            (sl.caches_.items.set cache_idx (some p1)) cache_idx s with
        | none => none
        | some (caches, s1) =>
          some ({ sl with caches_ := { sl.caches_ with items := caches } }, s1)

/-- A run of `Slab::deallocate` calls, one per index of the list, in order;
`none` when a call faults. -/
def Slab.deallocateSeq {σ : Type} (A : Allocator σ) : Slab → σ → List Nat → Option (Slab × σ)
  | sl, s, [] => some (sl, s)
  | sl, s, i :: is =>
    match Slab.deallocate A sl s i with
    | none => none
    | some (sl1, s1) => Slab.deallocateSeq A sl1 s1 is

/-! ## `Array::resize` and `Array::copy` (array.hpp) -/

/-- `Array<T>::resize(length)` for an element type whose default value is
`dflt` (element destructors are not recorded). Shrinking keeps the first
`length` elements; growing reserves and default-constructs the new slots. -/
def Array.resize {α σ : Type} (sizeofT : Nat) (A : Allocator σ) (fuel : Nat) (a : Array α)
    (s : σ) (length : Nat) (dflt : α) : Option (Bool × Array α × σ) :=
  if length < a.items.length then some (true, { a with items := a.items.take length }, s)
  else if length > a.items.length then
    match Array.reserve sizeofT A fuel a s length with
    | none => none
    | some (false, a1, s1) => some (false, a1, s1)
    | some (true, a1, s1) =>
      some (true,
        { a1 with items := a1.items ++ List.replicate (length - a1.items.length) dflt }, s1)
  else some (true, a, s)

/-- The loop of `Array::copy`, `for (Ulen i = ...; i < length_; i++)`, with
the loop variable at `i` and at most `n` iterations left: each iteration
copy-constructs `data_[i]` into the result and increments `result.length_`. -/
def Array.copyLoop {α : Type} (src : List α) : Nat → Nat → Array α → Array α
  | 0, _, result => result
  | n + 1, i, result =>
    match (if i < src.length then src[i]? else none) with
    | none => result
    | some x => Array.copyLoop src n ((i + 1) % U64) { result with items := result.items ++ [x] }

/-- `Array<T>::copy(allocator)` for a copy-constructible element type:
`result.reserve(length_)`, then the loop, which the source starts at
`i = length_`. The result (`none` for an empty `Maybe`) and the allocator
state after the call. -/
def Array.copy {α σ : Type} (sizeofT : Nat) (A : Allocator σ) (fuel : Nat) (a : Array α)
    (s : σ) : Option (Option (Array α) × σ) :=
  match Array.reserve sizeofT A fuel (Array.empty : Array α) s a.items.length with
  | none => none
  | some (false, _, s1) => some (none, s1)
  | some (true, result, s1) =>
    some (some (Array.copyLoop a.items a.items.length a.items.length result), s1)

/-! ## `Slab::save` and `Slab::load` (slab.cpp) -/

/-- The `n` bytes of memory from `addr`. -/
def Mem.bytes (m : Mem) (addr n : Nat) : List Nat :=
  (List.range n).map (fun i => m (addr + i))

/-- The memory after the given bytes are stored from `addr`. -/
def Mem.storeBytes (m : Mem) (addr : Nat) : List Nat → Mem
  | [] => m
  | b :: bs => Mem.storeBytes (m.store addr b) (addr + 1) bs

/-- The `Uint32` stored at `addr` (little-endian). -/
def Mem.read32 (m : Mem) (addr : Nat) : Nat := fromLE (m.bytes addr 4)

/-- The memory after the `Uint32` value `v` is stored at `addr`. -/
def Mem.write32 (m : Mem) (addr v : Nat) : Mem := m.storeBytes addr (toLE 4 v)

/-- `SlabHeader`, the serialized head of a slab. -/
structure SlabHeader where
  magic : List Nat
  version : Nat
  size : Nat
  capacity : Nat
  caches : Nat
deriving DecidableEq, Repr

/-- The 32-byte in-memory image of a `SlabHeader`. -/
def SlabHeader.toBytes (h : SlabHeader) : List Nat :=
  h.magic.take 4 ++ toLE 4 h.version ++ toLE 8 h.size ++ toLE 8 h.capacity ++ toLE 8 h.caches

/-- The `SlabHeader` whose in-memory image is the given 32 bytes. -/
def SlabHeader.ofBytes (bs : List Nat) : SlabHeader :=
  { magic := bs.take 4,
    version := fromLE ((bs.drop 4).take 4),
    size := fromLE ((bs.drop 8).take 8),
    capacity := fromLE ((bs.drop 16).take 8),
    caches := fromLE ((bs.drop 24).take 8) }

/-- The bytes of `"slab"`. -/
def slabMagic : List Nat := [115, 108, 97, 98]

/-- The first loop of `Slab::save`: for every valid cache, in order,
`used[Uint32(i / 32)] |= 1_u32 << Uint32(i % 32)`, with `used` the address
of the scratch buffer and `i` the running slot number. -/
def Slab.markUsed (used : Nat) : List (Option Pool) → Nat → Mem → Mem
  | [], _, m => m
  | none :: cs, i, m => Slab.markUsed used cs ((i + 1) % U64) m
  | some _ :: cs, i, m =>
    Slab.markUsed used cs ((i + 1) % U64)
      (m.write32 ((used + 4 * ((i / 32) % U32)) % U64)
        ((m.read32 ((used + 4 * ((i / 32) % U32)) % U64)
          ||| ((1 <<< ((i % 32) % U32)) % U32)) % U32))

/-- The second loop of `Slab::save`: every valid cache is saved, in order. -/
def Slab.savePools : List (Option Pool) → Stream → Bool × Stream
  | [], st => (true, st)
  | none :: cs, st => Slab.savePools cs st
  | some p :: cs, st =>
    if (p.save st).1 = false then (false, (p.save st).2)
    else Slab.savePools cs (p.save st).2

/-- `Slab::save`: the result, the allocator state, the memory and the
stream after the call; `none` when the scratch allocation has not returned
within `fuel` steps. `scratchBase` is the address of the 1024 inline bytes of
the local `ScratchAllocator<1024>`, `sizeofBlock` is
`sizeof(TemporaryAllocator::Block)`. The scratch allocator is destroyed on
return. -/
def Slab.save {σ : Type} (sizeofBlock : Nat) (A : Allocator σ) (fuel scratchBase : Nat)
    (sl : Slab) (s : σ) (m : Mem) (st : Stream) : Option (Bool × σ × Mem × Stream) :=
  let header : SlabHeader :=
    { magic := slabMagic, version := 1, size := sl.size_ % U64,
      capacity := sl.capacity_ % U64, caches := sl.caches_.items.length % U64 }
  let n_words := sl.capacity_ / 32
  match ScratchAllocator.alloc sizeofBlock A fuel (ScratchAllocator.new scratchBase 1024) s m
      ((n_words * 4) % U64) true with
  | none => none
  | some (used, sc, s1, m1) =>
    if used = 0 then some (false, TemporaryAllocator.destroy sizeofBlock A sc.temporary_ s1, m1, st)
    else
      let m2 := Slab.markUsed used sl.caches_.items 0 m1
      let w1 := st.write header.toBytes
      if w1.1 = false then
        some (false, TemporaryAllocator.destroy sizeofBlock A sc.temporary_ s1, m2, w1.2)
      else
        let w2 := w1.2.write (m2.bytes used ((n_words * 4) % U64))
        if w2.1 = false then
          some (false, TemporaryAllocator.destroy sizeofBlock A sc.temporary_ s1, m2, w2.2)
        else
          let w3 := Slab.savePools sl.caches_.items w2.2
          some (w3.1, TemporaryAllocator.destroy sizeofBlock A sc.temporary_ s1, m2, w3.2)

/-- `Array<Maybe<Pool>>::~Array` for a live array: the elements are destroyed
from the last to the first (a valid cache releases its pool), then the
buffer is deallocated. -/
def Slab.dropCaches {σ : Type} (sizeofCache : Nat) (A : Allocator σ)
    (arr : Array (Option Pool)) (s : σ) : σ :=
  A.deallocate
    (arr.items.reverse.foldl
      (fun acc c => match c with
        | some p => p.drop A acc
        | none => acc) s)
    sizeofCache arr.data_ arr.capacity_

/-- The loop of `Slab::load` over the cache slots, with the loop variable at
`i` and `n` slots left: a slot whose bit is set in `used` is loaded with
`Pool::load`. The result tells whether every load succeeded. -/
def Slab.loadCaches {σ : Type} (A : Allocator σ) (m : Mem) (used : Nat) :
    Nat → Nat → List (Option Pool) → σ → Stream → Bool × List (Option Pool) × σ × Stream
  | 0, _, caches, s, st => (true, caches, s, st)
  | n + 1, i, caches, s, st =>
    if m.read32 ((used + 4 * ((i / 32) % U32)) % U64) &&& ((1 <<< ((i % 32) % U32)) % U32) ≠ 0
    then
      match (Pool.load A s st).1 with
      | some cache =>
        Slab.loadCaches A m used n ((i + 1) % U64) (caches.set i (some cache))
          (Pool.load A s st).2.1 (Pool.load A s st).2.2
      | none => (false, caches, (Pool.load A s st).2.1, (Pool.load A s st).2.2)
    else Slab.loadCaches A m used n ((i + 1) % U64) caches s st

/-- `Slab::load`: the slab, or `none` for an empty result, the allocator
state, the memory and the stream after the call; the outer `none` when a
sizing loop has not ended within `fuel` steps. `scratchBase`, `sizeofBlock`
as for `Slab::save`, `sizeofCache` is `sizeof(Maybe<Pool>)`. On a failure the
local array of caches and the scratch allocator are destroyed. -/
def Slab.load {σ : Type} (sizeofBlock sizeofCache : Nat) (A : Allocator σ)
    (fuel scratchBase : Nat) (s : σ) (m : Mem) (st : Stream) :
    Option (Option Slab × σ × Mem × Stream) :=
  let r0 := st.read 32
  if r0.1 = false then some (none, s, m, r0.2.2)
  else
    let header := SlabHeader.ofBytes r0.2.1
    if header.magic ≠ slabMagic then some (none, s, m, r0.2.2)
    else if header.version ≠ 1 then some (none, s, m, r0.2.2)
    else
      let n_words := header.capacity / 32
      match ScratchAllocator.alloc sizeofBlock A fuel (ScratchAllocator.new scratchBase 1024)
          s m ((n_words * 4) % U64) true with
      | none => none
      | some (used, sc, s1, m1) =>
        if used = 0 then
          some (none, TemporaryAllocator.destroy sizeofBlock A sc.temporary_ s1, m1, r0.2.2)
        else
          let r1 := r0.2.2.read ((n_words * 4) % U64)
          let m2 := m1.storeBytes used r1.2.1
          if r1.1 = false then
            some (none, TemporaryAllocator.destroy sizeofBlock A sc.temporary_ s1, m2, r1.2.2)
          else
            match Array.resize sizeofCache A fuel (Array.empty : Array (Option Pool)) s1
                header.caches none with
            | none => none
            | some (false, arr, s2) =>
              some (none,
                TemporaryAllocator.destroy sizeofBlock A sc.temporary_
                  (Slab.dropCaches sizeofCache A arr s2), m2, r1.2.2)
            | some (true, arr, s2) =>
              let r := Slab.loadCaches A m2 used header.caches 0 arr.items s2 r1.2.2
              if r.1 = false then
                some (none,
                  TemporaryAllocator.destroy sizeofBlock A sc.temporary_
                    (Slab.dropCaches sizeofCache A { arr with items := r.2.1 } r.2.2.1),
                  m2, r.2.2.2)
              else
                some (some { caches_ := { arr with items := r.2.1 },
                             size_ := header.size, capacity_ := header.capacity },
                  TemporaryAllocator.destroy sizeofBlock A sc.temporary_ r.2.2.1, m2, r.2.2.2)

/-- A pool in a consistent state on which `allocate` does not fault: the
representation invariant, and `last_` inside the occupancy buffer. -/
def Pool.Ready (p : Pool) : Prop :=
  p.Good ∧ p.last_ < p.usedMem.length

/-- The invariant of the caches of a slab: the per-cache capacity is one
that `Pool::create` rounds up to a multiple of 64 without wrapping, and
every populated cache is a ready pool that holds at least one object. -/
def Slab.Inv (sl : Slab) : Prop :=
  sl.size_ < U64 ∧ 1 ≤ sl.capacity_ ∧ sl.capacity_ + 64 ≤ U64 ∧
  ∀ p, some p ∈ sl.caches_.items → p.Ready ∧ p.length_ ≠ 0

/-- The states of a slab that a client can reach: an empty `Slab` with a
per-cache capacity between 1 and `2^64 - 64`, then calls of `allocate` that return
and calls of `deallocate(ref)` that return, for a `ref` whose object is in
use (the slot `deallocate` splits `ref` into is occupied), on any allocator
in any state. -/
inductive Slab.Reachable : Slab → Prop
  | new (size capacity : Nat) :
      size < U64 → 1 ≤ capacity → capacity + 64 ≤ U64 →
      Slab.Reachable (Slab.new size capacity)
  | allocate {σ : Type} (sizeofCache : Nat) (A : Allocator σ) (fuel : Nat) (sl sl1 : Slab)
      (s s1 : σ) (r : Option SlabTrace) :
      Slab.Reachable sl →
      Slab.allocateTraced sizeofCache A fuel sl s = some (r, sl1, s1) → Slab.Reachable sl1
  | deallocate {σ : Type} (A : Allocator σ) (sl sl1 : Slab) (s s1 : σ) (index : Nat)
      (pool : Pool) :
      Slab.Reachable sl →
      sl.caches_.items[(sl.split index).1]? = some (some pool) →
      pool.isUsed (sl.split index).2 = true →
      Slab.deallocate A sl s index = some (sl1, s1) → Slab.Reachable sl1

/-! ## `Array::pop_front` (array.hpp) -/

/-- The loop of `Array::pop_front`,
`for (Ulen i = 1; i < length_; i--) data_[i - 1] = move(data_[i]);`, with the
loop variable at `i`, for at most `fuel` tests of the condition: the elements
`data_[0 .. length_)` after the loop and the indices the loop has accessed,
in order (the load of `data_[i]`, then the store to `data_[i - 1]`, the index
computed in `Ulen` arithmetic). A store to an index outside the elements is
recorded and changes no element. `none` when the loop has not ended within
`fuel` tests. -/
def Array.popFrontLoop {α : Type} : Nat → Nat → List α → List Nat → Option (List α × List Nat)
  | 0, _, _, _ => none
  | fuel + 1, i, items, log =>
    if i < items.length then
      match items[i]? with
      | none => none
      | some v =>
        Array.popFrontLoop fuel ((i + (U64 - 1)) % U64)
          (items.set ((i + (U64 - 1)) % U64) v) (log ++ [i, (i + (U64 - 1)) % U64])
    else some (items, log)

/-- `Array<T>::pop_front()` for a trivially destructible element type and an
array of length at least 1: the array after the call (`length_--` drops the
last slot) and the indices of `data_` that the call has accessed. `none` for
an empty array (`length_--` wraps) or when the loop has not ended within
`fuel` tests. -/
def Array.pop_front {α : Type} (fuel : Nat) (a : Array α) : Option (Array α × List Nat) :=
  if a.items.length = 0 then none
  else
    match Array.popFrontLoop fuel 1 a.items [] with
    | none => none
    | some (items, log) => some ({ a with items := items.dropLast }, log)

/-! ## `File::read` and `File::write` (file.cpp) -/

/-- An abstract file of `Filesystem`: its bytes and, for a `read_file` or
`write_file` call at `offset` with a slice of `len` bytes, the number of
bytes that the call transfers (`pread` and `pwrite` may transfer fewer bytes
than asked). -/
structure FsFile where
  content : List Nat
  chunk : Nat → Nat → Nat

/-- `Filesystem::read_file(file, offset, data)` for a slice of `len` bytes:
the returned count and the bytes stored at the start of the slice. -/
def Filesystem.read_file (f : FsFile) (offset len : Nat) : Nat × List Nat :=
  (f.chunk offset len, (f.content.drop offset).take (f.chunk offset len))

/-- `Filesystem::write_file(file, offset, data)`: the returned count and the
file after the first `count` bytes of the slice went to `offset`. -/
def Filesystem.write_file (f : FsFile) (offset : Nat) (data : List Nat) : Nat × FsFile :=
  (f.chunk offset data.length,
   { f with content := f.content.take offset ++ data.take (f.chunk offset data.length)
              ++ f.content.drop (offset + f.chunk offset data.length) })

/-- The loop of `File::read`, `while (total < data.length())`, for at most
`fuel` tests of the condition. `done` are the bytes stored so far (the part
of the caller's buffer before the current `data`), `len` is the current
`data.length()`, which `data = data.slice(rd)` reduces by `rd`. The result is
`total` and the bytes stored into the buffer. -/
def File.readLoop (f : FsFile) : Nat → Nat → Nat → Nat → List Nat → Option (Nat × List Nat)
  | 0, _, _, _, _ => none
  | fuel + 1, total, offset, len, done =>
    if total < len then
      if (Filesystem.read_file f offset len).1 ≠ 0 then
        File.readLoop f fuel ((total + (Filesystem.read_file f offset len).1) % U64)
          ((offset + (Filesystem.read_file f offset len).1) % U64)
          ((len + (U64 - (Filesystem.read_file f offset len).1)) % U64)
          (done ++ (Filesystem.read_file f offset len).2)
      else some (total, done)
    else some (total, done)

/-- `File::read(offset, data)` for a slice of `n` bytes: the returned total
and the bytes stored into the slice, from its start. -/
def File.read (f : FsFile) (fuel offset n : Nat) : Option (Nat × List Nat) :=
  File.readLoop f fuel 0 offset n []

/-- The loop of `File::write`, `while (total < data.length())`, for at most
`fuel` tests of the condition; `data` is the current slice, which
`data = data.slice(wr)` shortens by `wr` from the front. The result is
`total` and the file after the loop. -/
def File.writeLoop : Nat → FsFile → Nat → Nat → List Nat → Option (Nat × FsFile)
  | 0, _, _, _, _ => none
  | fuel + 1, f, total, offset, data =>
    if total < data.length then
      if (Filesystem.write_file f offset data).1 ≠ 0 then
        File.writeLoop fuel (Filesystem.write_file f offset data).2
          ((total + (Filesystem.write_file f offset data).1) % U64)
          ((offset + (Filesystem.write_file f offset data).1) % U64)
          (data.drop (Filesystem.write_file f offset data).1)
      else some (total, f)
    else some (total, f)

/-- `File::write(offset, data)`: the returned total and the file after the
call. -/
def File.write (f : FsFile) (fuel offset : Nat) (data : List Nat) : Option (Nat × FsFile) :=
  File.writeLoop fuel f 0 offset data

/-- `FileStream::read(data)` for a slice of `n` bytes over a file: the
result `nb == data.length()`, the bytes stored and the new `offset_`. -/
def FileStream.read (f : FsFile) (fuel offset_ n : Nat) : Option (Bool × List Nat × Nat) :=
  match File.read f fuel offset_ n with
  | none => none
  | some (nb, bytes) => some (decide (nb = n), bytes, (offset_ + nb) % U64)

/-- A file of ten bytes whose `read_file` and `write_file` transfer at most
six bytes per call. -/
def FsFile.tenBytes : FsFile :=
  { content := [1, 2, 3, 4, 5, 6, 7, 8, 9, 10], chunk := fun _ len => min len 6 }

/-! ## `StringBuilder` (string.hpp, string.cpp) -/

/-- `StringBuilder`: the array of characters `build_`, the error flag and the
last token `last_` as an (address, length) pair. -/
structure StringBuilder where
  build_ : Array Nat
  error_ : Bool
  last_ : Nat × Nat
deriving DecidableEq, Repr

/-- `StringBuilder::StringBuilder(allocator)`. -/
def StringBuilder.new : StringBuilder :=
  { build_ := Array.empty, error_ := false, last_ := (0, 0) }

/-- `StringBuilder::put(char)`:
`error_ = !build_.push_back(ch); last_ = { &build_.last(), 1 };`. -/
def StringBuilder.put_char {σ : Type} (A : Allocator σ) (fuel : Nat) (b : StringBuilder) (s : σ)
    (ch : Nat) : Option (StringBuilder × σ) :=
  match Array.push_back 1 A fuel b.build_ s ch with
  | none => none
  | some (ok, arr, s1) =>
    some ({ build_ := arr, error_ := !ok,
            last_ := ((arr.data_ + (arr.items.length + (U64 - 1)) % U64) % U64, 1) }, s1)

/-- The copy loop of `StringBuilder::put(StringView)`,
`for (Ulen i = 0; i < len; i++) build_[offset + i] = view[i];`, with the loop
variable at `i` and the characters `view[i ..]` still to store; `none` when a
store falls outside the elements of `build_`. -/
def StringBuilder.copyView (offset : Nat) : Nat → List Nat → List Nat → Option (List Nat)
  | _, [], items => some items
  | i, c :: cs, items =>
    if (offset + i) % U64 < items.length then
      StringBuilder.copyView offset (i + 1) cs (items.set ((offset + i) % U64) c)
    else none

/-- `StringBuilder::put(StringView)`: `build_.resize(offset + view.length())`
(new characters are value-initialised to 0), then the copy loop, then
`last_ = { &build_[offset], len }`. -/
def StringBuilder.put_view {σ : Type} (A : Allocator σ) (fuel : Nat) (b : StringBuilder) (s : σ)
    (view : List Nat) : Option (StringBuilder × σ) :=
  match Array.resize 1 A fuel b.build_ s ((b.build_.items.length + view.length) % U64) 0 with
  | none => none
  | some (false, arr, s1) => some ({ b with build_ := arr, error_ := true }, s1)
  | some (true, arr, s1) =>
    match StringBuilder.copyView b.build_.items.length 0 view arr.items with
    | none => none
    | some items =>
      some ({ build_ := { arr with items := items }, error_ := b.error_,
              last_ := ((arr.data_ + b.build_.items.length) % U64, view.length) }, s1)

/-- `StringBuilder::rep(n, ch)`: `for (Ulen i = 0; i < n; i++) put(ch);`. -/
def StringBuilder.rep {σ : Type} (A : Allocator σ) (fuel : Nat) :
    Nat → StringBuilder → σ → Nat → Option (StringBuilder × σ)
  | 0, b, s, _ => some (b, s)
  | n + 1, b, s, ch =>
    match StringBuilder.put_char A fuel b s ch with
    | none => none
    | some (b1, s1) => StringBuilder.rep A fuel n b1 s1 ch

/-- `StringBuilder::lpad(Ulen n, StringView view, char pad)`:
`if (n >= l) rep(n - 1, pad); put(view);` with `l = view.length()`. -/
def StringBuilder.lpad_view {σ : Type} (A : Allocator σ) (fuel : Nat) (b : StringBuilder)
    (s : σ) (n : Nat) (view : List Nat) (pad : Nat) : Option (StringBuilder × σ) :=
  match (if n ≥ view.length then StringBuilder.rep A fuel ((n + (U64 - 1)) % U64) b s pad
         else some (b, s)) with
  | none => none
  | some (b1, s1) => StringBuilder.put_view A fuel b1 s1 view

/-- `StringBuilder::rpad(Ulen n, StringView view, char pad)`:
`put(view); if (n >= l) rep(n - l, pad);` with `l = view.length()`. -/
def StringBuilder.rpad_view {σ : Type} (A : Allocator σ) (fuel : Nat) (b : StringBuilder)
    (s : σ) (n : Nat) (view : List Nat) (pad : Nat) : Option (StringBuilder × σ) :=
  match StringBuilder.put_view A fuel b s view with
  | none => none
  | some (b1, s1) =>
    if n ≥ view.length then
      StringBuilder.rep A fuel ((n + (U64 - view.length)) % U64) b1 s1 pad
    else some (b1, s1)

/-! ## `Rune::encode_utf8` (unicode.cpp) -/

/-- `Rune::encode_utf8(dest)` for the rune `v_ = v` and a destination slice
with data pointer `data` (0 for `nullptr`) and bytes `dest`: the returned
length and the bytes of the destination after the call. Each
`static_cast<Uint8>` keeps the low 8 bits. -/
def Rune.encode_utf8 (v data : Nat) (dest : List Nat) : Nat × List Nat :=
  if v > 0x10FFFF then (0, dest)
  else if v ≥ 0xD800 ∧ v ≤ 0xDFFF then (0, dest)
  else if data = 0 then (0, dest)
  else if v < 0x80 then
    if dest.length < 1 then (0, dest)
    else (1, dest.set 0 (v % 256))
  else if v < 0x800 then
    if dest.length < 2 then (0, dest)
    else (2, (dest.set 0 ((0xC0 ||| (v >>> 6)) % 256)).set 1 ((0x80 ||| (v &&& 0x3F)) % 256))
  else if v < 0x10000 then
    if dest.length < 3 then (0, dest)
    else
      (3, ((dest.set 0 ((0xE0 ||| (v >>> 12)) % 256)).set 1
              ((0x80 ||| ((v >>> 6) &&& 0x3F)) % 256)).set 2 ((0x80 ||| (v &&& 0x3F)) % 256))
  else
    if dest.length < 4 then (0, dest)
    else
      (4, (((dest.set 0 ((0xF0 ||| (v >>> 18)) % 256)).set 1
              ((0x80 ||| ((v >>> 12) &&& 0x3F)) % 256)).set 2
              ((0x80 ||| ((v >>> 6) &&& 0x3F)) % 256)).set 3 ((0x80 ||| (v &&& 0x3F)) % 256))

/-- The reference that `Rune::encode_utf8` is compared with: the standard
UTF-8 encoding of a code point (RFC 3629, section 3). One byte `0xxxxxxx`
below `0x80`; two bytes `110xxxxx 10xxxxxx` below `0x800`; three bytes
`1110xxxx 10xxxxxx 10xxxxxx` below `0x10000`; four bytes
`11110xxx 10xxxxxx 10xxxxxx 10xxxxxx` otherwise, the bits of the code point
filling the `x` positions from the highest to the lowest. -/
def Utf8.standardEncoding (v : Nat) : List Nat :=
  if v < 0x80 then [v]
  else if v < 0x800 then [0xC0 + v / 64, 0x80 + v % 64]
  else if v < 0x10000 then [0xE0 + v / 4096, 0x80 + v / 64 % 64, 0x80 + v % 64]
  else [0xF0 + v / 262144, 0x80 + v / 4096 % 64, 0x80 + v / 64 % 64, 0x80 + v % 64]

/-- The standard UTF-8 decoder for one encoded sequence (RFC 3629): the lead
byte gives the length, every other byte is a continuation byte `10xxxxxx`,
and overlong forms, surrogates and values above `0x10FFFF` are rejected. -/
def Utf8.standardDecode : List Nat → Option Nat
  | [b0] => if b0 < 0x80 then some b0 else none
  | [b0, b1] =>
    if 0xC0 ≤ b0 ∧ b0 < 0xE0 ∧ 0x80 ≤ b1 ∧ b1 < 0xC0 ∧
        0x80 ≤ (b0 - 0xC0) * 64 + (b1 - 0x80) then
      some ((b0 - 0xC0) * 64 + (b1 - 0x80))
    else none
  | [b0, b1, b2] =>
    if 0xE0 ≤ b0 ∧ b0 < 0xF0 ∧ 0x80 ≤ b1 ∧ b1 < 0xC0 ∧ 0x80 ≤ b2 ∧ b2 < 0xC0 ∧
        0x800 ≤ (b0 - 0xE0) * 4096 + (b1 - 0x80) * 64 + (b2 - 0x80) ∧
        ¬ (0xD800 ≤ (b0 - 0xE0) * 4096 + (b1 - 0x80) * 64 + (b2 - 0x80) ∧
           (b0 - 0xE0) * 4096 + (b1 - 0x80) * 64 + (b2 - 0x80) ≤ 0xDFFF) then
      some ((b0 - 0xE0) * 4096 + (b1 - 0x80) * 64 + (b2 - 0x80))
    else none
  | [b0, b1, b2, b3] =>
    if 0xF0 ≤ b0 ∧ b0 < 0xF8 ∧ 0x80 ≤ b1 ∧ b1 < 0xC0 ∧ 0x80 ≤ b2 ∧ b2 < 0xC0 ∧
        0x80 ≤ b3 ∧ b3 < 0xC0 ∧
        0x10000 ≤ (b0 - 0xF0) * 262144 + (b1 - 0x80) * 4096 + (b2 - 0x80) * 64 + (b3 - 0x80) ∧
        (b0 - 0xF0) * 262144 + (b1 - 0x80) * 4096 + (b2 - 0x80) * 64 + (b3 - 0x80)
          ≤ 0x10FFFF then
      some ((b0 - 0xF0) * 262144 + (b1 - 0x80) * 4096 + (b2 - 0x80) * 64 + (b3 - 0x80))
    else none
  | _ => none

/-! ## `ArenaAllocator` behind the `Allocator` interface -/

/-- `ArenaAllocator` as an `Allocator`: the state is the arena together with
the memory that `alloc` and `grow` zero and copy. -/
def Allocator.arena : Allocator (ArenaAllocator × Mem) :=
  { alloc := fun s len zero => ((s.1.alloc s.2 len zero).1, (s.1.alloc s.2 len zero).2),
    free := fun s addr len => (s.1.free addr len, s.2),
    shrink := fun s addr old_len new_len => (s.1.shrink addr old_len new_len, s.2),
    grow := fun s addr old_len new_len zero =>
      ((s.1.grow s.2 addr old_len new_len zero).1, (s.1.grow s.2 addr old_len new_len zero).2) }

theorem Allocator.round_eq (len : Nat) (h : len < U64) :
    Allocator.round len = ((len + 15) % U64) / 16 * 16 := by
  unfold Allocator.round U64 at *
  omega

theorem Allocator.round_lt (len : Nat) : Allocator.round len < U64 := by
  unfold Allocator.round U64
  omega

theorem Allocator.round_of_le (len : Nat) (h : len + 16 ≤ U64) :
    Allocator.round len = (len + 15) / 16 * 16 := by
  unfold Allocator.round U64 at *
  omega

theorem Allocator.le_round (len : Nat) (h : len + 16 ≤ U64) : len ≤ Allocator.round len := by
  unfold Allocator.round U64 at *
  omega

/-! ## `ArenaAllocator::alloc` -/

theorem ArenaAllocator.alloc_fail (a : ArenaAllocator) (m : Mem) (n : Nat) (zero : Bool)
    (hno : a.cursor_ + Allocator.round n < U64)
    (h : a.region_.end_ < a.cursor_ + Allocator.round n) :
    a.alloc m n zero = (0, a, m) := by
  unfold ArenaAllocator.alloc
  simp only
  rw [Nat.mod_eq_of_lt hno, if_pos h]

theorem ArenaAllocator.alloc_ok (a : ArenaAllocator) (m : Mem) (n : Nat)
    (hno : a.cursor_ + Allocator.round n < U64)
    (h : a.cursor_ + Allocator.round n ≤ a.region_.end_) :
    a.alloc m n false
      = (a.cursor_, { a with cursor_ := a.cursor_ + Allocator.round n }, m) := by
  unfold ArenaAllocator.alloc
  simp only
  rw [Nat.mod_eq_of_lt hno, if_neg (by omega)]
  simp

theorem ArenaAllocator.allocSeq_ok (ns : List Nat) :
    ∀ (a : ArenaAllocator) (m : Mem),
      0 < a.cursor_ →
      a.cursor_ + (ns.map Allocator.round).sum < U64 →
      a.cursor_ + (ns.map Allocator.round).sum ≤ a.region_.end_ →
      (∀ x ∈ (a.allocSeq m ns).1, x ≠ 0) ∧
      (a.allocSeq m ns).1.length = ns.length ∧
      (a.allocSeq m ns).2.1 = { a with cursor_ := a.cursor_ + (ns.map Allocator.round).sum } ∧
      (a.allocSeq m ns).2.2 = m := by
  induction ns with
  | nil => intro a m _ _ _; simp [ArenaAllocator.allocSeq]
  | cons n ns ih =>
    intro a m hpos hno hle
    simp only [List.map_cons, List.sum_cons] at hno hle
    have h1 := ArenaAllocator.alloc_ok a m n (by omega) (by omega)
    have hrec := ih { a with cursor_ := a.cursor_ + Allocator.round n } m
      (by simp; omega) (by simp; omega) (by simp; omega)
    simp only [ArenaAllocator.allocSeq, h1, List.map_cons, List.sum_cons]
    obtain ⟨r1, r2, r3, r4⟩ := hrec
    refine ⟨?_, ?_, ?_, ?_⟩
    · intro x hx
      simp only [List.mem_cons] at hx
      rcases hx with rfl | hx
      · omega
      · exact r1 x hx
    · simp [r2]
    · rw [r3]; simp [Nat.add_assoc]
    · exact r4

/-- C2. Arena bump correctness. For an arena with a non-zero base and
`begin ≤ cursor ≤ end`, and requests whose rounded lengths do not carry the
cursor past the 64-bit address range: `alloc(n, false)` returns 0 and leaves
the arena unchanged when `(cursor - begin) + round(n) > L`, and otherwise
returns the old (non-zero) cursor and advances the cursor by exactly
`round(n)`; so it returns 0 exactly when the request would exceed `L`.
A run of `alloc` calls whose cumulative rounded length stays within `L`
succeeds throughout (every address non-zero, cursor advanced by the sum), and
the next request fails exactly when it would exceed `L`. -/
theorem arena_bump_correctness (a : ArenaAllocator) (m : Mem) (ns : List Nat) (n : Nat)
    (hbase : 0 < a.region_.beg)
    (hlo : a.region_.beg ≤ a.cursor_) (hhi : a.cursor_ ≤ a.region_.end_)
    (hno : a.cursor_ + ((ns.map Allocator.round).sum + Allocator.round n) < U64) :
    let L := a.region_.end_ - a.region_.beg
    let used := a.cursor_ - a.region_.beg
    let total := (ns.map Allocator.round).sum
    let s := a.allocSeq m ns
    ((a.alloc m n false).1 = 0 ↔ used + Allocator.round n > L) ∧
    (used + Allocator.round n > L → a.alloc m n false = (0, a, m)) ∧
    (used + Allocator.round n ≤ L →
      (a.alloc m n false).1 = a.cursor_ ∧
      (a.alloc m n false).2.1.cursor_ = a.cursor_ + Allocator.round n ∧
      (a.alloc m n false).2.1.region_ = a.region_) ∧
    (used + total ≤ L →
      (∀ x ∈ s.1, x ≠ 0) ∧ s.1.length = ns.length ∧
      s.2.1.cursor_ = a.cursor_ + total ∧ s.2.1.region_ = a.region_ ∧
      ((s.2.1.alloc s.2.2 n false).1 = 0 ↔ used + total + Allocator.round n > L)) := by
  intro L used total s
  have hfail : used + Allocator.round n > L → a.alloc m n false = (0, a, m) := fun h =>
    ArenaAllocator.alloc_fail a m n false (by omega) (by omega)
  have hok : used + Allocator.round n ≤ L → a.alloc m n false
      = (a.cursor_, { a with cursor_ := a.cursor_ + Allocator.round n }, m) := fun h =>
    ArenaAllocator.alloc_ok a m n (by omega) (by omega)
  refine ⟨?_, hfail, ?_, ?_⟩
  · constructor
    · intro h0
      by_contra hc
      rw [hok (by omega)] at h0
      simp only at h0
      omega
    · intro h; rw [hfail h]
  · intro h; rw [hok h]; simp
  · intro h
    obtain ⟨r1, r2, r3, r4⟩ := ArenaAllocator.allocSeq_ok ns a m (by omega) (by omega) (by omega)
    refine ⟨r1, r2, by rw [r3], by rw [r3], ?_⟩
    show ((a.allocSeq m ns).2.1.alloc (a.allocSeq m ns).2.2 n false).1 = 0 ↔ _
    rw [r3, r4]
    constructor
    · intro h0
      by_contra hc
      rw [ArenaAllocator.alloc_ok _ m n (by simp; omega) (by simp; omega)] at h0
      simp only at h0
      omega
    · intro hgt
      rw [ArenaAllocator.alloc_fail _ m n false (by simp; omega) (by simp; omega)]

theorem arena_bump_correctness_witness :
    ((((ArenaAllocator.new 16 64).allocSeq Mem.zero [16, 20]).2.1.alloc
        ((ArenaAllocator.new 16 64).allocSeq Mem.zero [16, 20]).2.2 32 false).1 = 0
      ↔ (16 - 16) + ([16, 20].map Allocator.round).sum + Allocator.round 32 > 80 - 16) :=
  (arena_bump_correctness (ArenaAllocator.new 16 64) Mem.zero [16, 20] 32
    (by decide) (by decide) (by decide) (by decide)).2.2.2 (by decide) |>.2.2.2.2

/-! ## `ArenaAllocator::free`, `shrink`, `grow` -/

theorem ArenaAllocator.alloc_cases (a : ArenaAllocator) (m : Mem) (n : Nat) (zero : Bool) :
    a.alloc m n zero = (0, a, m) ∨
    ((a.alloc m n zero).1 = a.cursor_ ∧
     (a.alloc m n zero).2.1 = { a with cursor_ := (a.cursor_ + Allocator.round n) % U64 } ∧
     (a.cursor_ + Allocator.round n) % U64 ≤ a.region_.end_) := by
  unfold ArenaAllocator.alloc
  by_cases h : (a.cursor_ + Allocator.round n) % U64 > a.region_.end_
  · left; simp only [h, if_true]
  · right
    simp only [h, if_false]
    cases zero <;> simp <;> omega

theorem ArenaAllocator.alloc_false_mem (a : ArenaAllocator) (m : Mem) (n : Nat) :
    (a.alloc m n false).2.2 = m := by
  unfold ArenaAllocator.alloc
  by_cases h : (a.cursor_ + Allocator.round n) % U64 > a.region_.end_ <;> simp [h]

theorem ArenaAllocator.free_last (r : Region) (c len : Nat) (hc : c < U64) (h0 : c ≠ 0) :
    ArenaAllocator.free { region_ := r, cursor_ := (c + Allocator.round len) % U64 } c len
      = { region_ := r, cursor_ := c } := by
  have hr := Allocator.round_lt len
  unfold ArenaAllocator.free
  simp only [h0, if_false, if_true]
  congr 1
  unfold U64 at *
  omega

/-- C6. LIFO free retraction. If `alloc(a) = A` and then `alloc(b) = B` both
succeed (non-zero results), then `free(B, b)` returns the arena, cursor
included, to its state before `B` was allocated, and a following `free(A, a)`
returns it to its state before `A` was allocated. -/
theorem arena_lifo_free_retraction (a : ArenaAllocator) (m : Mem) (la lb : Nat) (za zb : Bool)
    (hc : a.cursor_ < U64)
    (hA : (a.alloc m la za).1 ≠ 0)
    (hB : ((a.alloc m la za).2.1.alloc (a.alloc m la za).2.2 lb zb).1 ≠ 0) :
    (((a.alloc m la za).2.1.alloc (a.alloc m la za).2.2 lb zb).2.1.free
        ((a.alloc m la za).2.1.alloc (a.alloc m la za).2.2 lb zb).1 lb)
      = (a.alloc m la za).2.1 ∧
    ((((a.alloc m la za).2.1.alloc (a.alloc m la za).2.2 lb zb).2.1.free
        ((a.alloc m la za).2.1.alloc (a.alloc m la za).2.2 lb zb).1 lb).free
        (a.alloc m la za).1 la)
      = a := by
  rcases ArenaAllocator.alloc_cases a m la za with hfa | ⟨ha1, ha2, _⟩
  · rw [hfa] at hA; exact absurd rfl hA
  generalize hma : (a.alloc m la za).2.2 = m1 at hB ⊢
  rw [ha2] at hB ⊢
  rw [ha1] at hA ⊢
  have hmod : (a.cursor_ + Allocator.round la) % U64 < U64 := Nat.mod_lt _ (by unfold U64; omega)
  rcases ArenaAllocator.alloc_cases
      { a with cursor_ := (a.cursor_ + Allocator.round la) % U64 } m1 lb zb with hfb | ⟨hb1, hb2, _⟩
  · rw [hfb] at hB; exact absurd rfl hB
  rw [hb1] at hB ⊢
  rw [hb2]
  simp only at hB ⊢
  rw [ArenaAllocator.free_last a.region_ _ lb hmod hB, ArenaAllocator.free_last a.region_ _ la hc hA]
  exact ⟨rfl, rfl⟩

theorem arena_lifo_free_retraction_witness :
    ((((ArenaAllocator.new 16 64).alloc Mem.zero 20 false).2.1.alloc
        ((ArenaAllocator.new 16 64).alloc Mem.zero 20 false).2.2 7 false).2.1.free
        (((ArenaAllocator.new 16 64).alloc Mem.zero 20 false).2.1.alloc
          ((ArenaAllocator.new 16 64).alloc Mem.zero 20 false).2.2 7 false).1 7)
      = ((ArenaAllocator.new 16 64).alloc Mem.zero 20 false).2.1 :=
  (arena_lifo_free_retraction (ArenaAllocator.new 16 64) Mem.zero 20 7 false false
    (by decide) (by decide) (by decide)).1

/-- C7 (as stated) fails: on the arena over `[16, 80)`, `alloc(16)` returns
`A = 16` and `alloc(0)` returns `B = 32`, both non-zero; `free(A, 16)` issued
while `B` is still allocated moves the cursor from 32 back to 16. -/
theorem arena_non_lifo_free_counterexample :
    ((ArenaAllocator.new 16 64).alloc Mem.zero 16 false).1 = 16 ∧
    (((ArenaAllocator.new 16 64).alloc Mem.zero 16 false).2.1.alloc Mem.zero 0 false).1 = 32 ∧
    (((ArenaAllocator.new 16 64).alloc Mem.zero 16 false).2.1.alloc Mem.zero 0 false).2.1.cursor_
      = 32 ∧
    ((((ArenaAllocator.new 16 64).alloc Mem.zero 16 false).2.1.alloc Mem.zero 0 false).2.1.free
      16 16).cursor_ = 16 := by
  decide

/-- C7 (amended). Non-LIFO free is a no-op when the later block occupies
space: if `alloc(a) = A` and then `alloc(b) = B` both succeed and
`round(b) ≠ 0` (that is `1 ≤ b ≤ 2^64 - 16`), then `free(A, a)` issued while
`B` is still allocated leaves the arena, cursor included, unchanged. -/
theorem arena_non_lifo_free_noop (a : ArenaAllocator) (m : Mem) (la lb : Nat) (za zb : Bool)
    (hA : (a.alloc m la za).1 ≠ 0)
    (hB : ((a.alloc m la za).2.1.alloc (a.alloc m la za).2.2 lb zb).1 ≠ 0)
    (hb : Allocator.round lb ≠ 0) :
    ((a.alloc m la za).2.1.alloc (a.alloc m la za).2.2 lb zb).2.1.free (a.alloc m la za).1 la
      = ((a.alloc m la za).2.1.alloc (a.alloc m la za).2.2 lb zb).2.1 := by
  rcases ArenaAllocator.alloc_cases a m la za with hfa | ⟨ha1, ha2, _⟩
  · rw [hfa] at hA; exact absurd rfl hA
  generalize hma : (a.alloc m la za).2.2 = m1 at hB ⊢
  rw [ha2] at hB ⊢
  rw [ha1] at hA ⊢
  rcases ArenaAllocator.alloc_cases
      { a with cursor_ := (a.cursor_ + Allocator.round la) % U64 } m1 lb zb with hfb | ⟨hb1, hb2, _⟩
  · rw [hfb] at hB; exact absurd rfl hB
  rw [hb2]
  have hr := Allocator.round_lt lb
  unfold ArenaAllocator.free
  simp only [hA, if_false]
  rw [if_neg]
  unfold U64 at *
  omega

theorem arena_non_lifo_free_noop_witness :
    (((ArenaAllocator.new 16 64).alloc Mem.zero 16 false).2.1.alloc
        ((ArenaAllocator.new 16 64).alloc Mem.zero 16 false).2.2 1 false).2.1.free
        ((ArenaAllocator.new 16 64).alloc Mem.zero 16 false).1 16
      = (((ArenaAllocator.new 16 64).alloc Mem.zero 16 false).2.1.alloc
        ((ArenaAllocator.new 16 64).alloc Mem.zero 16 false).2.2 1 false).2.1 :=
  arena_non_lifo_free_noop (ArenaAllocator.new 16 64) Mem.zero 16 1 false false
    (by decide) (by decide) (by decide)

/-! ## The cursor invariant -/

theorem Allocator.round_mono (x y : Nat) (h : x ≤ y) (hy : y + 16 ≤ U64) :
    Allocator.round x ≤ Allocator.round y := by
  unfold Allocator.round U64 at *
  omega

theorem ArenaAllocator.alloc_inv (a : ArenaAllocator) (m : Mem) (n : Nat) (zero : Bool)
    (hinv : a.Inv) (hno : a.cursor_ + Allocator.round n < U64) :
    (a.alloc m n zero).2.1.Inv ∧ (a.alloc m n zero).2.1.region_ = a.region_ := by
  unfold ArenaAllocator.Inv at *
  rcases ArenaAllocator.alloc_cases a m n zero with hf | ⟨h1, h2, h3⟩
  · rw [hf]; exact ⟨hinv, rfl⟩
  · rw [h2]
    rw [Nat.mod_eq_of_lt hno] at h3 ⊢
    refine ⟨?_, rfl⟩
    simp only
    omega

theorem ArenaAllocator.free_inv (a : ArenaAllocator) (addr len : Nat)
    (hinv : a.Inv) (hend : a.region_.end_ < U64) (hblk : a.Block addr len) :
    (a.free addr len).Inv := by
  unfold ArenaAllocator.Inv ArenaAllocator.Block at *
  unfold ArenaAllocator.free
  by_cases h0 : addr = 0
  · simp only [h0, if_true]; exact hinv
  · simp only [h0, if_false]
    by_cases h1 : (addr + Allocator.round len) % U64 = a.cursor_
    · simp only [h1, if_true]
      unfold U64 at *
      omega
    · simp only [h1, if_false]; exact hinv

/-- C8 (as stated) fails: the arena over `[4096, 5120)` satisfies
`begin ≤ cursor ≤ end` after construction, and `alloc(2^64 - 16, false)`
returns the non-zero address 4096 and leaves the cursor at 4080, below
`begin`: the sum `cursor + round(n)` wrapped around `2^64`. -/
theorem arena_cursor_invariant_counterexample :
    (ArenaAllocator.new 4096 1024).Inv ∧
    ((ArenaAllocator.new 4096 1024).alloc Mem.zero (2 ^ 64 - 16) false).1 = 4096 ∧
    ((ArenaAllocator.new 4096 1024).alloc Mem.zero (2 ^ 64 - 16) false).2.1.cursor_ = 4080 ∧
    ¬ ((ArenaAllocator.new 4096 1024).alloc Mem.zero (2 ^ 64 - 16) false).2.1.Inv := by
  decide

/-- C8 (amended). The cursor invariant `begin ≤ cursor ≤ end` holds after
construction when `base + length < 2^64`, and for an arena with `end < 2^64`
it is preserved by `reset`, by `alloc(n)` when `cursor + round(n) < 2^64`, and
by `free`, `shrink` (`new_len ≤ old_len`) and `grow` (`old_len ≤ new_len ≤
2^64 - 16` and `cursor + round(new_len) < 2^64`) applied to a block handed out
by this arena with its recorded length (at most `2^64 - 16`). -/
theorem arena_cursor_invariant (a : ArenaAllocator) (m : Mem)
    (base length addr old_len new_len n : Nat) (zero : Bool)
    (hinv : a.Inv) (hend : a.region_.end_ < U64) (hblk : a.Block addr old_len) :
    (base + length < U64 → (ArenaAllocator.new base length).Inv) ∧
    a.reset.Inv ∧
    (a.cursor_ + Allocator.round n < U64 → (a.alloc m n zero).2.1.Inv) ∧
    (a.free addr old_len).Inv ∧
    (new_len ≤ old_len → (a.shrink addr old_len new_len).Inv) ∧
    (old_len ≤ new_len → new_len + 16 ≤ U64 → a.cursor_ + Allocator.round new_len < U64 →
      (a.grow m addr old_len new_len zero).2.1.Inv) := by
  refine ⟨?_, ?_, ?_, ArenaAllocator.free_inv a addr old_len hinv hend hblk, ?_, ?_⟩
  · intro h
    unfold ArenaAllocator.Inv ArenaAllocator.new
    simp only [Nat.mod_eq_of_lt h]
    omega
  · unfold ArenaAllocator.Inv ArenaAllocator.reset at *
    simp only
    omega
  · intro h
    exact (ArenaAllocator.alloc_inv a m n zero hinv h).1
  · intro hle
    have hmono := Allocator.round_mono new_len old_len hle hblk.2.1
    unfold ArenaAllocator.Inv ArenaAllocator.Block at *
    unfold ArenaAllocator.shrink
    by_cases h1 : (addr + Allocator.round old_len) % U64 = a.cursor_
    · simp only [h1, if_true]
      unfold U64 at *
      omega
    · simp only [h1, if_false]; exact hinv
  · intro hle hnew hno
    have hmono := Allocator.round_mono old_len new_len hle hnew
    unfold ArenaAllocator.grow
    by_cases h1 : (addr + Allocator.round old_len) % U64 = a.cursor_
    · simp only [h1, if_true]
      by_cases h2 : (a.cursor_ + (Allocator.round new_len + (U64 - Allocator.round old_len)) % U64)
          % U64 ≥ a.region_.end_
      · simp only [h2, if_true]; exact hinv
      · simp only [h2, if_false]
        unfold ArenaAllocator.Inv ArenaAllocator.Block at *
        simp only
        unfold U64 at *
        omega
    · simp only [h1, if_false]
      obtain ⟨hi, hr⟩ := ArenaAllocator.alloc_inv a m new_len false hinv hno
      by_cases h3 : (a.alloc m new_len false).1 = 0
      · simp only [h3, if_true]; exact hi
      · simp only [h3, if_false]
        apply ArenaAllocator.free_inv _ addr old_len hi (by rw [hr]; exact hend)
        unfold ArenaAllocator.Block at *
        rw [hr]; exact hblk

theorem arena_cursor_invariant_witness :
    (((ArenaAllocator.new 16 64).alloc Mem.zero 16 false).2.1.grow Mem.zero 16 16 40 true).2.1.Inv :=
  (arena_cursor_invariant ((ArenaAllocator.new 16 64).alloc Mem.zero 16 false).2.1 Mem.zero
    16 64 16 16 40 8 true (by decide) (by decide) (by decide)).2.2.2.2.2
    (by decide) (by decide) (by decide)

/-- C9: the code at an exact fit. On the arena over `[16, 48)` whose only
block is `(16, 16)` (cursor 32), `grow(16, 16, 32, false)` finds the block to
be the most recent allocation and `cursor + (round(32) - round(16)) = 48 = end`,
so the region has room; the call returns 0 and leaves the cursor at 32. -/
theorem arena_grow_in_place_exact_fit :
    ((ArenaAllocator.new 16 32).alloc Mem.zero 16 false).1 = 16 ∧
    ((ArenaAllocator.new 16 32).alloc Mem.zero 16 false).2.1
      = { region_ := { beg := 16, end_ := 48 }, cursor_ := 32 } ∧
    16 + Allocator.round 16 = 32 ∧
    32 + (Allocator.round 32 - Allocator.round 16) ≤ 48 ∧
    (ArenaAllocator.grow { region_ := { beg := 16, end_ := 48 }, cursor_ := 32 }
      Mem.zero 16 16 32 false).1 = 0 ∧
    (ArenaAllocator.grow { region_ := { beg := 16, end_ := 48 }, cursor_ := 32 }
      Mem.zero 16 16 32 false).2.1.cursor_ = 32 := by
  decide

/-! ## `memzero` and `memcopy` -/

theorem Mem.foldl_store_zero (b n : Nat) (m : Mem) (x : Nat) :
    (List.range n).foldl (fun acc k => Mem.store acc (b + k) 0) m x
      = if b ≤ x ∧ x < b + n then 0 else m x := by
  induction n with
  | zero =>
    simp only [List.range_zero, List.foldl_nil]
    rw [if_neg (by omega)]
  | succ n ih =>
    rw [List.range_succ, List.foldl_append]
    simp only [List.foldl_cons, List.foldl_nil, Mem.store]
    rw [ih]
    split_ifs <;> first | rfl | omega

theorem Allocator.storeWord0_apply (m : Mem) (addr i x : Nat) :
    Allocator.storeWord0 m addr i x
      = if addr + 8 * i ≤ x ∧ x < addr + 8 * i + 8 then 0 else m x :=
  Mem.foldl_store_zero (addr + 8 * i) 8 m x

theorem Allocator.foldl_storeWord0 (addr n : Nat) (m : Mem) (x : Nat) :
    (List.range n).foldl (fun acc i => Allocator.storeWord0 acc addr i) m x
      = if addr ≤ x ∧ x < addr + 8 * n then 0 else m x := by
  induction n with
  | zero =>
    simp only [List.range_zero, List.foldl_nil]
    rw [if_neg (by omega)]
  | succ n ih =>
    rw [List.range_succ, List.foldl_append]
    simp only [List.foldl_cons, List.foldl_nil]
    rw [Allocator.storeWord0_apply, ih]
    split_ifs <;> first | rfl | omega

theorem Allocator.memzero_apply (m : Mem) (addr len x : Nat) :
    Allocator.memzero m addr len x = if addr ≤ x ∧ x < addr + len then 0 else m x := by
  unfold Allocator.memzero
  rw [Mem.foldl_store_zero, Allocator.foldl_storeWord0]
  split_ifs <;> first | rfl | omega

theorem Allocator.memcopy_apply (m : Mem) (dst src : Nat) :
    ∀ len, src + len ≤ dst → ∀ x,
      Allocator.memcopy m dst src len x
        = if dst ≤ x ∧ x < dst + len then m (src + (x - dst)) else m x := by
  intro len
  unfold Allocator.memcopy
  induction len with
  | zero =>
    intro _ x
    simp only [List.range_zero, List.foldl_nil]
    rw [if_neg (by omega)]
  | succ n ih =>
    intro h x
    rw [List.range_succ, List.foldl_append]
    simp only [List.foldl_cons, List.foldl_nil, Mem.store]
    rw [ih (by omega) x, ih (by omega) (src + n),
      if_neg (show ¬ (dst ≤ src + n ∧ src + n < dst + n) by omega)]
    by_cases hx : x = dst + n
    · subst hx
      rw [if_pos rfl, if_pos (by omega)]
      congr 1
      omega
    · rw [if_neg hx]
      split_ifs <;> first | rfl | omega

theorem ArenaAllocator.grow_content (a : ArenaAllocator) (m : Mem)
    (addr old_len new_len : Nat) (zero : Bool)
    (hinv : a.Inv) (hend : a.region_.end_ < U64)
    (hlen : old_len ≤ Allocator.round old_len)
    (hlive : addr + Allocator.round old_len ≤ a.cursor_)
    (hle : old_len ≤ new_len)
    (hok : (a.grow m addr old_len new_len zero).1 ≠ 0)
    (hfit : (a.grow m addr old_len new_len zero).1 + new_len < U64) :
    (∀ i, i < old_len →
      (a.grow m addr old_len new_len zero).2.2 ((a.grow m addr old_len new_len zero).1 + i)
        = m (addr + i)) ∧
    (zero = true → ∀ i, old_len ≤ i → i < new_len →
      (a.grow m addr old_len new_len zero).2.2 ((a.grow m addr old_len new_len zero).1 + i)
        = 0) := by
  unfold ArenaAllocator.Inv at hinv
  have hdelta : (new_len + (U64 - old_len)) % U64 = new_len - old_len := by
    unfold U64 at *; omega
  unfold ArenaAllocator.grow at hok hfit ⊢
  by_cases h1 : (addr + Allocator.round old_len) % U64 = a.cursor_
  · simp only [h1, if_true] at hok hfit ⊢
    by_cases h2 : (a.cursor_ + (Allocator.round new_len + (U64 - Allocator.round old_len)) % U64)
        % U64 ≥ a.region_.end_
    · simp only [h2, if_true] at hok
      exact absurd rfl hok
    · simp only [h2, if_false] at hok hfit ⊢
      have hsrc : (addr + old_len) % U64 = addr + old_len := Nat.mod_eq_of_lt (by omega)
      rw [hsrc, hdelta]
      constructor
      · intro i hi
        cases zero
        · simp
        · simp only [if_true, Allocator.memzero_apply]
          rw [if_neg (by omega)]
      · intro hz i h3 h4
        subst hz
        simp only [if_true, Allocator.memzero_apply]
        rw [if_pos (by omega)]
  · simp only [h1, if_false] at hok hfit ⊢
    rcases ArenaAllocator.alloc_cases a m new_len false with hf | ⟨e1, _, _⟩
    · rw [hf] at hok
      simp only [if_true] at hok
      exact absurd rfl hok
    · have hmem := ArenaAllocator.alloc_false_mem a m new_len
      by_cases h3 : (a.alloc m new_len false).1 = 0
      · simp only [h3, if_true] at hok
        exact absurd rfl hok
      · simp only [h3, if_false] at hok hfit ⊢
        rw [e1] at hfit ⊢
        rw [hmem, hdelta]
        have hdst : (a.cursor_ + old_len) % U64 = a.cursor_ + old_len :=
          Nat.mod_eq_of_lt (by omega)
        rw [hdst]
        have hcopy := Allocator.memcopy_apply m a.cursor_ addr old_len (by omega)
        constructor
        · intro i hi
          cases zero
          · simp only [Bool.false_eq_true, if_false]
            rw [hcopy, if_pos (by omega)]
            congr 1; omega
          · simp only [if_true, Allocator.memzero_apply]
            rw [if_neg (by omega), hcopy, if_pos (by omega)]
            congr 1; omega
        · intro hz i h4 h5
          subst hz
          simp only [if_true, Allocator.memzero_apply]
          rw [if_pos (by omega)]

/-- C10. Arena grow preserves content and zeroes only the tail. For an arena
with `begin ≤ cursor ≤ end < 2^64` and a live block `(addr, old_len)` handed
out by it (its rounded extent covers its bytes and ends at or before the
cursor), every successful `grow(addr, old_len, new_len, zero)` with
`new_len ≥ old_len` whose result block lies in the 64-bit address space
leaves, in the first `old_len` bytes at the returned address, the bytes the
block held before the call, and when `zero` is true every byte at offsets
`[old_len, new_len)` of the result is 0. Both paths of `grow` are covered. -/
theorem arena_grow_preserves_content (a : ArenaAllocator) (m : Mem)
    (addr old_len new_len : Nat) (zero : Bool)
    (hinv : a.Inv) (hend : a.region_.end_ < U64)
    (hlen : old_len ≤ Allocator.round old_len)
    (hlive : addr + Allocator.round old_len ≤ a.cursor_)
    (hle : old_len ≤ new_len)
    (hok : (a.grow m addr old_len new_len zero).1 ≠ 0)
    (hfit : (a.grow m addr old_len new_len zero).1 + new_len < U64) :
    (∀ i, i < old_len →
      (a.grow m addr old_len new_len zero).2.2 ((a.grow m addr old_len new_len zero).1 + i)
        = m (addr + i)) ∧
    (zero = true → ∀ i, old_len ≤ i → i < new_len →
      (a.grow m addr old_len new_len zero).2.2 ((a.grow m addr old_len new_len zero).1 + i)
        = 0) :=
  ArenaAllocator.grow_content a m addr old_len new_len zero hinv hend hlen hlive hle hok hfit

theorem arena_grow_preserves_content_witness :
    (∀ i, i < 16 →
      (ArenaAllocator.grow { region_ := { beg := 16, end_ := 144 }, cursor_ := 48 }
          (fun x => x % 251) 16 16 40 true).2.2
        ((ArenaAllocator.grow { region_ := { beg := 16, end_ := 144 }, cursor_ := 48 }
          (fun x => x % 251) 16 16 40 true).1 + i) = (fun x => x % 251) (16 + i)) ∧
    ((true = true) → ∀ i, 16 ≤ i → i < 40 →
      (ArenaAllocator.grow { region_ := { beg := 16, end_ := 144 }, cursor_ := 48 }
          (fun x => x % 251) 16 16 40 true).2.2
        ((ArenaAllocator.grow { region_ := { beg := 16, end_ := 144 }, cursor_ := 48 }
          (fun x => x % 251) 16 16 40 true).1 + i) = 0) :=
  arena_grow_preserves_content { region_ := { beg := 16, end_ := 144 }, cursor_ := 48 }
    (fun x => x % 251) 16 16 40 true
    (by decide) (by decide) (by decide) (by decide) (by decide) (by decide) (by decide)

/-! ## Bits of a 64-bit word -/

theorem compl64_testBit (w : Nat) (hw : w < U64) (i : Nat) :
    (compl64 w).testBit i = (decide (i < 64) && !w.testBit i) := by
  unfold compl64
  have h : U64 - 1 - w = 2 ^ 64 - (w + 1) := by unfold U64; omega
  rw [h]
  exact Nat.testBit_two_pow_sub_succ hw i

theorem testBit_of_lt_U64 (w : Nat) (hw : w < U64) (i : Nat) (hi : 64 ≤ i) :
    w.testBit i = false := by
  apply Nat.testBit_lt_two_pow
  calc w < 2 ^ 64 := hw
    _ ≤ 2 ^ i := Nat.pow_le_pow_right (by decide) hi

theorem ctzAux_spec : ∀ (fuel v : Nat), v ≠ 0 → v < 2 ^ fuel →
    ctzAux fuel v < fuel ∧ v.testBit (ctzAux fuel v) = true ∧
    ∀ j, j < ctzAux fuel v → v.testBit j = false := by
  intro fuel
  induction fuel with
  | zero => intro v h0 hlt; simp at hlt; exact absurd hlt h0
  | succ fuel ih =>
    intro v h0 hlt
    unfold ctzAux
    by_cases hodd : v % 2 = 1
    · simp only [hodd, if_true]
      refine ⟨by omega, by simp [hodd], fun j hj => absurd hj (by omega)⟩
    · simp only [hodd, if_false]
      have h2 : v / 2 ≠ 0 := by omega
      have h3 : v / 2 < 2 ^ fuel := by rw [Nat.pow_succ] at hlt; omega
      obtain ⟨a, b, c⟩ := ih (v / 2) h2 h3
      refine ⟨by omega, ?_, ?_⟩
      · rw [Nat.add_comm, Nat.testBit_add_one]; exact b
      · intro j hj
        cases j with
        | zero => simp [hodd]
        | succ j => rw [Nat.testBit_add_one]; exact c j (by omega)

theorem count_trailing_zeros_spec (v : Nat) (h0 : v ≠ 0) (hlt : v < U64) :
    count_trailing_zeros v < 64 ∧ v.testBit (count_trailing_zeros v) = true ∧
    ∀ j, j < count_trailing_zeros v → v.testBit j = false :=
  ctzAux_spec 64 v h0 hlt

theorem setBit_eq (word b : Nat) (hw : word < U64) (hb : b < 64) :
    (word ||| ((1 <<< b) % U64)) % U64 = word ||| 2 ^ b := by
  have h1 : (1 : Nat) <<< b = 2 ^ b := by rw [Nat.shiftLeft_eq, Nat.one_mul]
  have h2 : 2 ^ b < U64 := Nat.pow_lt_pow_right (by decide) hb
  have h3 : word ||| 2 ^ b < U64 := Nat.or_lt_two_pow hw h2
  rw [h1, Nat.mod_eq_of_lt h2, Nat.mod_eq_of_lt h3]

theorem setBit_lt (word b : Nat) (hw : word < U64) (hb : b < 64) : word ||| 2 ^ b < U64 :=
  Nat.or_lt_two_pow hw (Nat.pow_lt_pow_right (by decide) hb)

theorem setBit_testBit (word b i : Nat) :
    (word ||| 2 ^ b).testBit i = (word.testBit i || decide (b = i)) := by
  rw [Nat.testBit_or, Nat.testBit_two_pow]

theorem clearBit_eq (b : Nat) (hb : b < 64) :
    compl64 ((1 <<< b) % U64) = compl64 (2 ^ b) := by
  have h1 : (1 : Nat) <<< b = 2 ^ b := by rw [Nat.shiftLeft_eq, Nat.one_mul]
  have h2 : 2 ^ b < U64 := Nat.pow_lt_pow_right (by decide) hb
  rw [h1, Nat.mod_eq_of_lt h2]

theorem clearBit_lt (word b : Nat) (hw : word < U64) : word &&& compl64 (2 ^ b) < U64 :=
  Nat.lt_of_le_of_lt Nat.and_le_left hw

theorem clearBit_testBit (word b i : Nat) (hw : word < U64) (hb : b < 64) :
    (word &&& compl64 (2 ^ b)).testBit i = (word.testBit i && !decide (b = i)) := by
  have h2 : 2 ^ b < U64 := Nat.pow_lt_pow_right (by decide) hb
  rw [Nat.testBit_and, compl64_testBit _ h2, Nat.testBit_two_pow]
  by_cases hi : i < 64
  · simp [hi]
  · rw [testBit_of_lt_U64 word hw i (by omega)]; simp

/-! ## Popcount -/

theorem countP_range_agree (f g : Nat → Bool) (n : Nat) (h : ∀ i, i < n → g i = f i) :
    (List.range n).countP g = (List.range n).countP f := by
  apply List.countP_congr
  intro i hi
  rw [h i (List.mem_range.mp hi)]

theorem countP_range_flip (f g : Nat → Bool) (b : Nat) (hf : f b = false) (hg : g b = true)
    (h : ∀ i, i ≠ b → g i = f i) :
    ∀ n, b < n → (List.range n).countP g = (List.range n).countP f + 1 := by
  intro n
  induction n with
  | zero => intro hb; omega
  | succ n ih =>
    intro hb
    rw [List.range_succ, List.countP_append, List.countP_append]
    by_cases hbn : b = n
    · subst hbn
      rw [countP_range_agree f g b (fun i hi => h i (by omega))]
      simp [hf, hg]
    · have hn : List.countP g [n] = List.countP f [n] := by
        simp only [List.countP_cons, List.countP_nil, h n (fun e => hbn e.symm)]
      rw [ih (by omega), hn]
      omega

theorem popcount64_setBit (word b : Nat) (hb : b < 64) (hclear : word.testBit b = false) :
    popcount64 (word ||| 2 ^ b) = popcount64 word + 1 := by
  unfold popcount64
  apply countP_range_flip (fun i => word.testBit i) (fun i => (word ||| 2 ^ b).testBit i) b
    hclear (by simp [setBit_testBit]) _ 64 hb
  intro i hi
  have hne : ¬ b = i := fun e => hi e.symm
  simp only [setBit_testBit, hne, decide_False, Bool.or_false]

theorem popcount64_clearBit (word b : Nat) (hw : word < U64) (hb : b < 64)
    (hset : word.testBit b = true) :
    popcount64 (word &&& compl64 (2 ^ b)) + 1 = popcount64 word := by
  unfold popcount64
  symm
  apply countP_range_flip (fun i => (word &&& compl64 (2 ^ b)).testBit i)
    (fun i => word.testBit i) b (by simp [clearBit_testBit _ _ _ hw hb]) hset _ 64 hb
  intro i hi
  have hne : ¬ b = i := fun e => hi e.symm
  simp only [clearBit_testBit _ _ _ hw hb, hne, decide_False, Bool.not_false, Bool.and_true]

theorem popcount64_le (w : Nat) : popcount64 w ≤ 64 := by
  unfold popcount64
  have h := List.countP_le_length (fun i => w.testBit i) (l := List.range 64)
  rw [List.length_range] at h
  exact h

theorem popcount64_full : popcount64 (U64 - 1) = 64 := by decide

theorem popcount64_eq_64 (w : Nat) (hw : w < U64) (h : popcount64 w = 64) : w = U64 - 1 := by
  unfold popcount64 at h
  have hall : ∀ i ∈ List.range 64, (fun i => w.testBit i) i = true :=
    List.countP_eq_length.mp (by rw [h]; simp)
  apply Nat.eq_of_testBit_eq
  intro i
  have hU : U64 - 1 = 2 ^ 64 - 1 := rfl
  rw [hU, Nat.testBit_two_pow_sub_one]
  by_cases hi : i < 64
  · simp only [hi, decide_True]
    exact hall i (List.mem_range.mpr hi)
  · simp only [hi, decide_False]
    exact testBit_of_lt_U64 w hw i (by omega)

theorem popcount64_zero : popcount64 0 = 0 := by decide

theorem popcount_replicate_zero (n : Nat) : popcount (List.replicate n 0) = 0 := by
  unfold popcount
  induction n with
  | zero => rfl
  | succ n ih => rw [List.replicate_succ, List.map_cons, List.sum_cons, ih, popcount64_zero]

theorem popcount_le (ws : List Nat) : popcount ws ≤ 64 * ws.length := by
  unfold popcount
  induction ws with
  | nil => simp
  | cons w ws ih =>
    have := popcount64_le w
    simp only [List.map_cons, List.sum_cons, List.length_cons]
    omega

theorem popcount_set (ws : List Nat) : ∀ (i w w1 : Nat), ws[i]? = some w →
    popcount (ws.set i w1) + popcount64 w = popcount ws + popcount64 w1 := by
  unfold popcount
  induction ws with
  | nil => intro i w w1 h; simp at h
  | cons x xs ih =>
    intro i w w1 h
    cases i with
    | zero =>
      simp only [List.getElem?_cons_zero, Option.some.injEq] at h
      subst h
      simp only [List.set_cons_zero, List.map_cons, List.sum_cons]
      omega
    | succ i =>
      simp only [List.getElem?_cons_succ] at h
      have := ih i w w1 h
      simp only [List.set_cons_succ, List.map_cons, List.sum_cons]
      omega

theorem popcount_eq_full (ws : List Nat) (hlt : ∀ w ∈ ws, w < U64)
    (h : popcount ws = 64 * ws.length) : ∀ w ∈ ws, w = U64 - 1 := by
  induction ws with
  | nil => intro w hw; simp at hw
  | cons x xs ih =>
    have hx := popcount64_le x
    have hxs := popcount_le xs
    unfold popcount at h hxs
    simp only [List.map_cons, List.sum_cons, List.length_cons] at h
    intro w hw
    simp only [List.mem_cons] at hw
    rcases hw with rfl | hw
    · exact popcount64_eq_64 w (hlt w (List.mem_cons_self _ _)) (by omega)
    · exact ih (fun v hv => hlt v (List.mem_cons_of_mem _ hv)) (by unfold popcount; omega) w hw

theorem compl64_eq_zero (w : Nat) (hw : w < U64) : compl64 w = 0 ↔ w = U64 - 1 := by
  unfold compl64 U64 at *
  omega

theorem compl64_lt (w : Nat) : compl64 w < U64 := by
  unfold compl64 U64
  omega

/-- The bit found by `count_trailing_zeros (~word)` is a clear bit of `word`
below 64. -/
theorem free_bit_spec (word : Nat) (hw : word < U64) (hfree : compl64 word ≠ 0) :
    count_trailing_zeros (compl64 word) < 64 ∧
    word.testBit (count_trailing_zeros (compl64 word)) = false := by
  obtain ⟨h1, h2, _⟩ := count_trailing_zeros_spec (compl64 word) hfree (compl64_lt word)
  refine ⟨h1, ?_⟩
  rw [compl64_testBit word hw] at h2
  simp only [h1, decide_True, Bool.true_and, Bool.not_eq_true'] at h2
  exact h2

/-! ## `Pool::allocate` and `Pool::deallocate` -/

theorem Pool.allocateScan_spec (p : Pool) (n : Nat) (hn : n ≤ p.usedMem.length) :
    ∀ w, w < n →
      (p.allocateScan n w = some (p, none) ∧
        ∀ k, k ≤ w → ∃ word, p.usedMem[k]? = some word ∧ compl64 word = 0) ∨
      (∃ k word, k ≤ w ∧ p.usedMem[k]? = some word ∧ compl64 word ≠ 0 ∧
        p.allocateScan n w
          = some ({ p.occupy k word (count_trailing_zeros (compl64 word)) with last_ := k },
                  some ((k * BITS + count_trailing_zeros (compl64 word)) % U32))) := by
  intro w
  induction w with
  | zero =>
    intro hw
    have hlt : 0 < p.usedMem.length := by omega
    unfold Pool.allocateScan
    simp only [hw, if_true, List.getElem?_eq_getElem hlt]
    by_cases hfree : compl64 p.usedMem[0] ≠ 0
    · right
      refine ⟨0, p.usedMem[0], Nat.le_refl 0, List.getElem?_eq_getElem hlt, hfree, ?_⟩
      rw [if_pos hfree]
    · left
      simp only [hfree, if_false, true_and]
      intro k hk
      have hk0 : k = 0 := by omega
      subst hk0
      exact ⟨p.usedMem[0], List.getElem?_eq_getElem hlt, not_not.mp hfree⟩
  | succ w ih =>
    intro hw
    have hlt : w + 1 < p.usedMem.length := by omega
    unfold Pool.allocateScan
    simp only [hw, if_true, List.getElem?_eq_getElem hlt]
    by_cases hfree : compl64 p.usedMem[w + 1] ≠ 0
    · right
      refine ⟨w + 1, p.usedMem[w + 1], Nat.le_refl _, List.getElem?_eq_getElem hlt, hfree, ?_⟩
      rw [if_pos hfree]
    · simp only [hfree, if_false]
      rcases ih (by omega) with ⟨h1, h2⟩ | ⟨k, word, hk, h1, h2, h3⟩
      · left
        refine ⟨h1, ?_⟩
        intro k hk
        by_cases hk1 : k = w + 1
        · subst hk1
          exact ⟨p.usedMem[w + 1], List.getElem?_eq_getElem hlt, not_not.mp hfree⟩
        · exact h2 k (by omega)
      · right
        exact ⟨k, word, by omega, h1, h2, h3⟩

theorem Pool.allocateScan_out (p : Pool) (n w : Nat) (h : n ≤ w) :
    p.allocateScan n w = some (p, none) := by
  cases w with
  | zero =>
    unfold Pool.allocateScan
    simp only [show ¬ 0 < n by omega, if_false]
  | succ w =>
    unfold Pool.allocateScan
    simp only [show ¬ w + 1 < n by omega, if_false]

theorem Pool.allocate_spec (p : Pool)
    (hlen : (p.capacity_ / BITS) % U32 ≤ p.usedMem.length)
    (hlast : p.last_ < p.usedMem.length) :
    (p.allocate = some (p, none) ∧
      (∃ word, p.usedMem[p.last_]? = some word ∧ compl64 word = 0) ∧
      ∀ k, k < (p.capacity_ / BITS) % U32 →
        ∃ word, p.usedMem[k]? = some word ∧ compl64 word = 0) ∨
    (∃ k word, k < p.usedMem.length ∧ p.usedMem[k]? = some word ∧ compl64 word ≠ 0 ∧
      p.allocate
        = some ({ p.occupy k word (count_trailing_zeros (compl64 word)) with last_ := k },
                some ((k * BITS + count_trailing_zeros (compl64 word)) % U32))) := by
  unfold Pool.allocate
  simp only [List.getElem?_eq_getElem hlast]
  by_cases hfree : compl64 p.usedMem[p.last_] ≠ 0
  · right
    refine ⟨p.last_, p.usedMem[p.last_], hlast, List.getElem?_eq_getElem hlast, hfree, ?_⟩
    rw [if_pos hfree]
    rfl
  · rw [if_neg hfree]
    have hfull : ∃ word, some p.usedMem[p.last_] = some word ∧ compl64 word = 0 :=
      ⟨p.usedMem[p.last_], rfl, not_not.mp hfree⟩
    by_cases hn : (p.capacity_ / BITS) % U32 = 0
    · left
      rw [hn]
      refine ⟨Pool.allocateScan_out p 0 _ (Nat.zero_le _), hfull, fun k hk => absurd hk (by omega)⟩
    · have hlt : (p.capacity_ / BITS) % U32 < U32 := Nat.mod_lt _ (by decide)
      have hstart : ((p.capacity_ / BITS) % U32 + (U32 - 1)) % U32
          = (p.capacity_ / BITS) % U32 - 1 := by
        unfold U32 at *; omega
      rw [hstart]
      rcases Pool.allocateScan_spec p _ hlen ((p.capacity_ / BITS) % U32 - 1) (by omega)
        with ⟨h1, h2⟩ | ⟨k, word, hk, h1, h2, h3⟩
      · left
        exact ⟨h1, hfull, fun k hk => h2 k (by omega)⟩
      · right
        exact ⟨k, word, by omega, h1, h2, h3⟩

theorem Pool.allocate_fault (p : Pool) (h : p.usedMem.length ≤ p.last_) : p.allocate = none := by
  unfold Pool.allocate
  simp only [List.getElem?_eq_none h]

theorem Pool.occupy_usedMem (p : Pool) (k word : Nat) (hw : word < U64)
    (hfree : compl64 word ≠ 0) :
    ({ p.occupy k word (count_trailing_zeros (compl64 word)) with last_ := k } : Pool).usedMem
      = p.usedMem.set k (word ||| 2 ^ count_trailing_zeros (compl64 word)) := by
  show p.usedMem.set k _ = _
  rw [setBit_eq word _ hw (free_bit_spec word hw hfree).1]

theorem Pool.isUsed_set (p q : Pool) (k word word1 : Nat) (hk : p.usedMem[k]? = some word)
    (hq : q.usedMem = p.usedMem.set k word1) (j : Nat) :
    q.isUsed j = if j / BITS = k then word1.testBit (j % BITS) else p.isUsed j := by
  have hlt : k < p.usedMem.length := by
    rcases Nat.lt_or_ge k p.usedMem.length with h | h
    · exact h
    · rw [List.getElem?_eq_none h] at hk; exact absurd hk (by simp)
  unfold Pool.isUsed
  rw [hq, List.getElem?_set]
  by_cases hj : j / BITS = k
  · subst hj
    simp [hlt]
  · have hj1 : ¬ k = j / BITS := fun e => hj e.symm
    simp [hj, hj1]

theorem Pool.isUsed_at (p : Pool) (k word b : Nat) (hk : p.usedMem[k]? = some word)
    (hb : b < 64) : p.isUsed (k * BITS + b) = word.testBit b := by
  unfold Pool.isUsed BITS
  have h1 : (k * 64 + b) / 64 = k := by omega
  have h2 : (k * 64 + b) % 64 = b := by omega
  rw [h1, h2, hk]

theorem Pool.isUsed_occupy (p : Pool) (k word : Nat) (hk : p.usedMem[k]? = some word)
    (hw : word < U64) (hfree : compl64 word ≠ 0) (j : Nat) :
    ({ p.occupy k word (count_trailing_zeros (compl64 word)) with last_ := k } : Pool).isUsed j
      = (p.isUsed j || decide (j = k * BITS + count_trailing_zeros (compl64 word))) := by
  have hb := (free_bit_spec word hw hfree).1
  rw [Pool.isUsed_set p _ k word _ hk (Pool.occupy_usedMem p k word hw hfree) j]
  by_cases hj : j / BITS = k
  · rw [if_pos hj, setBit_testBit]
    have hu : p.isUsed j = word.testBit (j % BITS) := by
      unfold Pool.isUsed; rw [hj, hk]
    rw [hu]
    congr 1
    unfold BITS at *
    apply decide_eq_decide.mpr
    omega
  · rw [if_neg hj]
    have hne : ¬ j = k * BITS + count_trailing_zeros (compl64 word) := by
      unfold BITS at *; omega
    simp [hne]

theorem Pool.popcount_occupy (p : Pool) (k word : Nat) (hk : p.usedMem[k]? = some word)
    (hw : word < U64) (hfree : compl64 word ≠ 0) :
    popcount ({ p.occupy k word (count_trailing_zeros (compl64 word)) with last_ := k }
      : Pool).usedMem = popcount p.usedMem + 1 := by
  obtain ⟨hb, hclear⟩ := free_bit_spec word hw hfree
  rw [Pool.occupy_usedMem p k word hw hfree]
  have h := popcount_set p.usedMem k word (word ||| 2 ^ count_trailing_zeros (compl64 word)) hk
  rw [popcount64_setBit word _ hb hclear] at h
  omega

theorem Pool.words_occupy (p : Pool) (k word : Nat) (hw : word < U64)
    (hfree : compl64 word ≠ 0) (hwords : ∀ w ∈ p.usedMem, w < U64) :
    ∀ w ∈ ({ p.occupy k word (count_trailing_zeros (compl64 word)) with last_ := k }
      : Pool).usedMem, w < U64 := by
  rw [Pool.occupy_usedMem p k word hw hfree]
  intro w hmem
  rcases List.mem_or_eq_of_mem_set hmem with h | h
  · exact hwords w h
  · rw [h]; exact setBit_lt word _ hw (free_bit_spec word hw hfree).1

theorem Pool.allocateScan_hit (p : Pool) (n w word : Nat) (hw : w < n)
    (hk : p.usedMem[w]? = some word) (hfree : compl64 word ≠ 0) :
    p.allocateScan n w
      = some ({ p.occupy w word (count_trailing_zeros (compl64 word)) with last_ := w },
              some ((w * BITS + count_trailing_zeros (compl64 word)) % U32)) := by
  cases w with
  | zero =>
    unfold Pool.allocateScan
    simp only [hw, if_true, hk]
    rw [if_pos hfree]
  | succ w =>
    unfold Pool.allocateScan
    simp only [hw, if_true, hk]
    rw [if_pos hfree]

theorem Pool.allocate_miss (p : Pool) (word : Nat) (hk : p.usedMem[p.last_]? = some word)
    (hfull : compl64 word = 0) :
    p.allocate
      = p.allocateScan ((p.capacity_ / BITS) % U32)
          (((p.capacity_ / BITS) % U32 + (U32 - 1)) % U32) := by
  unfold Pool.allocate
  simp only [hk]
  rw [if_neg (by simp [hfull])]

theorem getElem?_cons_replicate (a b n m : Nat) (h : m < n) :
    (a :: List.replicate n b)[m + 1]? = some b := by
  rw [List.getElem?_cons_succ, List.getElem?_replicate, if_pos h]

/-- C3 (as stated) fails. The pool `Pool.aliasExample` has capacity
`2^32 + 64 ≥ 64` and `2^26 + 1` occupancy words, word 0 full and the top word
empty. `allocate()` takes bit 0 of word `2^26` and returns the `PoolRef` index
`(2^26 * 64 + 0) mod 2^32 = 0`: the bit of the returned index was already set
before the call, and the bit that the call sets is bit `2^32`, not bit 0. -/
theorem pool_allocate_contract_counterexample :
    64 ≤ Pool.aliasExample.capacity_ ∧
    Pool.aliasExample.usedMem.length = Pool.aliasExample.capacity_ / BITS ∧
    Pool.aliasExample.isUsed 0 = true ∧
    Pool.aliasExample.isUsed (2 ^ 32) = false ∧
    Pool.aliasExample.allocate
      = some ({ Pool.aliasExample.occupy 67108864 0 0 with last_ := 67108864 }, some 0) := by
  have hk0 : Pool.aliasExample.usedMem[0]? = some (U64 - 1) := List.getElem?_cons_zero
  have htop : Pool.aliasExample.usedMem[67108864]? = some 0 :=
    getElem?_cons_replicate (U64 - 1) 0 67108864 67108863 (by decide)
  have hz : count_trailing_zeros (compl64 0) = 0 := by decide
  refine ⟨by decide, ?_, ?_, ?_, ?_⟩
  · show ((U64 - 1) :: List.replicate 67108864 0).length = (2 ^ 32 + 64) / BITS
    rw [List.length_cons, List.length_replicate]
    decide
  · have h := Pool.isUsed_at Pool.aliasExample 0 (U64 - 1) 0 hk0 (by decide)
    have e : 0 * BITS + 0 = 0 := by decide
    rw [e] at h
    rw [h]
    decide
  · have h := Pool.isUsed_at Pool.aliasExample 67108864 0 0 htop (by decide)
    have e : 67108864 * BITS + 0 = 2 ^ 32 := by decide
    rw [e] at h
    rw [h]
    decide
  · rw [Pool.allocate_miss Pool.aliasExample (U64 - 1) hk0 (by decide)]
    have h := Pool.allocateScan_hit Pool.aliasExample 67108865 67108864 0 (by decide) htop
      (by decide)
    rw [hz] at h
    exact h

/-- C3 (amended). `Pool::allocate` result contract for every Pool with
`64 ≤ capacity ≤ 2^32` (so that every slot index fits the 32-bit `PoolRef`),
whose occupancy buffer has `capacity / 64` 64-bit words and whose cached
`last` is a valid word index: `allocate()` returns empty if and only if every
bit of the occupancy bitset is set, and then changes nothing; otherwise it
returns a `PoolRef` whose index is `< capacity` and whose bit was clear before
the call, sets exactly that one bit, leaves every other bit unchanged and
increments `length` by one (as a 64-bit `Ulen`); object size, capacity and
object bytes are unchanged. -/
theorem pool_allocate_contract (p : Pool)
    (hcap : 64 ≤ p.capacity_) (hcap32 : p.capacity_ ≤ U32)
    (hlen : p.usedMem.length = p.capacity_ / BITS)
    (hwords : ∀ w ∈ p.usedMem, w < U64)
    (hlast : p.last_ < p.capacity_ / BITS) :
    ∃ p1 r, p.allocate = some (p1, r) ∧
      (r = none ↔ ∀ i, i < BITS * (p.capacity_ / BITS) → p.isUsed i = true) ∧
      (r = none → p1 = p) ∧
      (∀ idx, r = some idx →
        idx < p.capacity_ ∧ p.isUsed idx = false ∧
        (∀ j, p1.isUsed j = (p.isUsed j || decide (j = idx))) ∧
        p1.length_ = (p.length_ + 1) % U64 ∧
        p1.size_ = p.size_ ∧ p1.capacity_ = p.capacity_ ∧ p1.dataMem = p.dataMem) := by
  have hn : (p.capacity_ / BITS) % U32 = p.capacity_ / BITS := by
    unfold BITS U32 at *; omega
  rcases Pool.allocate_spec p (by rw [hn, hlen]) (by rw [hlen]; exact hlast)
    with ⟨h1, _, h3⟩ | ⟨k, word, hk, h1, h2, h3⟩
  · refine ⟨p, none, h1, ?_, fun _ => rfl, fun idx h => absurd h (by simp)⟩
    refine ⟨fun _ i hi => ?_, fun _ => rfl⟩
    rw [hn] at h3
    obtain ⟨word, hw1, hw2⟩ := h3 (i / BITS) (by unfold BITS at *; omega)
    have hwlt : word < U64 := hwords word (List.getElem?_mem hw1)
    have hfull := (compl64_eq_zero word hwlt).mp hw2
    unfold Pool.isUsed
    rw [hw1, hfull]
    show (2 ^ 64 - 1).testBit (i % BITS) = true
    rw [Nat.testBit_two_pow_sub_one]
    simp only [decide_eq_true_eq]
    unfold BITS; omega
  · have hwlt : word < U64 := hwords word (List.getElem?_mem h1)
    obtain ⟨hb, hclear⟩ := free_bit_spec word hwlt h2
    have hidx : (k * BITS + count_trailing_zeros (compl64 word)) % U32
        = k * BITS + count_trailing_zeros (compl64 word) := by
      apply Nat.mod_eq_of_lt
      unfold BITS U32 at *; omega
    have hbit : p.isUsed (k * BITS + count_trailing_zeros (compl64 word)) = false := by
      rw [Pool.isUsed_at p k word _ h1 hb]; exact hclear
    refine ⟨_, _, h3, ?_, fun h => absurd h (by simp), ?_⟩
    · refine ⟨fun h => absurd h (by simp), fun hall => ?_⟩
      have := hall (k * BITS + count_trailing_zeros (compl64 word))
        (by unfold BITS at *; omega)
      rw [hbit] at this
      exact absurd this (by simp)
    · intro idx hidx1
      rw [hidx] at hidx1
      have hi : idx = k * BITS + count_trailing_zeros (compl64 word) :=
        (Option.some.inj hidx1).symm
      subst hi
      refine ⟨by unfold BITS at *; omega, hbit, ?_, rfl, rfl, rfl, rfl⟩
      intro j
      exact Pool.isUsed_occupy p k word h1 hwlt h2 j

theorem pool_allocate_contract_witness :
    ∃ p1 r, Pool.smallExample.allocate = some (p1, r) ∧
      (r = none ↔ ∀ i, i < BITS * (Pool.smallExample.capacity_ / BITS) →
        Pool.smallExample.isUsed i = true) ∧
      (r = none → p1 = Pool.smallExample) ∧
      (∀ idx, r = some idx →
        idx < Pool.smallExample.capacity_ ∧ Pool.smallExample.isUsed idx = false ∧
        (∀ j, p1.isUsed j = (Pool.smallExample.isUsed j || decide (j = idx))) ∧
        p1.length_ = (Pool.smallExample.length_ + 1) % U64 ∧
        p1.size_ = Pool.smallExample.size_ ∧ p1.capacity_ = Pool.smallExample.capacity_ ∧
        p1.dataMem = Pool.smallExample.dataMem) :=
  pool_allocate_contract Pool.smallExample (by decide) (by decide) (by decide) (by decide)
    (by decide)

/-! ## The pool invariant -/

theorem Pool.create_eq {σ : Type} (A : Allocator σ) (s s1 : σ) (size capacity : Nat) (p : Pool)
    (h : Pool.create A s size capacity = (some p, s1)) :
    p.size_ = size ∧ p.length_ = 0 ∧
    p.capacity_ = (((capacity + (BITS - 1)) % U64) / BITS * BITS) % U64 ∧
    p.last_ = 0 ∧
    p.dataMem = List.replicate ((size * p.capacity_) % U64) 0 ∧
    p.usedMem = List.replicate (p.capacity_ / BITS) 0 := by
  unfold Pool.create at h
  simp only at h
  split at h
  · simp at h
  · split at h
    · simp at h
    · simp only [Prod.mk.injEq, Option.some.injEq] at h
      obtain ⟨hp, _⟩ := h
      subst hp
      exact ⟨rfl, rfl, rfl, rfl, rfl, rfl⟩

theorem Pool.create_good {σ : Type} (A : Allocator σ) (s s1 : σ) (size capacity : Nat)
    (p : Pool) (hsize : size < U64)
    (h : Pool.create A s size capacity = (some p, s1)) : p.Good := by
  obtain ⟨h1, h2, h3, _, h5, h6⟩ := Pool.create_eq A s s1 size capacity p h
  unfold Pool.Good
  refine ⟨by rw [h1]; exact hsize, ?_, ?_, ?_, ?_, ?_, ?_⟩
  · rw [h3]; exact Nat.mod_lt _ (by decide)
  · rw [h6, List.length_replicate]
  · intro w hw
    rw [h6] at hw
    rw [List.eq_of_mem_replicate hw]
    decide
  · rw [h5, List.length_replicate, h1]
  · intro b hb
    rw [h5] at hb
    rw [List.eq_of_mem_replicate hb]
    decide
  · rw [h2, h6, popcount_replicate_zero]

theorem Pool.allocate_good (p p1 : Pool) (r : Option Nat) (hg : p.Good)
    (h : p.allocate = some (p1, r)) : p1.Good := by
  obtain ⟨g1, g2, g3, g4, g5, g6, g7⟩ := hg
  have hlast : p.last_ < p.usedMem.length := by
    rcases Nat.lt_or_ge p.last_ p.usedMem.length with hlt | hge
    · exact hlt
    · rw [Pool.allocate_fault p hge] at h; exact absurd h (by simp)
  have hn : (p.capacity_ / BITS) % U32 ≤ p.usedMem.length := by
    rw [g3]; exact Nat.mod_le _ _
  rcases Pool.allocate_spec p hn hlast with ⟨h1, _, _⟩ | ⟨k, word, hk, h1, h2, h3⟩
  · rw [h1] at h
    simp only [Option.some.injEq, Prod.mk.injEq] at h
    rw [← h.1]
    exact ⟨g1, g2, g3, g4, g5, g6, g7⟩
  · rw [h3] at h
    simp only [Option.some.injEq, Prod.mk.injEq] at h
    rw [← h.1]
    have hwlt : word < U64 := g4 word (List.getElem?_mem h1)
    have hpc := Pool.popcount_occupy p k word h1 hwlt h2
    have hwords := Pool.words_occupy p k word hwlt h2 g4
    have hmem := Pool.occupy_usedMem p k word hwlt h2
    have hle := popcount_le
      ({ p.occupy k word (count_trailing_zeros (compl64 word)) with last_ := k } : Pool).usedMem
    have hlen : ({ p.occupy k word (count_trailing_zeros (compl64 word)) with last_ := k }
        : Pool).usedMem.length = p.usedMem.length := by
      rw [hmem, List.length_set]
    refine ⟨g1, g2, ?_, hwords, g5, g6, ?_⟩
    · rw [hlen]; exact g3
    · rw [hpc]
      show (p.length_ + 1) % U64 = popcount p.usedMem + 1
      rw [g7]
      apply Nat.mod_eq_of_lt
      rw [hlen, hpc, g3] at hle
      unfold BITS at hle
      omega

theorem Pool.deallocate_good (p p1 : Pool) (ref : Nat) (hg : p.Good)
    (hused : p.isUsed ref = true) (h : p.deallocate ref = some p1) : p1.Good := by
  obtain ⟨g1, g2, g3, g4, g5, g6, g7⟩ := hg
  unfold Pool.isUsed at hused
  unfold Pool.deallocate at h
  simp only at h
  cases hk : p.usedMem[ref / BITS]? with
  | none => rw [hk] at hused; simp at hused
  | some word =>
    rw [hk] at hused h
    simp only [Option.some.injEq] at h hused
    have hwlt : word < U64 := g4 word (List.getElem?_mem hk)
    have hb : ref % BITS < 64 := Nat.mod_lt _ (by decide)
    have hpc64 := popcount64_clearBit word (ref % BITS) hwlt hb hused
    have hpc := popcount_set p.usedMem (ref / BITS) word
      (word &&& compl64 (2 ^ (ref % BITS))) hk
    have hle := popcount_le p.usedMem
    rw [clearBit_eq _ hb] at h
    rw [← h]
    refine ⟨g1, g2, ?_, ?_, g5, g6, ?_⟩
    · show (p.usedMem.set _ _).length = _
      rw [List.length_set]; exact g3
    · intro w hw
      rcases List.mem_or_eq_of_mem_set hw with hm | hm
      · exact g4 w hm
      · rw [hm]; exact clearBit_lt word _ hwlt
    · show (p.length_ + (U64 - 1)) % U64 = popcount (p.usedMem.set _ _)
      rw [g7]
      rw [g3] at hle
      unfold BITS U64 at *
      omega

theorem Pool.write_good (p p1 : Pool) (ref off val : Nat) (hg : p.Good) (hval : val < 256)
    (h : p.write ref off val = some p1) : p1.Good := by
  obtain ⟨g1, g2, g3, g4, g5, g6, g7⟩ := hg
  unfold Pool.write at h
  split at h
  · simp only [Option.some.injEq] at h
    rw [← h]
    refine ⟨g1, g2, g3, g4, ?_, ?_, g7⟩
    · show (p.dataMem.set _ _).length = _
      rw [List.length_set]; exact g5
    · intro b hb
      rcases List.mem_or_eq_of_mem_set hb with hm | hm
      · exact g6 b hm
      · rw [hm]; exact hval
  · simp at h

theorem Pool.Reachable.good (p : Pool) (h : Pool.Reachable p) : p.Good := by
  induction h with
  | create A s s1 size capacity p hs _ hc => exact Pool.create_good A s s1 size capacity p hs hc
  | allocate p p1 r _ ha ih => exact Pool.allocate_good p p1 r ih ha
  | deallocate p p1 ref _ _ hu hd ih => exact Pool.deallocate_good p p1 ref ih hu hd
  | write p p1 ref off val _ _ hv hw ih => exact Pool.write_good p p1 ref off val ih hv hw

/-- C5. Pool length invariant: for every Pool produced by `Pool::create` and
then any sequence of `allocate()` calls, `deallocate(ref)` calls on refs whose
object is in use, and stores into slot bytes, `length` equals the popcount of
the occupancy bitset (the number of set bits over all `capacity / 64` words). -/
theorem pool_length_invariant (p : Pool) (h : Pool.Reachable p) :
    p.length_ = popcount p.usedMem ∧ p.usedMem.length = p.capacity_ / BITS :=
  ⟨(Pool.Reachable.good p h).2.2.2.2.2.2, (Pool.Reachable.good p h).2.2.1⟩

theorem pool_length_invariant_witness :
    (Pool.freshExample.occupy 0 0 0).length_ = popcount (Pool.freshExample.occupy 0 0 0).usedMem ∧
    (Pool.freshExample.occupy 0 0 0).usedMem.length
      = (Pool.freshExample.occupy 0 0 0).capacity_ / BITS :=
  pool_length_invariant (Pool.freshExample.occupy 0 0 0)
    (Pool.Reachable.allocate Pool.freshExample _ (some 0)
      (Pool.Reachable.create Allocator.bump 4096 4648 8 64 Pool.freshExample
        (by decide) (by decide) rfl)
      rfl)

/-! ## Saturation -/

theorem popcount_full (ws : List Nat) (h : ∀ w ∈ ws, w = U64 - 1) :
    popcount ws = 64 * ws.length := by
  induction ws with
  | nil => rfl
  | cons x xs ih =>
    have hx : popcount64 x = 64 := by
      rw [h x (List.mem_cons_self _ _)]; exact popcount64_full
    have hxs := ih (fun w hw => h w (List.mem_cons_of_mem _ hw))
    unfold popcount at *
    simp only [List.map_cons, List.sum_cons, List.length_cons]
    omega

/-- One successful `allocate()` on a pool that is not full and whose slot
indices fit a `PoolRef`. -/
theorem Pool.allocate_step (p : Pool) (hg : p.Good) (hcap32 : p.capacity_ ≤ U32)
    (hlast : p.last_ < p.usedMem.length)
    (hroom : popcount p.usedMem < 64 * p.usedMem.length) :
    ∃ p1 idx, p.allocate = some (p1, some idx) ∧ idx < p.capacity_ ∧
      p.isUsed idx = false ∧ (∀ j, p1.isUsed j = (p.isUsed j || decide (j = idx))) ∧
      p1.Good ∧ p1.capacity_ = p.capacity_ ∧ p1.last_ < p1.usedMem.length ∧
      p1.usedMem.length = p.usedMem.length ∧
      popcount p1.usedMem = popcount p.usedMem + 1 := by
  have hg0 := hg
  obtain ⟨g1, g2, g3, g4, g5, g6, g7⟩ := hg
  have hn : (p.capacity_ / BITS) % U32 = p.usedMem.length := by
    rw [g3]; unfold BITS U32 at *; omega
  rcases Pool.allocate_spec p (by rw [hn]) hlast with ⟨_, _, h3⟩ | ⟨k, word, hk, h1, h2, h3⟩
  · exfalso
    rw [hn] at h3
    have hall : ∀ w ∈ p.usedMem, w = U64 - 1 := by
      intro w hw
      obtain ⟨i, hi⟩ := List.mem_iff_getElem?.mp hw
      have hilt : i < p.usedMem.length := by
        rcases Nat.lt_or_ge i p.usedMem.length with hlt | hge
        · exact hlt
        · rw [List.getElem?_eq_none hge] at hi; exact absurd hi (by simp)
      obtain ⟨word, hw1, hw2⟩ := h3 i hilt
      rw [hi] at hw1
      have hww : w = word := Option.some.inj hw1
      rw [hww]
      exact (compl64_eq_zero word (g4 word (hww ▸ hw))).mp hw2
    rw [popcount_full p.usedMem hall] at hroom
    exact Nat.lt_irrefl _ hroom
  · have hwlt : word < U64 := g4 word (List.getElem?_mem h1)
    obtain ⟨hb, hclear⟩ := free_bit_spec word hwlt h2
    have hidx : (k * BITS + count_trailing_zeros (compl64 word)) % U32
        = k * BITS + count_trailing_zeros (compl64 word) := by
      apply Nat.mod_eq_of_lt
      rw [g3] at hk
      unfold BITS U32 at *; omega
    have hlen : ({ p.occupy k word (count_trailing_zeros (compl64 word)) with last_ := k }
        : Pool).usedMem.length = p.usedMem.length := by
      rw [Pool.occupy_usedMem p k word hwlt h2, List.length_set]
    rw [hidx] at h3
    refine ⟨_, _, h3, ?_, ?_, Pool.isUsed_occupy p k word h1 hwlt h2,
      Pool.allocate_good p _ _ hg0 h3, rfl, ?_, hlen, Pool.popcount_occupy p k word h1 hwlt h2⟩
    · rw [g3] at hk; unfold BITS at *; omega
    · rw [Pool.isUsed_at p k word _ h1 hb]; exact hclear
    · rw [hlen]; exact hk

theorem Pool.allocateN_spec : ∀ (n : Nat) (p : Pool), p.Good → p.capacity_ ≤ U32 →
    p.last_ < p.usedMem.length → popcount p.usedMem + n ≤ 64 * p.usedMem.length →
    ∃ p1 rs, p.allocateN n = some (p1, rs) ∧ rs.length = n ∧
      (∀ r ∈ rs, ∃ i, r = some i ∧ i < p.capacity_ ∧ p.isUsed i = false ∧ p1.isUsed i = true) ∧
      rs.Nodup ∧ (∀ j, p.isUsed j = true → p1.isUsed j = true) ∧
      p1.Good ∧ p1.capacity_ = p.capacity_ ∧ p1.last_ < p1.usedMem.length ∧
      p1.usedMem.length = p.usedMem.length ∧
      popcount p1.usedMem = popcount p.usedMem + n := by
  intro n
  induction n with
  | zero =>
    intro p hg _ hlast _
    exact ⟨p, [], rfl, rfl, fun r hr => absurd hr (by simp), List.nodup_nil,
      fun _ h => h, hg, rfl, hlast, rfl, rfl⟩
  | succ n ih =>
    intro p hg hcap hlast hroom
    obtain ⟨q, idx, ha, hi1, hi2, hi3, hqg, hqc, hql, hqlen, hqp⟩ :=
      Pool.allocate_step p hg hcap hlast (by omega)
    obtain ⟨p1, rs, hb, hr1, hr2, hr3, hr4, hr5, hr6, hr7, hr8, hr9⟩ :=
      ih q hqg (by rw [hqc]; exact hcap) hql (by rw [hqlen, hqp]; omega)
    have hqidx : q.isUsed idx = true := by rw [hi3 idx]; simp
    refine ⟨p1, some idx :: rs, ?_, by rw [List.length_cons, hr1], ?_, ?_, ?_, hr5,
      by rw [hr6, hqc], hr7, by rw [hr8, hqlen], by rw [hr9, hqp]; omega⟩
    · show (match p.allocate with
        | none => none
        | some (p1, r) =>
          match Pool.allocateN p1 n with
          | none => none
          | some (p2, rs) => some (p2, r :: rs)) = _
      rw [ha]
      simp only [hb]
    · intro r hr
      rcases List.mem_cons.mp hr with hr0 | hr0
      · exact ⟨idx, hr0, hi1, hi2, hr4 idx hqidx⟩
      · obtain ⟨i, e1, e2, e3, e4⟩ := hr2 r hr0
        refine ⟨i, e1, by rw [← hqc]; exact e2, ?_, e4⟩
        rw [hi3 i] at e3
        cases hpi : p.isUsed i with
        | false => rfl
        | true => rw [hpi] at e3; simp at e3
    · refine List.nodup_cons.mpr ⟨?_, hr3⟩
      intro hmem
      obtain ⟨i, e1, _, e3, _⟩ := hr2 (some idx) hmem
      have : i = idx := (Option.some.inj e1).symm
      subst this
      rw [hqidx] at e3
      exact absurd e3 (by simp)
    · intro j hj
      exact hr4 j (by rw [hi3 j, hj]; rfl)

theorem Pool.allocateScan_ref_lt (p p1 : Pool) (n i : Nat) :
    ∀ w, p.allocateScan n w = some (p1, some i) → i < U32 := by
  intro w
  induction w with
  | zero =>
    intro h
    unfold Pool.allocateScan at h
    split at h
    · split at h
      · simp at h
      · split at h
        · simp only [Option.some.injEq, Prod.mk.injEq] at h
          rw [← h.2]; exact Nat.mod_lt _ (by decide)
        · simp at h
    · simp at h
  | succ w ih =>
    intro h
    unfold Pool.allocateScan at h
    split at h
    · split at h
      · simp at h
      · split at h
        · simp only [Option.some.injEq, Prod.mk.injEq] at h
          rw [← h.2]; exact Nat.mod_lt _ (by decide)
        · exact ih h
    · simp at h

theorem Pool.allocate_ref_lt (p p1 : Pool) (i : Nat) (h : p.allocate = some (p1, some i)) :
    i < U32 := by
  unfold Pool.allocate at h
  simp only at h
  split at h
  · simp at h
  · split at h
    · simp only [Option.some.injEq, Prod.mk.injEq] at h
      rw [← h.2]; exact Nat.mod_lt _ (by decide)
    · exact Pool.allocateScan_ref_lt p p1 _ i _ h

theorem Pool.allocateN_ref_lt : ∀ (n : Nat) (p p1 : Pool) (rs : List (Option Nat)),
    p.allocateN n = some (p1, rs) → ∀ i, some i ∈ rs → i < U32 := by
  intro n
  induction n with
  | zero =>
    intro p p1 rs h i hi
    unfold Pool.allocateN at h
    simp only [Option.some.injEq, Prod.mk.injEq] at h
    rw [← h.2] at hi
    simp at hi
  | succ n ih =>
    intro p p1 rs h i hi
    unfold Pool.allocateN at h
    cases ha : p.allocate with
    | none => rw [ha] at h; simp at h
    | some qr =>
      obtain ⟨q, r⟩ := qr
      rw [ha] at h
      simp only at h
      cases hb : q.allocateN n with
      | none => rw [hb] at h; simp at h
      | some p2rs =>
        obtain ⟨p2, rs1⟩ := p2rs
        rw [hb] at h
        simp only [Option.some.injEq, Prod.mk.injEq] at h
        rw [← h.2] at hi
        rcases List.mem_cons.mp hi with h0 | h0
        · rw [← h0] at ha
          exact Pool.allocate_ref_lt p q i ha
        · exact ih q p2 rs1 hb i h0

theorem nodup_refs_length_le (rs : List (Option Nat)) (N : Nat) (hnd : rs.Nodup)
    (hall : ∀ r ∈ rs, ∃ i, r = some i ∧ i < N) : rs.length ≤ N := by
  have hsub : rs.toFinset ⊆ (Finset.range N).image some := by
    intro r hr
    obtain ⟨i, e1, e2⟩ := hall r (List.mem_toFinset.mp hr)
    exact Finset.mem_image.mpr ⟨i, Finset.mem_range.mpr e2, e1.symm⟩
  calc rs.length = rs.toFinset.card := (List.toFinset_card_of_nodup hnd).symm
    _ ≤ ((Finset.range N).image some).card := Finset.card_le_card hsub
    _ ≤ (Finset.range N).card := Finset.card_image_le
    _ = N := Finset.card_range N

/-- C4 (as stated) fails. `Pool::create(size = 1, capacity = 2^32 + 1)` on an
allocator that grants both buffers returns a Pool of capacity
`C = 2^32 + 64`. Every `PoolRef` index is a 32-bit value, so no run of `C`
calls of `allocate()` returns `C` pairwise distinct indices. -/
theorem pool_saturation_counterexample :
    ∃ p0 s1, Pool.create Allocator.bump 4096 1 (2 ^ 32 + 1) = (some p0, s1) ∧
      p0.capacity_ = 2 ^ 32 + 64 ∧
      ¬ ∃ p1 rs, p0.allocateN p0.capacity_ = some (p1, rs) ∧ rs.length = p0.capacity_ ∧
          (∀ r ∈ rs, ∃ i, r = some i ∧ i < p0.capacity_) ∧ rs.Nodup := by
  refine ⟨_, _, rfl, by decide, ?_⟩
  rintro ⟨p1, rs, h1, h2, h3, h4⟩
  have hle := nodup_refs_length_le rs U32 h4 (fun r hr => by
    obtain ⟨i, e1, _⟩ := h3 r hr
    exact ⟨i, e1, Pool.allocateN_ref_lt _ _ p1 rs h1 i (e1 ▸ hr)⟩)
  rw [h2] at hle
  exact absurd hle (by decide)

/-- C4 (amended). Pool saturation: for every object size and requested
capacity `1 ≤ c ≤ 2^32`, with `C` the capacity after rounding `c` up to a
multiple of 64, the first `C` calls to `allocate()` on a freshly created Pool
all succeed and return `C` pairwise distinct indices in `[0, C)`, the
`(C+1)`-th call returns empty and changes nothing, and `length() == C`
afterwards. -/
theorem pool_saturation {σ : Type} (A : Allocator σ) (s s1 : σ) (size c : Nat) (p0 : Pool)
    (hsize : size < U64) (hc1 : 1 ≤ c) (hc2 : c ≤ U32)
    (hcreate : Pool.create A s size c = (some p0, s1)) :
    p0.capacity_ = (c + 63) / 64 * 64 ∧
    ∃ p1 rs, p0.allocateN p0.capacity_ = some (p1, rs) ∧ rs.length = p0.capacity_ ∧
      (∀ r ∈ rs, ∃ i, r = some i ∧ i < p0.capacity_) ∧ rs.Nodup ∧
      p1.allocate = some (p1, none) ∧ p1.length_ = p0.capacity_ := by
  have hg := Pool.create_good A s s1 size c p0 hsize hcreate
  obtain ⟨_, e2, e3, e4, _, e6⟩ := Pool.create_eq A s s1 size c p0 hcreate
  have hcap : p0.capacity_ = (c + 63) / 64 * 64 := by
    rw [e3]; unfold BITS U64 U32 at *; omega
  have hlen : p0.usedMem.length = p0.capacity_ / BITS := hg.2.2.1
  have hcap32 : p0.capacity_ ≤ U32 := by rw [hcap]; unfold U32 at *; omega
  have hmul : 64 * p0.usedMem.length = p0.capacity_ := by
    rw [hlen, hcap]; unfold BITS; omega
  have hpc0 : popcount p0.usedMem = 0 := by rw [e6, popcount_replicate_zero]
  obtain ⟨p1, rs, h1, h2, h3, h4, _, h6, h7, h8, h9, h10⟩ :=
    Pool.allocateN_spec p0.capacity_ p0 hg hcap32
      (by rw [e4, hlen, hcap]; unfold BITS; omega) (by rw [hpc0, hmul]; omega)
  refine ⟨hcap, p1, rs, h1, h2, fun r hr => ?_, h4, ?_, ?_⟩
  · obtain ⟨i, a1, a2, _, _⟩ := h3 r hr
    exact ⟨i, a1, a2⟩
  · have hn : (p1.capacity_ / BITS) % U32 ≤ p1.usedMem.length := by
      rw [h6.2.2.1]; exact Nat.mod_le _ _
    rcases Pool.allocate_spec p1 hn h8 with ⟨k1, _, _⟩ | ⟨k, word, hk, k1, k2, _⟩
    · exact k1
    · exfalso
      have hfull := popcount_eq_full p1.usedMem h6.2.2.2.1
        (by rw [h10, hpc0, h9]; omega) word (List.getElem?_mem k1)
      exact k2 ((compl64_eq_zero word (h6.2.2.2.1 word (List.getElem?_mem k1))).mpr hfull)
  · rw [h6.2.2.2.2.2.2, h10, hpc0]; omega

theorem pool_saturation_witness :
    Pool.freshExample.capacity_ = (64 + 63) / 64 * 64 ∧
    ∃ p1 rs, Pool.freshExample.allocateN Pool.freshExample.capacity_ = some (p1, rs) ∧
      rs.length = Pool.freshExample.capacity_ ∧
      (∀ r ∈ rs, ∃ i, r = some i ∧ i < Pool.freshExample.capacity_) ∧ rs.Nodup ∧
      p1.allocate = some (p1, none) ∧ p1.length_ = Pool.freshExample.capacity_ :=
  pool_saturation Allocator.bump 4096 4648 8 64 Pool.freshExample
    (by decide) (by decide) (by decide) rfl

/-! ## Byte images -/

theorem toLE_length : ∀ (k v : Nat), (toLE k v).length = k := by
  intro k
  induction k with
  | zero => intro v; rfl
  | succ k ih => intro v; simp only [toLE, List.length_cons, ih]

theorem fromLE_toLE : ∀ (k v : Nat), v < 256 ^ k → fromLE (toLE k v) = v := by
  intro k
  induction k with
  | zero => intro v h; simp at h; simp [toLE, fromLE, h]
  | succ k ih =>
    intro v h
    have h1 : v / 256 < 256 ^ k := by
      rw [Nat.pow_succ] at h
      exact Nat.div_lt_of_lt_mul (by rw [Nat.mul_comm]; exact h)
    simp only [toLE, fromLE, ih (v / 256) h1]
    omega

theorem toLE_lt : ∀ (k v : Nat), ∀ b ∈ toLE k v, b < 256 := by
  intro k
  induction k with
  | zero => intro v b hb; simp [toLE] at hb
  | succ k ih =>
    intro v b hb
    simp only [toLE, List.mem_cons] at hb
    rcases hb with h | h
    · rw [h]; omega
    · exact ih _ b h

theorem wordsToBytes_length (ws : List Nat) : (wordsToBytes ws).length = 8 * ws.length := by
  induction ws with
  | nil => rfl
  | cons w ws ih =>
    simp only [wordsToBytes, List.length_append, toLE_length, ih, List.length_cons]
    omega

theorem bytesToWords_wordsToBytes (ws : List Nat) (h : ∀ w ∈ ws, w < U64) :
    bytesToWords ws.length (wordsToBytes ws) = ws := by
  induction ws with
  | nil => rfl
  | cons w ws ih =>
    have hw : w < 256 ^ 8 := h w (List.mem_cons_self _ _)
    simp only [wordsToBytes, List.length_cons, bytesToWords]
    rw [List.take_left' (toLE_length 8 w), List.drop_left' (toLE_length 8 w),
      fromLE_toLE 8 w hw, ih (fun v hv => h v (List.mem_cons_of_mem _ hv))]

theorem header_split (a b c d e : List Nat) (ha : a.length = 4) (hb : b.length = 4)
    (hc : c.length = 8) (hd : d.length = 8) :
    (a ++ b ++ c ++ d ++ e).take 4 = a ∧
    ((a ++ b ++ c ++ d ++ e).drop 4).take 4 = b ∧
    ((a ++ b ++ c ++ d ++ e).drop 8).take 8 = c ∧
    ((a ++ b ++ c ++ d ++ e).drop 16).take 8 = d ∧
    (a ++ b ++ c ++ d ++ e).drop 24 = e := by
  have e1 : a ++ b ++ c ++ d ++ e = a ++ (b ++ (c ++ (d ++ e))) := by
    simp only [List.append_assoc]
  have e2 : a ++ b ++ c ++ d ++ e = (a ++ b) ++ (c ++ (d ++ e)) := by
    simp only [List.append_assoc]
  have e3 : a ++ b ++ c ++ d ++ e = (a ++ b ++ c) ++ (d ++ e) := by
    simp only [List.append_assoc]
  have l2 : (a ++ b).length = 8 := by rw [List.length_append, ha, hb]
  have l3 : (a ++ b ++ c).length = 16 := by rw [List.length_append, l2, hc]
  have l4 : (a ++ b ++ c ++ d).length = 24 := by rw [List.length_append, l3, hd]
  refine ⟨?_, ?_, ?_, ?_, ?_⟩
  · rw [e1, List.take_left' ha]
  · rw [e1, List.drop_left' ha, List.take_left' hb]
  · rw [e2, List.drop_left' l2, List.take_left' hc]
  · rw [e3, List.drop_left' l3, List.take_left' hd]
  · rw [List.drop_left' l4]

theorem PoolHeader.ofBytes_toBytes (h : PoolHeader) (hm : h.magic.length = 4)
    (hv : h.version < U32) (hl : h.length < U64) (hs : h.size < U64) (hc : h.capacity < U64) :
    PoolHeader.ofBytes h.toBytes = h ∧ h.toBytes.length = 32 := by
  have hm4 : h.magic.take 4 = h.magic := List.take_of_length_le (by omega)
  obtain ⟨s1, s2, s3, s4, s5⟩ := header_split h.magic (toLE 4 h.version) (toLE 8 h.length)
    (toLE 8 h.size) (toLE 8 h.capacity) hm (toLE_length _ _) (toLE_length _ _) (toLE_length _ _)
  have s5t : ((h.magic ++ toLE 4 h.version ++ toLE 8 h.length ++ toLE 8 h.size
      ++ toLE 8 h.capacity).drop 24).take 8 = toLE 8 h.capacity := by
    rw [s5]; exact List.take_of_length_le (by rw [toLE_length])
  constructor
  · unfold PoolHeader.ofBytes PoolHeader.toBytes
    rw [hm4, s1, s2, s3, s4, s5t, fromLE_toLE 4 _ hv, fromLE_toLE 8 _ hl, fromLE_toLE 8 _ hs,
      fromLE_toLE 8 _ hc]
  · unfold PoolHeader.toBytes
    rw [hm4]
    simp only [List.length_append, toLE_length, hm]

/-! ## The faithful stream -/

theorem Stream.write_at (a b d : List Nat) :
    Stream.write { content := a ++ b, offset_ := a.length } d
      = (true, { content := (a ++ d) ++ b.drop d.length, offset_ := (a ++ d).length }) := by
  unfold Stream.write
  simp only [List.take_left, List.drop_append, List.length_append]

theorem Stream.read_at (a d b : List Nat) :
    Stream.read { content := (a ++ d) ++ b, offset_ := a.length } d.length
      = (true, d, { content := (a ++ d) ++ b, offset_ := (a ++ d).length }) := by
  unfold Stream.read
  have h1 : ((a ++ d) ++ b).drop a.length = d ++ b := by
    rw [List.append_assoc, List.drop_left]
  simp only [h1, List.take_left, List.length_append, decide_True]

/-! ## `Pool::save` and `Pool::load` -/

theorem Pool.save_eq (p : Pool) (a b : List Nat)
    (hu : p.usedMem.length = p.capacity_ / BITS)
    (hd : p.dataMem.length = (p.size_ * p.capacity_) % U64) :
    p.save { content := a ++ b, offset_ := a.length }
      = (true,
         { content := (((a ++ PoolHeader.toBytes
              { magic := poolMagic, version := 1 % U32, length := p.length_ % U64,
                size := p.size_ % U64, capacity := p.capacity_ % U64 })
              ++ wordsToBytes p.usedMem) ++ p.dataMem)
              ++ ((b.drop (PoolHeader.toBytes
                { magic := poolMagic, version := 1 % U32, length := p.length_ % U64,
                  size := p.size_ % U64, capacity := p.capacity_ % U64 }).length).drop
                  (wordsToBytes p.usedMem).length).drop p.dataMem.length,
           offset_ := (((a ++ PoolHeader.toBytes
              { magic := poolMagic, version := 1 % U32, length := p.length_ % U64,
                size := p.size_ % U64, capacity := p.capacity_ % U64 })
              ++ wordsToBytes p.usedMem) ++ p.dataMem).length }) := by
  have hut : p.usedMem.take (p.capacity_ / BITS) = p.usedMem :=
    List.take_of_length_le (by omega)
  have hdt : p.dataMem.take ((p.size_ * p.capacity_) % U64) = p.dataMem :=
    List.take_of_length_le (by omega)
  unfold Pool.save
  simp only [hut, hdt, Stream.write_at, Bool.true_eq_false, if_false]

theorem Pool.load_eq {σ : Type} (A : Allocator σ) (s : σ) (h : PoolHeader)
    (a ws ds rest : List Nat)
    (hm : h.magic = poolMagic) (hv : h.version = 1)
    (hl : h.length < U64) (hs : h.size < U64) (hc : h.capacity < U64)
    (hws : ws.length = h.capacity / BITS) (hwlt : ∀ w ∈ ws, w < U64)
    (hds : ds.length = (h.size * h.capacity) % U64)
    (hu : (A.allocate s 8 (h.capacity / BITS) false).1 ≠ 0)
    (hd : (A.allocate (A.allocate s 8 (h.capacity / BITS) false).2 1
            ((h.size * h.capacity) % U64) false).1 ≠ 0) :
    Pool.load A s { content := (((a ++ h.toBytes) ++ wordsToBytes ws) ++ ds) ++ rest,
                    offset_ := a.length }
      = (some { size_ := h.size, length_ := h.length, capacity_ := h.capacity,
                data_ := (A.allocate (A.allocate s 8 (h.capacity / BITS) false).2 1
                            ((h.size * h.capacity) % U64) false).1,
                used_ := (A.allocate s 8 (h.capacity / BITS) false).1,
                last_ := 0, dataMem := ds, usedMem := ws },
         (A.allocate (A.allocate s 8 (h.capacity / BITS) false).2 1
            ((h.size * h.capacity) % U64) false).2,
         { content := (((a ++ h.toBytes) ++ wordsToBytes ws) ++ ds) ++ rest,
           offset_ := (((a ++ h.toBytes) ++ wordsToBytes ws) ++ ds).length }) := by
  obtain ⟨hofb, hlen32⟩ := PoolHeader.ofBytes_toBytes h (by rw [hm]; rfl)
    (by rw [hv]; decide) hl hs hc
  have hwb : (wordsToBytes ws).length = (h.capacity / BITS * 8) % U64 := by
    rw [wordsToBytes_length, hws]
    unfold BITS U64 at *
    omega
  have r0 : Stream.read { content := (((a ++ h.toBytes) ++ wordsToBytes ws) ++ ds) ++ rest,
                          offset_ := a.length } 32
      = (true, h.toBytes,
         { content := (((a ++ h.toBytes) ++ wordsToBytes ws) ++ ds) ++ rest,
           offset_ := (a ++ h.toBytes).length }) := by
    have := Stream.read_at a h.toBytes (wordsToBytes ws ++ (ds ++ rest))
    rw [hlen32] at this
    simp only [List.append_assoc] at this ⊢
    exact this
  have r1 : Stream.read { content := (((a ++ h.toBytes) ++ wordsToBytes ws) ++ ds) ++ rest,
                          offset_ := (a ++ h.toBytes).length } ((h.capacity / BITS * 8) % U64)
      = (true, wordsToBytes ws,
         { content := (((a ++ h.toBytes) ++ wordsToBytes ws) ++ ds) ++ rest,
           offset_ := ((a ++ h.toBytes) ++ wordsToBytes ws).length }) := by
    have := Stream.read_at (a ++ h.toBytes) (wordsToBytes ws) (ds ++ rest)
    rw [hwb] at this
    simp only [List.append_assoc] at this ⊢
    exact this
  have r2 : Stream.read { content := (((a ++ h.toBytes) ++ wordsToBytes ws) ++ ds) ++ rest,
                          offset_ := ((a ++ h.toBytes) ++ wordsToBytes ws).length }
                ((h.size * h.capacity) % U64)
      = (true, ds,
         { content := (((a ++ h.toBytes) ++ wordsToBytes ws) ++ ds) ++ rest,
           offset_ := (((a ++ h.toBytes) ++ wordsToBytes ws) ++ ds).length }) := by
    have := Stream.read_at ((a ++ h.toBytes) ++ wordsToBytes ws) ds rest
    rw [hds] at this
    exact this
  have hbw : bytesToWords (h.capacity / BITS) (wordsToBytes ws) = ws := by
    rw [← hws]; exact bytesToWords_wordsToBytes ws hwlt
  unfold Pool.load
  simp only [r0, hofb, hm, hv, r1, r2, hbw, hu, hd, Bool.true_eq_false, if_false,
    ne_eq, not_true_eq_false, or_self]

theorem Pool.Good.length_lt (p : Pool) (hg : p.Good) : p.length_ < U64 := by
  obtain ⟨_, g2, g3, _, _, _, g7⟩ := hg
  have := popcount_le p.usedMem
  rw [g7]
  rw [g3] at this
  unfold BITS at this
  omega

/-- C1. Pool save/load round trip. For every Pool reachable from
`Pool::create` by `allocate`, `deallocate` and stores into slot bytes, a
stream that stores and returns bytes faithfully (positioned inside its
content) and an allocator that grants the two buffers `load` asks for:
`save` succeeds, and `load` of the written bytes (the stream rewound to where
`save` began) succeeds and returns a Pool with identical `size`, `capacity`,
`length`, occupancy bitset words and raw object bytes, leaving the stream
where `save` left it. -/
theorem pool_save_load_round_trip {σ : Type} (A : Allocator σ) (s : σ) (p : Pool) (st : Stream)
    (hreach : Pool.Reachable p) (hst : st.offset_ ≤ st.content.length)
    (hu : (A.allocate s 8 (p.capacity_ / BITS) false).1 ≠ 0)
    (hd : (A.allocate (A.allocate s 8 (p.capacity_ / BITS) false).2 1
            ((p.size_ * p.capacity_) % U64) false).1 ≠ 0) :
    (p.save st).1 = true ∧
    ∃ q s1 st1,
      Pool.load A s { content := (p.save st).2.content, offset_ := st.offset_ }
        = (some q, s1, st1) ∧
      q.size_ = p.size_ ∧ q.capacity_ = p.capacity_ ∧ q.length_ = p.length_ ∧
      q.usedMem = p.usedMem ∧ q.dataMem = p.dataMem ∧
      st1.offset_ = (p.save st).2.offset_ := by
  have hg := Pool.Reachable.good p hreach
  have hlen := Pool.Good.length_lt p hg
  obtain ⟨g1, g2, g3, g4, g5, _, _⟩ := hg
  have hst_eq : st = { content := st.content.take st.offset_ ++ st.content.drop st.offset_,
                       offset_ := (st.content.take st.offset_).length } := by
    cases st with
    | mk c o =>
      simp only [List.take_append_drop, List.length_take] at hst ⊢
      rw [Nat.min_eq_left hst]
  have hsave := Pool.save_eq p (st.content.take st.offset_) (st.content.drop st.offset_) g3 g5
  rw [← hst_eq] at hsave
  have hoff : (st.content.take st.offset_).length = st.offset_ := by
    rw [List.length_take]; exact Nat.min_eq_left hst
  have e1 : (1 : Nat) % U32 = 1 := by decide
  have e2 : p.length_ % U64 = p.length_ := Nat.mod_eq_of_lt hlen
  have e3 : p.size_ % U64 = p.size_ := Nat.mod_eq_of_lt g1
  have e4 : p.capacity_ % U64 = p.capacity_ := Nat.mod_eq_of_lt g2
  rw [e1, e2, e3, e4] at hsave
  have hload := Pool.load_eq A s
    { magic := poolMagic, version := 1, length := p.length_, size := p.size_,
      capacity := p.capacity_ }
    (st.content.take st.offset_) p.usedMem p.dataMem
    (List.drop p.dataMem.length (List.drop (wordsToBytes p.usedMem).length
      (List.drop (PoolHeader.toBytes
        { magic := poolMagic, version := 1, length := p.length_, size := p.size_,
          capacity := p.capacity_ }).length (List.drop st.offset_ st.content))))
    rfl rfl hlen g1 g2 g3 g4 g5 hu hd
  rw [hoff] at hload
  rw [hsave]
  exact ⟨rfl, _, _, _, hload, rfl, rfl, rfl, rfl, rfl, rfl⟩

theorem pool_save_load_round_trip_witness :
    ((Pool.freshExample.occupy 0 0 0).save { content := [7, 7, 7], offset_ := 3 }).1 = true ∧
    ∃ q s1 st1,
      Pool.load Allocator.bump 8192
          { content := ((Pool.freshExample.occupy 0 0 0).save
              { content := [7, 7, 7], offset_ := 3 }).2.content, offset_ := 3 }
        = (some q, s1, st1) ∧
      q.size_ = (Pool.freshExample.occupy 0 0 0).size_ ∧
      q.capacity_ = (Pool.freshExample.occupy 0 0 0).capacity_ ∧
      q.length_ = (Pool.freshExample.occupy 0 0 0).length_ ∧
      q.usedMem = (Pool.freshExample.occupy 0 0 0).usedMem ∧
      q.dataMem = (Pool.freshExample.occupy 0 0 0).dataMem ∧
      st1.offset_ = ((Pool.freshExample.occupy 0 0 0).save
        { content := [7, 7, 7], offset_ := 3 }).2.offset_ :=
  pool_save_load_round_trip Allocator.bump 8192 (Pool.freshExample.occupy 0 0 0)
    { content := [7, 7, 7], offset_ := 3 }
    (Pool.Reachable.allocate Pool.freshExample _ (some 0)
      (Pool.Reachable.create Allocator.bump 4096 4648 8 64 Pool.freshExample
        (by decide) (by decide) rfl)
      rfl)
    (by decide) (by decide) (by decide)

/-! ## `ArenaAllocator::shrink` and `Allocator::round` -/

/-- C11. Arena shrink is in-place or a no-op. For every arena and
`shrink(addr, old_len, new_len)` with `new_len ≤ old_len`: if
`addr + round(old_len) == cursor` (the code's 64-bit test) the cursor becomes
`addr + round(new_len)` (in 64-bit arithmetic; exactly that sum when the
block does not wrap, `old_len ≤ 2^64 - 16` and `addr + round(old_len) < 2^64`),
and the next successful `alloc` starts there; otherwise the arena state is
unchanged. In both cases the region bounds are unchanged; `shrink` returns no
value, so the block keeps its address and the call cannot fail. -/
theorem arena_shrink_in_place_or_noop (a : ArenaAllocator) (m : Mem)
    (addr old_len new_len n : Nat) (zero : Bool) (hle : new_len ≤ old_len) :
    ((addr + Allocator.round old_len) % U64 = a.cursor_ →
      (a.shrink addr old_len new_len).cursor_ = (addr + Allocator.round new_len) % U64 ∧
      (old_len + 16 ≤ U64 → addr + Allocator.round old_len < U64 →
        (a.shrink addr old_len new_len).cursor_ = addr + Allocator.round new_len) ∧
      (((a.shrink addr old_len new_len).alloc m n zero).1 ≠ 0 →
        ((a.shrink addr old_len new_len).alloc m n zero).1
          = (addr + Allocator.round new_len) % U64)) ∧
    ((addr + Allocator.round old_len) % U64 ≠ a.cursor_ →
      a.shrink addr old_len new_len = a) ∧
    (a.shrink addr old_len new_len).region_ = a.region_ := by
  have hro := Allocator.round_lt old_len
  have hrn := Allocator.round_lt new_len
  refine ⟨?_, ?_, ?_⟩
  · intro h
    have hc : (a.shrink addr old_len new_len).cursor_
        = (addr + Allocator.round new_len) % U64 := by
      unfold ArenaAllocator.shrink
      simp only [h, if_true]
      rw [← h]
      unfold U64 at *
      omega
    refine ⟨hc, ?_, ?_⟩
    · intro h16 hno
      have hmono := Allocator.round_mono new_len old_len hle h16
      rw [hc]
      exact Nat.mod_eq_of_lt (by omega)
    · intro hne
      rcases ArenaAllocator.alloc_cases (a.shrink addr old_len new_len) m n zero
        with hf | ⟨h1, _, _⟩
      · rw [hf] at hne; exact absurd rfl hne
      · rw [h1, hc]
  · intro h
    unfold ArenaAllocator.shrink
    simp only [h, if_false]
  · unfold ArenaAllocator.shrink
    by_cases h : (addr + Allocator.round old_len) % U64 = a.cursor_
    · simp only [h, if_true]
    · simp only [h, if_false]

theorem arena_shrink_in_place_or_noop_witness :
    (ArenaAllocator.shrink { region_ := { beg := 16, end_ := 144 }, cursor_ := 80 }
        32 48 20).cursor_ = 32 + Allocator.round 20 :=
  (arena_shrink_in_place_or_noop { region_ := { beg := 16, end_ := 144 }, cursor_ := 80 }
    Mem.zero 32 48 20 8 false (by decide)).1 (by decide) |>.2.1
    (by decide) (by decide)

/-- C12. Round accounting: for every `len ≤ 2^64 - 16`, `Allocator::round(len)`
is the least multiple of 16 that is `≥ len`, that is `ceil(len/16) * 16`;
`round(0) = 0`, `round(1) = 16`, `round(16) = 16`, `round(17) = 32`, and
`round(round(len)) = round(len)`. -/
theorem round_accounting (len : Nat) (h : len + 16 ≤ U64) :
    16 ∣ Allocator.round len ∧ len ≤ Allocator.round len ∧
    (∀ k, 16 ∣ k → len ≤ k → Allocator.round len ≤ k) ∧
    Allocator.round len = ((len + 15) / 16) * 16 ∧
    (Allocator.round len : ℚ) = (⌈(len : ℚ) / 16⌉₊ : ℚ) * 16 ∧
    Allocator.round 0 = 0 ∧ Allocator.round 1 = 16 ∧ Allocator.round 16 = 16 ∧
    Allocator.round 17 = 32 ∧
    Allocator.round (Allocator.round len) = Allocator.round len := by
  have hr := Allocator.round_of_le len h
  have hceil : ⌈(len : ℚ) / 16⌉₊ = (len + 15) / 16 := by
    apply Nat.le_antisymm
    · apply Nat.ceil_le.mpr
      rw [div_le_iff₀ (by norm_num)]
      have h1 : len ≤ (len + 15) / 16 * 16 := by omega
      exact_mod_cast h1
    · have h2 : (len : ℚ) / 16 ≤ (⌈(len : ℚ) / 16⌉₊ : ℚ) := Nat.le_ceil _
      rw [div_le_iff₀ (by norm_num)] at h2
      have h3 : len ≤ ⌈(len : ℚ) / 16⌉₊ * 16 := by exact_mod_cast h2
      omega
  refine ⟨?_, ?_, ?_, hr, ?_, by decide, by decide, by decide, by decide, ?_⟩
  · rw [hr]; exact Nat.dvd_mul_left 16 _
  · rw [hr]; omega
  · intro k hk hle
    obtain ⟨c, rfl⟩ := hk
    rw [hr]; omega
  · rw [hr, hceil]; push_cast; ring
  · unfold Allocator.round U64 at *
    omega

theorem round_accounting_witness :
    Allocator.round 17 = ((17 + 15) / 16) * 16 :=
  (round_accounting 17 (by decide)).2.2.2.1

/-! ## `TemporaryAllocator`: chunk sizing -/

theorem TemporaryAllocator.MIN_BLOCK_eq : TemporaryAllocator.MIN_BLOCK = 2097152 := by decide

theorem Allocator.round_round (len : Nat) :
    Allocator.round (Allocator.round len) = Allocator.round len := by
  unfold Allocator.round U64
  omega

theorem TemporaryAllocator.blockSize_spec (len : Nat) (hlen : len ≤ 2 ^ 63) :
    ∀ (n i fuel : Nat), i + n = 42 → n < fuel → (∀ j, j < i → 2097152 * 2 ^ j < len) →
      ∃ k, k ≤ 42 ∧
        TemporaryAllocator.blockSize fuel len (2097152 * 2 ^ i) = some (2097152 * 2 ^ k) ∧
        len ≤ 2097152 * 2 ^ k ∧ ∀ j, j < k → 2097152 * 2 ^ j < len := by
  intro n
  induction n with
  | zero =>
    intro i fuel hi hf hlow
    have hi42 : i = 42 := by omega
    subst hi42
    obtain ⟨f, rfl⟩ : ∃ f, fuel = f + 1 := ⟨fuel - 1, by omega⟩
    have hle : len ≤ 2097152 * 2 ^ 42 := by norm_num at hlen ⊢; omega
    refine ⟨42, le_refl _, ?_, hle, hlow⟩
    rw [TemporaryAllocator.blockSize, if_neg (by omega)]
  | succ n ih =>
    intro i fuel hi hf hlow
    obtain ⟨f, rfl⟩ : ∃ f, fuel = f + 1 := ⟨fuel - 1, by omega⟩
    by_cases hlt : 2097152 * 2 ^ i < len
    · have hp : 2 ^ i ≤ 2 ^ 41 := Nat.pow_le_pow_right (by norm_num) (by omega)
      have hstep : (2097152 * 2 ^ i * 2) % U64 = 2097152 * 2 ^ (i + 1) := by
        rw [pow_succ, ← mul_assoc]
        apply Nat.mod_eq_of_lt
        norm_num at hp
        unfold U64
        omega
      obtain ⟨k, hk, hbs, hle, hlow2⟩ := ih (i + 1) f (by omega) (by omega) (fun j hj => by
        rcases Nat.lt_succ_iff_lt_or_eq.mp hj with h | h
        · exact hlow j h
        · rw [h]; exact hlt)
      refine ⟨k, hk, ?_, hle, hlow2⟩
      rw [TemporaryAllocator.blockSize, if_pos hlt, hstep]
      exact hbs
    · refine ⟨i, by omega, ?_, by omega, hlow⟩
      rw [TemporaryAllocator.blockSize, if_neg hlt]

theorem TemporaryAllocator.blockSize_first (len fuel : Nat) (hlen : len ≤ 2 ^ 63)
    (hfuel : 43 ≤ fuel) :
    ∃ k, k ≤ 42 ∧
      TemporaryAllocator.blockSize fuel len TemporaryAllocator.MIN_BLOCK
        = some (2097152 * 2 ^ k) ∧
      len ≤ 2097152 * 2 ^ k ∧ ∀ j, j < k → 2097152 * 2 ^ j < len := by
  obtain ⟨k, hk, hbs, hle, hlow⟩ :=
    TemporaryAllocator.blockSize_spec len hlen 42 0 fuel (by omega) (by omega)
      (fun j hj => absurd hj (Nat.not_lt_zero j))
  refine ⟨k, hk, ?_, hle, hlow⟩
  rw [TemporaryAllocator.MIN_BLOCK_eq]
  simpa using hbs

theorem TemporaryAllocator.block_le (k : Nat) (hk : k ≤ 42) : 2097152 * 2 ^ k ≤ 2 ^ 63 := by
  have hp : 2 ^ k ≤ 2 ^ 42 := Nat.pow_le_pow_right (by norm_num) hk
  norm_num at hp ⊢
  omega

theorem TemporaryAllocator.add_eq {σ : Type} (sizeofBlock : Nat) (A : Allocator σ) (fuel : Nat)
    (t : TemporaryAllocator) (s : σ) (len B : Nat)
    (hB : TemporaryAllocator.blockSize fuel len TemporaryAllocator.MIN_BLOCK = some B)
    (hsum : sizeofBlock + B < U64) :
    TemporaryAllocator.add sizeofBlock A fuel t s len =
      if (A.alloc s (sizeofBlock + B) false).1 = 0 then
        some (false, t, (A.alloc s (sizeofBlock + B) false).2)
      else
        some (true,
          t.link { addr := (A.alloc s (sizeofBlock + B) false).1,
                   arena_ := ArenaAllocator.new
                     (((A.alloc s (sizeofBlock + B) false).1 + sizeofBlock) % U64) B },
          (A.alloc s (sizeofBlock + B) false).2) := by
  unfold TemporaryAllocator.add
  rw [hB]
  simp only [Nat.mod_eq_of_lt hsum]

theorem TemporaryAllocator.link_eq (t : TemporaryAllocator) (node : Block) :
    t.link node =
      { chain := t.chain.take (t.tail + 1) ++ [node],
        tail := (t.chain.take (t.tail + 1)).length,
        lost := t.lost ++ t.chain.drop (t.tail + 1) } := by
  unfold TemporaryAllocator.link
  by_cases h : t.chain = []
  · simp [h]
  · simp [h]

theorem TemporaryAllocator.link_tail (t : TemporaryAllocator) (node : Block) :
    (t.link node).chain[(t.link node).tail]? = some node := by
  rw [TemporaryAllocator.link_eq]
  simp

theorem TemporaryAllocator.allocTail_eq (t : TemporaryAllocator) (m : Mem) (n : Nat)
    (zero : Bool) (b : Block) (h : t.chain[t.tail]? = some b) :
    t.allocTail m n zero =
      some ((b.arena_.alloc m n zero).1,
            { t with
              chain := t.chain.set t.tail { b with arena_ := (b.arena_.alloc m n zero).2.1 } },
            (b.arena_.alloc m n zero).2.2) := by
  unfold TemporaryAllocator.allocTail
  rw [h]

theorem ArenaAllocator.alloc_new (base B n : Nat) (m : Mem) (zero : Bool)
    (hB : base + B < U64) (hn : Allocator.round n ≤ B) :
    (ArenaAllocator.new base B).alloc m n zero =
      (base,
       { region_ := { beg := base, end_ := base + B }, cursor_ := base + Allocator.round n },
       if zero then Allocator.memzero m base n else m) := by
  unfold ArenaAllocator.alloc ArenaAllocator.new
  simp only [Nat.mod_eq_of_lt hB]
  rw [Nat.mod_eq_of_lt (by omega), if_neg (by omega)]
  cases zero <;> rfl

/-- C13. Temporary chunk sizing. For every request `len` with
`round(len) ≤ 2^63` the first `alloc(len, zero)` on an empty
`TemporaryAllocator` returns (64 units of fuel suffice for the sizing loop
and the nested call). With `k` the least exponent such that
`2 MiB * 2^k ≥ round(len)`, the parent allocator is asked once, for
`sizeof(Block) + 2 MiB * 2^k` bytes. If it refuses, the call returns 0 and
the allocator stays empty. If it grants a block inside the address space, the
call returns the first byte after the header and the chain consists of
exactly one block, whose arena has length `2 MiB * 2^k`. A request of at most
2 MiB gives `k = 0` (a 2 MiB block) and a request of 5 MiB gives `k = 2` (an
8 MiB block). -/
theorem temporary_chunk_sizing {σ : Type} (sizeofBlock : Nat) (A : Allocator σ) (s : σ)
    (m : Mem) (len fuel : Nat) (zero : Bool)
    (hlen : Allocator.round len ≤ 2 ^ 63) (hsz : sizeofBlock < 2 ^ 63) (hfuel : 64 ≤ fuel) :
    ∃ k,
      Allocator.round len ≤ 2097152 * 2 ^ k ∧
      (∀ j, j < k → 2097152 * 2 ^ j < Allocator.round len) ∧
      (len ≤ 2 * 2 ^ 20 → k = 0) ∧ (len = 5 * 2 ^ 20 → k = 2) ∧
      ((A.alloc s (sizeofBlock + 2097152 * 2 ^ k) false).1 = 0 →
        TemporaryAllocator.alloc sizeofBlock A fuel TemporaryAllocator.empty s m len zero
          = some (0, TemporaryAllocator.empty,
                  (A.alloc s (sizeofBlock + 2097152 * 2 ^ k) false).2, m)) ∧
      ((A.alloc s (sizeofBlock + 2097152 * 2 ^ k) false).1 ≠ 0 →
        (A.alloc s (sizeofBlock + 2097152 * 2 ^ k) false).1
          + (sizeofBlock + 2097152 * 2 ^ k) < U64 →
        ∃ t, TemporaryAllocator.alloc sizeofBlock A fuel TemporaryAllocator.empty s m len zero
            = some ((A.alloc s (sizeofBlock + 2097152 * 2 ^ k) false).1 + sizeofBlock, t,
                    (A.alloc s (sizeofBlock + 2097152 * 2 ^ k) false).2,
                    if zero then
                      Allocator.memzero m
                        ((A.alloc s (sizeofBlock + 2097152 * 2 ^ k) false).1 + sizeofBlock)
                        (Allocator.round len)
                    else m) ∧
          t.lost = [] ∧ t.tail = 0 ∧
          ∃ b, t.chain = [b] ∧
            b.addr = (A.alloc s (sizeofBlock + 2097152 * 2 ^ k) false).1 ∧
            b.arena_.region_.beg = b.addr + sizeofBlock ∧
            b.arena_.length = 2097152 * 2 ^ k ∧
            b.arena_.cursor_ = b.addr + sizeofBlock + Allocator.round len) := by
  obtain ⟨k, hk, hbs, hle, hlow⟩ :=
    TemporaryAllocator.blockSize_first (Allocator.round len) fuel hlen (by omega)
  have hB := TemporaryAllocator.block_le k hk
  have hsum : sizeofBlock + 2097152 * 2 ^ k < U64 := by unfold U64; omega
  obtain ⟨f, rfl⟩ : ∃ f, fuel = f + 1 := ⟨fuel - 1, by omega⟩
  have hadd := TemporaryAllocator.add_eq sizeofBlock A (f + 1) TemporaryAllocator.empty s
    (Allocator.round len) (2097152 * 2 ^ k) hbs hsum
  refine ⟨k, hle, hlow, ?_, ?_, ?_, ?_⟩
  · intro h2
    have hr : Allocator.round len ≤ 2097152 := by
      have hr1 := Allocator.round_mono len (2 * 2 ^ 20) h2 (by unfold U64; omega)
      have hr2 : Allocator.round (2 * 2 ^ 20) = 2097152 := by decide
      omega
    by_contra hk0
    have := hlow 0 (by omega)
    omega
  · intro h5
    subst h5
    have hr : Allocator.round (5 * 2 ^ 20) = 5242880 := by decide
    rw [hr] at hle hlow
    have hk2 : k ≤ 2 := by
      by_contra hgt
      have := hlow 2 (by omega)
      omega
    interval_cases k <;> first | rfl | omega
  · intro h0
    unfold TemporaryAllocator.alloc
    simp only [TemporaryAllocator.empty] at hadd ⊢
    simp only [if_true]
    rw [hadd, if_pos h0]
  · intro h0 hfit
    have hbase : ((A.alloc s (sizeofBlock + 2097152 * 2 ^ k) false).1 + sizeofBlock) % U64
        = (A.alloc s (sizeofBlock + 2097152 * 2 ^ k) false).1 + sizeofBlock :=
      Nat.mod_eq_of_lt (by omega)
    unfold TemporaryAllocator.alloc
    simp only [TemporaryAllocator.empty] at hadd ⊢
    simp only [if_true]
    rw [hadd, if_neg h0, hbase]
    simp only
    rw [TemporaryAllocator.allocTail_eq _ m _ zero _ (TemporaryAllocator.link_tail _ _),
      ArenaAllocator.alloc_new _ _ _ m zero (by omega)
        (by rw [Allocator.round_round]; exact hle)]
    simp only [Allocator.round_round]
    rw [if_pos (by omega)]
    refine ⟨_, rfl, rfl, rfl, _, rfl, rfl, rfl, ?_, ?_⟩
    · unfold ArenaAllocator.length
      simp only
      unfold U64 at *
      omega
    · simp

theorem temporary_chunk_sizing_witness :
    ∃ k,
      Allocator.round (5 * 2 ^ 20) ≤ 2097152 * 2 ^ k ∧
      (∀ j, j < k → 2097152 * 2 ^ j < Allocator.round (5 * 2 ^ 20)) ∧
      (5 * 2 ^ 20 ≤ 2 * 2 ^ 20 → k = 0) ∧ (5 * 2 ^ 20 = 5 * 2 ^ 20 → k = 2) ∧
      ((Allocator.recording.alloc ⟨4096, [], []⟩ (48 + 2097152 * 2 ^ k) false).1 = 0 →
        TemporaryAllocator.alloc 48 Allocator.recording 64 TemporaryAllocator.empty
            ⟨4096, [], []⟩ Mem.zero (5 * 2 ^ 20) false
          = some (0, TemporaryAllocator.empty,
                  (Allocator.recording.alloc ⟨4096, [], []⟩ (48 + 2097152 * 2 ^ k) false).2,
                  Mem.zero)) ∧
      ((Allocator.recording.alloc ⟨4096, [], []⟩ (48 + 2097152 * 2 ^ k) false).1 ≠ 0 →
        (Allocator.recording.alloc ⟨4096, [], []⟩ (48 + 2097152 * 2 ^ k) false).1
          + (48 + 2097152 * 2 ^ k) < U64 →
        ∃ t, TemporaryAllocator.alloc 48 Allocator.recording 64 TemporaryAllocator.empty
              ⟨4096, [], []⟩ Mem.zero (5 * 2 ^ 20) false
            = some ((Allocator.recording.alloc ⟨4096, [], []⟩
                      (48 + 2097152 * 2 ^ k) false).1 + 48, t,
                    (Allocator.recording.alloc ⟨4096, [], []⟩ (48 + 2097152 * 2 ^ k) false).2,
                    if false then
                      Allocator.memzero Mem.zero
                        ((Allocator.recording.alloc ⟨4096, [], []⟩
                          (48 + 2097152 * 2 ^ k) false).1 + 48)
                        (Allocator.round (5 * 2 ^ 20))
                    else Mem.zero) ∧
          t.lost = [] ∧ t.tail = 0 ∧
          ∃ b, t.chain = [b] ∧
            b.addr = (Allocator.recording.alloc ⟨4096, [], []⟩
                        (48 + 2097152 * 2 ^ k) false).1 ∧
            b.arena_.region_.beg = b.addr + 48 ∧
            b.arena_.length = 2097152 * 2 ^ k ∧
            b.arena_.cursor_ = b.addr + 48 + Allocator.round (5 * 2 ^ 20)) :=
  temporary_chunk_sizing 48 Allocator.recording ⟨4096, [], []⟩ Mem.zero (5 * 2 ^ 20) 64 false
    (by decide) (by decide) (by decide)

/-! ## `TemporaryAllocator::alloc` -/

theorem TemporaryAllocator.alloc_room {σ : Type} (sizeofBlock : Nat) (A : Allocator σ)
    (f : Nat) (t : TemporaryAllocator) (s : σ) (m : Mem) (len : Nat) (zero : Bool) (b : Block)
    (hb : t.chain[t.tail]? = some b)
    (hok : (b.arena_.alloc m (Allocator.round len) zero).1 ≠ 0) :
    TemporaryAllocator.alloc sizeofBlock A (f + 1) t s m len zero =
      some ((b.arena_.alloc m (Allocator.round len) zero).1,
            { t with
              chain := t.chain.set t.tail
                { b with arena_ := (b.arena_.alloc m (Allocator.round len) zero).2.1 } },
            s, (b.arena_.alloc m (Allocator.round len) zero).2.2) := by
  have hne : t.chain ≠ [] := by
    intro h
    rw [h] at hb
    simp at hb
  rw [TemporaryAllocator.alloc, if_neg hne]
  simp only
  rw [TemporaryAllocator.allocTail_eq t m _ zero b hb]
  simp only
  rw [if_pos hok]

theorem TemporaryAllocator.alloc_link {σ : Type} (sizeofBlock : Nat) (A : Allocator σ)
    (f : Nat) (t : TemporaryAllocator) (s : σ) (m : Mem) (len B base addr : Nat) (zero : Bool)
    (hbase : base ≠ 0) (hB : base + B < U64) (hn : Allocator.round len ≤ B) :
    TemporaryAllocator.alloc sizeofBlock A (f + 1)
        (t.link { addr := addr, arena_ := ArenaAllocator.new base B }) s m
        (Allocator.round len) zero =
      some (base,
        { t.link { addr := addr, arena_ := ArenaAllocator.new base B } with
          chain := (t.link { addr := addr, arena_ := ArenaAllocator.new base B }).chain.set
            (t.link { addr := addr, arena_ := ArenaAllocator.new base B }).tail
            { addr := addr,
              arena_ := { region_ := { beg := base, end_ := base + B },
                          cursor_ := base + Allocator.round len } } },
        s, if zero then Allocator.memzero m base (Allocator.round len) else m) := by
  have hal := ArenaAllocator.alloc_new base B (Allocator.round len) m zero hB
    (by rw [Allocator.round_round]; exact hn)
  rw [Allocator.round_round] at hal
  rw [TemporaryAllocator.alloc_room sizeofBlock A f _ s m _ zero _
    (TemporaryAllocator.link_tail _ _)]
  · simp only [Allocator.round_round, hal]
  · simp only [Allocator.round_round, hal]
    exact hbase

theorem List.set_getElem?_self {α : Type} (l : List α) (i : Nat) (a : α)
    (h : l[i]? = some a) : l.set i a = l := by
  apply List.ext_getElem?
  intro j
  by_cases hj : i = j
  · subst hj
    rw [List.getElem?_set_self (by
      by_contra hlen
      rw [List.getElem?_eq_none (by omega)] at h
      exact Option.noConfusion h), h]
  · rw [List.getElem?_set_ne hj]

theorem TemporaryAllocator.alloc_full {σ : Type} (sizeofBlock : Nat) (A : Allocator σ)
    (f : Nat) (t : TemporaryAllocator) (s : σ) (m : Mem) (len B : Nat) (zero : Bool)
    (hfull : t.chain = [] ∨
      ∃ b, t.chain[t.tail]? = some b ∧
        b.arena_.alloc m (Allocator.round len) zero = (0, b.arena_, m))
    (hbs : TemporaryAllocator.blockSize (f + 1) (Allocator.round len)
      TemporaryAllocator.MIN_BLOCK = some B)
    (hsum : sizeofBlock + B < U64) :
    TemporaryAllocator.alloc sizeofBlock A (f + 1) t s m len zero =
      if (A.alloc s (sizeofBlock + B) false).1 = 0 then
        some (0, t, (A.alloc s (sizeofBlock + B) false).2, m)
      else if t.chain = [] then
        match (t.link { addr := (A.alloc s (sizeofBlock + B) false).1,
                        arena_ := ArenaAllocator.new
                          (((A.alloc s (sizeofBlock + B) false).1 + sizeofBlock) % U64) B
                      }).allocTail m (Allocator.round len) zero with
        | none => none
        | some (addr, t2, m2) =>
          if addr ≠ 0 then some (addr, t2, (A.alloc s (sizeofBlock + B) false).2, m2)
          else
            match TemporaryAllocator.add sizeofBlock A (f + 1) t2
                (A.alloc s (sizeofBlock + B) false).2 (Allocator.round len) with
            | none => none
            | some (false, t3, s3) => some (0, t3, s3, m2)
            | some (true, t3, s3) =>
              TemporaryAllocator.alloc sizeofBlock A f t3 s3 m2 (Allocator.round len) zero
      else
        TemporaryAllocator.alloc sizeofBlock A f
          (t.link { addr := (A.alloc s (sizeofBlock + B) false).1,
                    arena_ := ArenaAllocator.new
                      (((A.alloc s (sizeofBlock + B) false).1 + sizeofBlock) % U64) B })
          (A.alloc s (sizeofBlock + B) false).2 m (Allocator.round len) zero := by
  rw [TemporaryAllocator.alloc]
  by_cases hne : t.chain = []
  · rw [if_pos hne, TemporaryAllocator.add_eq sizeofBlock A (f + 1) t s _ B hbs hsum]
    by_cases h0 : (A.alloc s (sizeofBlock + B) false).1 = 0
    · rw [if_pos h0, if_pos h0]
    · rw [if_neg h0, if_neg h0, if_pos hne]
  · rw [if_neg hne]
    rcases hfull with h | ⟨b, hb, hal⟩
    · exact absurd h hne
    · simp only
      rw [TemporaryAllocator.allocTail_eq t m _ zero b hb, hal]
      simp only [ne_eq, not_true_eq_false, if_false]
      have hset : t.chain.set t.tail { addr := b.addr, arena_ := b.arena_ } = t.chain :=
        List.set_getElem?_self _ _ _ hb
      rw [hset, TemporaryAllocator.add_eq sizeofBlock A (f + 1) t s _ B hbs hsum]
      by_cases h0 : (A.alloc s (sizeofBlock + B) false).1 = 0
      · rw [if_pos h0, if_pos h0]
      · rw [if_neg h0, if_neg h0, if_neg hne]

theorem TemporaryAllocator.alloc_grant {σ : Type} (sizeofBlock : Nat) (A : Allocator σ)
    (f : Nat) (t : TemporaryAllocator) (s : σ) (m : Mem) (len B : Nat) (zero : Bool)
    (hfull : t.chain = [] ∨
      ∃ b, t.chain[t.tail]? = some b ∧
        b.arena_.alloc m (Allocator.round len) zero = (0, b.arena_, m))
    (hbs : TemporaryAllocator.blockSize (f + 2) (Allocator.round len)
      TemporaryAllocator.MIN_BLOCK = some B)
    (hn : Allocator.round len ≤ B)
    (h0 : (A.alloc s (sizeofBlock + B) false).1 ≠ 0)
    (hfit : (A.alloc s (sizeofBlock + B) false).1 + (sizeofBlock + B) < U64) :
    TemporaryAllocator.alloc sizeofBlock A (f + 2) t s m len zero =
      some ((A.alloc s (sizeofBlock + B) false).1 + sizeofBlock,
        { chain := t.chain.take (t.tail + 1) ++
            [{ addr := (A.alloc s (sizeofBlock + B) false).1,
               arena_ :=
                 { region_ :=
                     { beg := (A.alloc s (sizeofBlock + B) false).1 + sizeofBlock,
                       end_ := (A.alloc s (sizeofBlock + B) false).1 + sizeofBlock + B },
                   cursor_ := (A.alloc s (sizeofBlock + B) false).1 + sizeofBlock
                     + Allocator.round len } }],
          tail := (t.chain.take (t.tail + 1)).length,
          lost := t.lost ++ t.chain.drop (t.tail + 1) },
        (A.alloc s (sizeofBlock + B) false).2,
        if zero then
          Allocator.memzero m ((A.alloc s (sizeofBlock + B) false).1 + sizeofBlock)
            (Allocator.round len)
        else m) := by
  have hsum : sizeofBlock + B < U64 := by omega
  have hbase : ((A.alloc s (sizeofBlock + B) false).1 + sizeofBlock) % U64
      = (A.alloc s (sizeofBlock + B) false).1 + sizeofBlock := Nat.mod_eq_of_lt (by omega)
  have hset : ∀ (node node1 : Block),
      ({ t.link node with chain := (t.link node).chain.set (t.link node).tail node1 }
        : TemporaryAllocator) =
      { chain := t.chain.take (t.tail + 1) ++ [node1],
        tail := (t.chain.take (t.tail + 1)).length,
        lost := t.lost ++ t.chain.drop (t.tail + 1) } := by
    intro node node1
    rw [TemporaryAllocator.link_eq]
    simp
  rw [TemporaryAllocator.alloc_full sizeofBlock A (f + 1) t s m len B zero hfull hbs hsum,
    if_neg h0, hbase]
  by_cases hne : t.chain = []
  · rw [if_pos hne]
    rw [TemporaryAllocator.allocTail_eq _ m _ zero _ (TemporaryAllocator.link_tail _ _),
      ArenaAllocator.alloc_new _ _ _ m zero (by omega)
        (by rw [Allocator.round_round]; exact hn)]
    simp only [Allocator.round_round]
    rw [if_pos (by omega), hset]
  · rw [if_neg hne,
      TemporaryAllocator.alloc_link sizeofBlock A f t _ m len B _ _ zero (by omega) (by omega) hn,
      hset]

theorem TemporaryAllocator.alloc_spec {σ : Type} (sizeofBlock : Nat) (A : Allocator σ)
    (t : TemporaryAllocator) (s : σ) (m : Mem) (len fuel : Nat) (zero : Bool)
    (hwf : t.WF sizeofBlock) (hlen : Allocator.round len ≤ 2 ^ 63)
    (hsz : sizeofBlock < 2 ^ 63) (hfuel : 64 ≤ fuel)
    (hnowrap : ∀ b, t.chain[t.tail]? = some b →
      b.arena_.cursor_ + Allocator.round len < U64)
    (hparent : ∀ n, (A.alloc s n false).1 ≠ 0 → (A.alloc s n false).1 + n < U64) :
    ∃ k addr t1 s1 m1,
      TemporaryAllocator.alloc sizeofBlock A fuel t s m len zero = some (addr, t1, s1, m1) ∧
      TemporaryAllocator.blockSize fuel (Allocator.round len) TemporaryAllocator.MIN_BLOCK
        = some (2097152 * 2 ^ k) ∧
      t1.WF sizeofBlock ∧
      t1.chain.length + t1.lost.length ≤ t.chain.length + t.lost.length + 1 ∧
      ((∃ b, t.chain[t.tail]? = some b ∧
          b.arena_.cursor_ + Allocator.round len ≤ b.arena_.region_.end_) →
        addr ≠ 0 ∧ s1 = s ∧ t1.chain.length = t.chain.length ∧ t1.lost = t.lost ∧
        t1.tail = t.tail) ∧
      (¬ (∃ b, t.chain[t.tail]? = some b ∧
          b.arena_.cursor_ + Allocator.round len ≤ b.arena_.region_.end_) →
        s1 = (A.alloc s (sizeofBlock + 2097152 * 2 ^ k) false).2 ∧
        ((A.alloc s (sizeofBlock + 2097152 * 2 ^ k) false).1 ≠ 0 →
          addr ≠ 0 ∧
          t1.chain.length + t1.lost.length = t.chain.length + t.lost.length + 1)) ∧
      (addr = 0 →
        (A.alloc s (sizeofBlock + 2097152 * 2 ^ k) false).1 = 0 ∧ t1 = t ∧ m1 = m) ∧
      (addr ≠ 0 →
        ∃ b, t1.chain[t1.tail]? = some b ∧ b.arena_.region_.beg ≤ addr ∧
          addr + Allocator.round len = b.arena_.cursor_ ∧
          b.arena_.cursor_ ≤ b.arena_.region_.end_) ∧
      (∀ b ∈ t1.chain,
        (∃ b0 ∈ t.chain, b0.addr = b.addr ∧ b0.arena_.region_ = b.arena_.region_) ∨
        ((A.alloc s (sizeofBlock + 2097152 * 2 ^ k) false).1 ≠ 0 ∧
          b.addr = (A.alloc s (sizeofBlock + 2097152 * 2 ^ k) false).1 ∧
          b.arena_.region_ =
            { beg := b.addr + sizeofBlock,
              end_ := b.addr + sizeofBlock + 2097152 * 2 ^ k })) ∧
      (zero = false → m1 = m) ∧
      Allocator.round len ≤ 2097152 * 2 ^ k := by
  obtain ⟨k, hk, hbs, hle, hlow⟩ :=
    TemporaryAllocator.blockSize_first (Allocator.round len) fuel hlen (by omega)
  have hB := TemporaryAllocator.block_le k hk
  obtain ⟨f, rfl⟩ : ∃ f, fuel = f + 2 := ⟨fuel - 2, by omega⟩
  obtain ⟨hblocks, htail⟩ := hwf
  by_cases hroom : ∃ b, t.chain[t.tail]? = some b ∧
      b.arena_.cursor_ + Allocator.round len ≤ b.arena_.region_.end_
  · obtain ⟨b, hb, hfits⟩ := hroom
    obtain ⟨ha0, hbeg, hinv, hend⟩ := hblocks b (List.getElem?_mem hb)
    have hno := hnowrap b hb
    unfold ArenaAllocator.Inv at hinv
    have hal : b.arena_.alloc m (Allocator.round len) zero =
        (b.arena_.cursor_,
         { b.arena_ with cursor_ := b.arena_.cursor_ + Allocator.round len },
         if zero then Allocator.memzero m b.arena_.cursor_ (Allocator.round len) else m) := by
      unfold ArenaAllocator.alloc
      simp only [Allocator.round_round]
      rw [Nat.mod_eq_of_lt hno, if_neg (by omega)]
      cases zero <;> rfl
    have hc0 : b.arena_.cursor_ ≠ 0 := by omega
    have htl : t.tail < t.chain.length := by
      by_contra hge
      rw [List.getElem?_eq_none (by omega)] at hb
      exact Option.noConfusion hb
    have hres := TemporaryAllocator.alloc_room sizeofBlock A (f + 1) t s m len zero b hb
      (by rw [hal]; exact hc0)
    rw [hal] at hres
    refine ⟨k, _, _, _, _, hres, hbs, ⟨?_, ?_⟩, ?_, ?_, ?_, ?_, ?_, ?_, ?_, hle⟩
    · intro b1 hb1
      rcases List.mem_or_eq_of_mem_set hb1 with h | h
      · exact hblocks b1 h
      · subst h
        refine ⟨ha0, hbeg, ?_, hend⟩
        unfold ArenaAllocator.Inv
        simp only
        omega
    · intro _
      simp only [List.length_set]
      exact htl
    · simp only [List.length_set]
      omega
    · intro _
      refine ⟨hc0, rfl, ?_, rfl, rfl⟩
      simp only [List.length_set]
    · intro hn
      exact absurd ⟨b, hb, hfits⟩ hn
    · intro h0
      exact absurd h0 hc0
    · intro _
      refine ⟨_, List.getElem?_set_self htl, ?_, rfl, ?_⟩
      · exact hinv.1
      · exact hfits
    · intro b1 hb1
      left
      rcases List.mem_or_eq_of_mem_set hb1 with h | h
      · exact ⟨b1, h, rfl, rfl⟩
      · subst h
        exact ⟨b, List.getElem?_mem hb, rfl, rfl⟩
    · intro hz
      subst hz
      rfl
  · have hfull : t.chain = [] ∨
        ∃ b, t.chain[t.tail]? = some b ∧
          b.arena_.alloc m (Allocator.round len) zero = (0, b.arena_, m) := by
      by_cases hne : t.chain = []
      · exact Or.inl hne
      · right
        have htl := htail hne
        refine ⟨t.chain[t.tail], List.getElem?_eq_getElem htl, ?_⟩
        have hb : t.chain[t.tail]? = some t.chain[t.tail] := List.getElem?_eq_getElem htl
        have hno := hnowrap _ hb
        apply ArenaAllocator.alloc_fail
        · rw [Allocator.round_round]; exact hno
        · rw [Allocator.round_round]
          by_contra hle2
          exact hroom ⟨_, hb, by omega⟩
    have hsum : sizeofBlock + 2097152 * 2 ^ k < U64 := by unfold U64; omega
    by_cases h0 : (A.alloc s (sizeofBlock + 2097152 * 2 ^ k) false).1 = 0
    · have hres := TemporaryAllocator.alloc_full sizeofBlock A (f + 1) t s m len
        (2097152 * 2 ^ k) zero hfull hbs hsum
      rw [if_pos h0] at hres
      refine ⟨k, _, _, _, _, hres, hbs, ⟨hblocks, htail⟩, by omega, ?_, ?_, ?_, ?_, ?_, ?_, hle⟩
      · intro h; exact absurd h hroom
      · intro _
        exact ⟨rfl, fun h => absurd h0 h⟩
      · intro _
        exact ⟨h0, rfl, rfl⟩
      · intro h; exact absurd rfl h
      · intro b1 hb1
        exact Or.inl ⟨b1, hb1, rfl, rfl⟩
      · intro _
        rfl
    · have hfit := hparent _ h0
      have hres := TemporaryAllocator.alloc_grant sizeofBlock A f t s m len
        (2097152 * 2 ^ k) zero hfull hbs hle h0 hfit
      have hlen1 : (List.take (t.tail + 1) t.chain).length + (List.drop (t.tail + 1) t.chain).length
          = t.chain.length := by
        rw [← List.length_append, List.take_append_drop]
      refine ⟨k, _, _, _, _, hres, hbs, ⟨?_, ?_⟩, ?_, ?_, ?_, ?_, ?_, ?_, ?_, hle⟩
      · intro b1 hb1
        simp only at hb1
        rcases List.mem_append.mp hb1 with h | h
        · exact hblocks b1 (List.mem_of_mem_take h)
        · rw [List.mem_singleton] at h
          subst h
          refine ⟨h0, rfl, ?_, ?_⟩
          · unfold ArenaAllocator.Inv
            simp only
            omega
          · simp only
            omega
      · intro _
        simp only [List.length_append, List.length_singleton]
        omega
      · simp only [List.length_append, List.length_singleton]
        omega
      · intro h; exact absurd h hroom
      · intro _
        refine ⟨rfl, fun _ => ⟨by omega, ?_⟩⟩
        simp only [List.length_append, List.length_singleton]
        omega
      · intro hz
        omega
      · intro _
        exact ⟨_, List.getElem?_concat_length _ _, by simp only; omega, rfl,
          by simp only; omega⟩
      · intro b1 hb1
        simp only at hb1
        rcases List.mem_append.mp hb1 with h | h
        · exact Or.inl ⟨b1, List.mem_of_mem_take h, rfl, rfl⟩
        · rw [List.mem_singleton] at h
          subst h
          exact Or.inr ⟨h0, rfl, rfl⟩
      · intro hz
        subst hz
        rfl

/-- C14 (as stated) fails: on a well-formed `TemporaryAllocator` whose only
block lies in the upper half of the address space (arena
`[2^63 + 48, 2^63 + 48 + 2 MiB)`, empty), `alloc(2^63, false)` has
`round(len) = 2^63`; the sum `cursor + round(len)` wraps around `2^64` to 48,
the arena's bounds test passes, and the call returns the non-zero address
`2^63 + 48` from the 2 MiB tail block without asking the parent allocator:
the returned range of `2^63` bytes does not lie inside the tail block, and
the block's cursor is left at 48. -/
theorem temporary_alloc_retry_counterexample :
    TemporaryAllocator.WF 48 TemporaryAllocator.highExample ∧
    Allocator.round (2 ^ 63) ≤ 2 ^ 63 ∧
    (TemporaryAllocator.alloc 48 Allocator.recording 64 TemporaryAllocator.highExample
        ⟨4096, [], []⟩ Mem.zero (2 ^ 63) false).map (fun r => (r.1, r.2.1, r.2.2.1))
      = some (2 ^ 63 + 48,
          { chain := [{ addr := 2 ^ 63,
                        arena_ := { region_ := { beg := 2 ^ 63 + 48,
                                                 end_ := 2 ^ 63 + 48 + 2097152 },
                                    cursor_ := 48 } }],
            tail := 0, lost := [] },
          ⟨4096, [], []⟩) ∧
    ¬ (2 ^ 63 + 48 + Allocator.round (2 ^ 63) ≤ 2 ^ 63 + 48 + 2097152) := by
  refine ⟨by decide, by decide, by decide, by decide⟩

/-- C14 (amended). Temporary alloc retries once. For every well-formed
`TemporaryAllocator`, every request with `round(len) ≤ 2^63` whose sum
`cursor + round(len)` does not wrap around `2^64` in the tail block, and a
parent allocator that only grants blocks inside the address space,
`alloc(len, zero)` returns (64 units of fuel suffice) and:
the allocator stays well formed and holds at most one block more;
if the tail block has room the result is non-zero and the parent is not
called; otherwise the parent is asked exactly once, for `sizeof(Block)` plus
the chunk size, and when it grants the block the result is non-zero and the
allocator holds exactly one block more; the result is 0 only when the parent
refused, and then allocator and memory are unchanged; a non-zero result is a
range that lies inside the block that is the tail after the call and ends at
its cursor. -/
theorem temporary_alloc_retries_once {σ : Type} (sizeofBlock : Nat) (A : Allocator σ)
    (t : TemporaryAllocator) (s : σ) (m : Mem) (len fuel : Nat) (zero : Bool)
    (hwf : t.WF sizeofBlock) (hlen : Allocator.round len ≤ 2 ^ 63)
    (hsz : sizeofBlock < 2 ^ 63) (hfuel : 64 ≤ fuel)
    (hnowrap : ∀ b, t.chain[t.tail]? = some b →
      b.arena_.cursor_ + Allocator.round len < U64)
    (hparent : ∀ n, (A.alloc s n false).1 ≠ 0 → (A.alloc s n false).1 + n < U64) :
    ∃ k addr t1 s1 m1,
      TemporaryAllocator.alloc sizeofBlock A fuel t s m len zero = some (addr, t1, s1, m1) ∧
      TemporaryAllocator.blockSize fuel (Allocator.round len) TemporaryAllocator.MIN_BLOCK
        = some (2097152 * 2 ^ k) ∧
      t1.WF sizeofBlock ∧
      t1.chain.length + t1.lost.length ≤ t.chain.length + t.lost.length + 1 ∧
      ((∃ b, t.chain[t.tail]? = some b ∧
          b.arena_.cursor_ + Allocator.round len ≤ b.arena_.region_.end_) →
        addr ≠ 0 ∧ s1 = s ∧ t1.chain.length = t.chain.length ∧ t1.lost = t.lost ∧
        t1.tail = t.tail) ∧
      (¬ (∃ b, t.chain[t.tail]? = some b ∧
          b.arena_.cursor_ + Allocator.round len ≤ b.arena_.region_.end_) →
        s1 = (A.alloc s (sizeofBlock + 2097152 * 2 ^ k) false).2 ∧
        ((A.alloc s (sizeofBlock + 2097152 * 2 ^ k) false).1 ≠ 0 →
          addr ≠ 0 ∧
          t1.chain.length + t1.lost.length = t.chain.length + t.lost.length + 1)) ∧
      (addr = 0 →
        (A.alloc s (sizeofBlock + 2097152 * 2 ^ k) false).1 = 0 ∧ t1 = t ∧ m1 = m) ∧
      (addr ≠ 0 →
        ∃ b, t1.chain[t1.tail]? = some b ∧ b.arena_.region_.beg ≤ addr ∧
          addr + Allocator.round len = b.arena_.cursor_ ∧
          b.arena_.cursor_ ≤ b.arena_.region_.end_) := by
  obtain ⟨k, addr, t1, s1, m1, h1, h2, h3, h4, h5, h6, h7, h8, _⟩ :=
    TemporaryAllocator.alloc_spec sizeofBlock A t s m len fuel zero hwf hlen hsz hfuel
      hnowrap hparent
  exact ⟨k, addr, t1, s1, m1, h1, h2, h3, h4, h5, h6, h7, h8⟩

theorem temporary_alloc_retries_once_witness :
    ∃ k addr t1 s1 m1,
      TemporaryAllocator.alloc 48 Allocator.recording 64 TemporaryAllocator.highExample
        ⟨4096, [], []⟩ Mem.zero (3 * 2 ^ 20) false = some (addr, t1, s1, m1) ∧
      TemporaryAllocator.blockSize 64 (Allocator.round (3 * 2 ^ 20))
        TemporaryAllocator.MIN_BLOCK = some (2097152 * 2 ^ k) ∧
      t1.WF 48 ∧
      t1.chain.length + t1.lost.length
        ≤ TemporaryAllocator.highExample.chain.length
          + TemporaryAllocator.highExample.lost.length + 1 ∧
      ((∃ b, TemporaryAllocator.highExample.chain[TemporaryAllocator.highExample.tail]? = some b ∧
          b.arena_.cursor_ + Allocator.round (3 * 2 ^ 20) ≤ b.arena_.region_.end_) →
        addr ≠ 0 ∧ s1 = ⟨4096, [], []⟩ ∧
        t1.chain.length = TemporaryAllocator.highExample.chain.length ∧
        t1.lost = TemporaryAllocator.highExample.lost ∧
        t1.tail = TemporaryAllocator.highExample.tail) ∧
      (¬ (∃ b, TemporaryAllocator.highExample.chain[TemporaryAllocator.highExample.tail]?
            = some b ∧
          b.arena_.cursor_ + Allocator.round (3 * 2 ^ 20) ≤ b.arena_.region_.end_) →
        s1 = (Allocator.recording.alloc ⟨4096, [], []⟩ (48 + 2097152 * 2 ^ k) false).2 ∧
        ((Allocator.recording.alloc ⟨4096, [], []⟩ (48 + 2097152 * 2 ^ k) false).1 ≠ 0 →
          addr ≠ 0 ∧
          t1.chain.length + t1.lost.length
            = TemporaryAllocator.highExample.chain.length
              + TemporaryAllocator.highExample.lost.length + 1)) ∧
      (addr = 0 →
        (Allocator.recording.alloc ⟨4096, [], []⟩ (48 + 2097152 * 2 ^ k) false).1 = 0 ∧
        t1 = TemporaryAllocator.highExample ∧ m1 = Mem.zero) ∧
      (addr ≠ 0 →
        ∃ b, t1.chain[t1.tail]? = some b ∧ b.arena_.region_.beg ≤ addr ∧
          addr + Allocator.round (3 * 2 ^ 20) = b.arena_.cursor_ ∧
          b.arena_.cursor_ ≤ b.arena_.region_.end_) :=
  temporary_alloc_retries_once 48 Allocator.recording TemporaryAllocator.highExample
    ⟨4096, [], []⟩ Mem.zero (3 * 2 ^ 20) 64 false (by decide) (by decide) (by decide)
    (by decide)
    (by
      intro b hb
      simp only [TemporaryAllocator.highExample, List.getElem?_cons_zero,
        Option.some.injEq] at hb
      subst hb
      decide)
    (by
      intro n
      simp only [Allocator.recording]
      split_ifs with h
      · intro _
        simp only
        unfold U64 at *
        omega
      · intro h1
        exact absurd rfl h1)

/-! ## `TemporaryAllocator::reset` and the destructor -/

/-- C15. Replaying after `reset()` asks the parent allocator again. With
`sizeof(Block) = 48` and a parent that hands out fresh addresses from 4096,
`alloc(3 MiB)` twice on an empty `TemporaryAllocator` builds a chain of two
4 MiB blocks (two parent allocations). After `reset()` the same two requests
succeed, but the second one does not reuse the second block of the chain: the
tail block (the head, after `reset`) has no room, `add` asks the parent for a
third block and links it after the head, which cuts the old second block off
the chain. -/
theorem temporary_reset_replay_reacquires :
    (TemporaryAllocator.allocSeq 48 Allocator.recording 64 TemporaryAllocator.empty
        ⟨4096, [], []⟩ Mem.zero [3 * 2 ^ 20, 3 * 2 ^ 20]).map
      (fun r => (r.1, r.2.1.chain.map (fun b => b.addr), r.2.1.tail, r.2.1.lost, r.2.2.1.allocs))
      = some ([4144, 4198512], [4096, 4198464], 1, [],
              [(4198464, 4194352), (4096, 4194352)]) ∧
    (TemporaryAllocator.allocSeq 48 Allocator.recording 64 TemporaryAllocator.empty
        ⟨4096, [], []⟩ Mem.zero [3 * 2 ^ 20, 3 * 2 ^ 20]).bind
      (fun r =>
        (TemporaryAllocator.allocSeq 48 Allocator.recording 64 r.2.1.reset r.2.2.1 r.2.2.2
          [3 * 2 ^ 20, 3 * 2 ^ 20]).map
          (fun q => (q.1, q.2.1.chain.map (fun b => b.addr), q.2.1.tail,
                     q.2.1.lost.map (fun b => b.addr), q.2.2.1.allocs)))
      = some ([4144, 8392880], [4096, 8392832], 1, [4198464],
              [(8392832, 4194352), (4198464, 4194352), (4096, 4194352)]) := by
  refine ⟨rfl, rfl⟩

/-- C16. Destruction after `reset()` releases only the head block. With
`sizeof(Block) = 48` and a parent that hands out fresh addresses from 4096,
`alloc(3 MiB)` twice on an empty `TemporaryAllocator` acquires two blocks
from the parent (at 4096 and 4198464, 4194352 bytes each). Destroying the
allocator right away frees both; destroying it after `reset()` calls the
parent's `free` once, for the block at 4096: `reset` sets `tail_ = head_`
and the destructor walks from `tail_` through `prev_`. -/
theorem temporary_destroy_after_reset_leaks :
    (TemporaryAllocator.allocSeq 48 Allocator.recording 64 TemporaryAllocator.empty
        ⟨4096, [], []⟩ Mem.zero [3 * 2 ^ 20, 3 * 2 ^ 20]).map
      (fun r => (r.2.2.1.allocs,
                 (TemporaryAllocator.destroy 48 Allocator.recording r.2.1 r.2.2.1).frees,
                 (TemporaryAllocator.destroy 48 Allocator.recording r.2.1.reset r.2.2.1).frees))
      = some ([(4198464, 4194352), (4096, 4194352)],
              [(4096, 4194352), (4198464, 4194352)],
              [(4096, 4194352)]) := by
  decide

/-! ## `ScratchAllocator::alloc` -/

/-- C19. Slab growth with a per-cache capacity that is not a multiple of 64.
On an initially empty `Slab` of object size 8 and per-cache capacity `C = 1`
(`sizeof(Maybe<Pool>) = 64`, a parent allocator that grants every request),
`C + 1 = 2` calls of `allocate()` both succeed and both take their slot from
cache 0 (pool-local indices 0 and 1): the slab is left with one cache, whose
pool has capacity 64 and length 2, not with two caches. -/
theorem slab_growth_single_cache :
    (Slab.allocateN 64 Allocator.recording 8 2 (Slab.new 8 1) ⟨4096, [], []⟩).map
      (fun r => (r.1, r.2.1.caches_.items.length,
                 r.2.1.caches_.items.map
                   (fun c => c.map (fun p => (p.capacity_, p.length_)))))
      = some ([some { cache := 0, localIndex := 0, index := 0 },
               some { cache := 0, localIndex := 1, index := 1 }],
              1, [some (64, 2)]) := by
  decide

set_option maxRecDepth 100000 in
/-- C20. SlabRef decomposition does not invert composition when the
per-cache capacity is not a multiple of 64. On an initially empty `Slab` of
object size 8 and per-cache capacity `C = 1`, the second `allocate()` takes
pool-local slot 1 of cache 0 and returns index 1, which `operator[]` and
`deallocate` split into cache 1, slot 0; and among 65 allocations with no
deallocation the 65th, slot 0 of cache 1, returns index 1 as well, the index
the second allocation still holds. -/
theorem slab_ref_decomposition_fails :
    (Slab.allocateN 64 Allocator.recording 8 2 (Slab.new 8 1) ⟨4096, [], []⟩).map
      (fun r => (r.1, r.2.1.caches_.items.length, r.2.1.split 1))
      = some ([some { cache := 0, localIndex := 0, index := 0 },
               some { cache := 0, localIndex := 1, index := 1 }],
              1, (1, 0)) ∧
    (Slab.allocateN 64 Allocator.recording 8 65 (Slab.new 8 1) ⟨4096, [], []⟩).map
      (fun r => (r.1[1]?, r.1[64]?, r.1.length, r.2.1.caches_.items.length))
      = some (some (some { cache := 0, localIndex := 1, index := 1 }),
              some (some { cache := 1, localIndex := 0, index := 1 }),
              65, 2) := by
  refine ⟨by decide, ?_⟩
  rfl

/-! ## `TemporaryAllocator::grow` -/

theorem ArenaAllocator.grow_region (a : ArenaAllocator) (m : Mem) (addr old_len new_len : Nat)
    (zero : Bool) :
    (a.grow m addr old_len new_len zero).2.1.region_ = a.region_ := by
  unfold ArenaAllocator.grow
  by_cases h1 : (addr + Allocator.round old_len) % U64 = a.cursor_
  · simp only [h1, if_true]
    by_cases h2 : (a.cursor_ + (Allocator.round new_len + (U64 - Allocator.round old_len)) % U64)
        % U64 ≥ a.region_.end_
    · rw [if_pos h2]
    · rw [if_neg h2]
  · simp only [h1, if_false]
    rcases ArenaAllocator.alloc_cases a m new_len false with hf | ⟨e1, e2, _⟩
    · rw [hf, if_pos rfl]
    · by_cases h3 : (a.alloc m new_len false).1 = 0
      · rw [if_pos h3, e2]
      · rw [if_neg h3, e2]
        unfold ArenaAllocator.free
        simp only
        split_ifs <;> rfl

set_option maxRecDepth 100000 in
/-- C21. Draining a non-last cache of a slab whose per-cache capacity is not
a multiple of 64. On an initially empty `Slab` of object size 8 and per-cache
capacity 1, 65 calls of `allocate()` leave two caches: cache 0 holds the 64
objects with the indices 0, 1, 2, ..., 63 and the last cache holds one object,
whose index is 1 as well. Deallocating the objects of cache 0 in that order:
`deallocate(0)` clears slot 0 of cache 0; `deallocate(1)` is split into cache
1, slot 0, empties the last cache and pops it, so the sequence shrinks while
cache 0 still holds 63 objects (slot 1 among them); `deallocate(2)` is split
into cache 2 and accesses the array of caches outside its bounds. -/
theorem slab_drain_non_last_cache_fails :
    (Slab.allocateN 64 Allocator.recording 8 65 (Slab.new 8 1) ⟨4096, [], []⟩).map
      (fun r => (r.1[0]?, r.1[1]?, r.1[2]?, r.1[64]?, r.2.1.caches_.items.length))
      = some (some (some { cache := 0, localIndex := 0, index := 0 }),
              some (some { cache := 0, localIndex := 1, index := 1 }),
              some (some { cache := 0, localIndex := 2, index := 2 }),
              some (some { cache := 1, localIndex := 0, index := 1 }),
              2) ∧
    (Slab.allocateN 64 Allocator.recording 8 65 (Slab.new 8 1) ⟨4096, [], []⟩).bind
      (fun r => (Slab.deallocateSeq Allocator.recording r.2.1 r.2.2 [0, 1]).map
        (fun q =>
          (q.1.caches_.items.map
            (fun c => c.map (fun p => (p.length_, p.isUsed 0, p.isUsed 1, p.isUsed 2))),
           (Slab.deallocate Allocator.recording q.1 q.2 2).isSome)))
      = some ([some (63, false, true, true)], false) := by
  refine ⟨?_, ?_⟩
  · rfl
  · rfl

set_option maxRecDepth 100000 in
/-- C22. `Slab::deallocate` leaves an unpopulated slot at the tail. On an
initially empty `Slab` of object size 8 and per-cache capacity 64, 65 calls
of `allocate()` leave two caches: cache 0 holds the objects with indices
0..63, cache 1 the object with index 64. `deallocate` of the indices
0, 1, ..., 63 empties cache 0, which is not the last one: its slot is reset
and kept. `deallocate(64)` then empties the last cache, which is popped; the
compaction loop goes on to the new last slot, the reset one, and leaves at
it (`if (!cache->is_valid()) break;`) instead of popping it. The slab is
left with one slot, unpopulated, at the tail of the caches sequence. -/
theorem slab_leaves_trailing_slot :
    (Slab.allocateN 64 Allocator.recording 8 65 (Slab.new 8 64) ⟨4096, [], []⟩).map
      (fun r => (r.1[0]?, r.1[63]?, r.1[64]?, r.2.1.caches_.items.length))
      = some (some (some { cache := 0, localIndex := 0, index := 0 }),
              some (some { cache := 0, localIndex := 63, index := 63 }),
              some (some { cache := 1, localIndex := 0, index := 64 }),
              2) ∧
    (Slab.allocateN 64 Allocator.recording 8 65 (Slab.new 8 64) ⟨4096, [], []⟩).bind
      (fun r => (Slab.deallocateSeq Allocator.recording r.2.1 r.2.2 (List.range 64)).map
        (fun q => q.1.caches_.items.map (fun c => c.map (fun p => p.length_))))
      = some [none, some 1] ∧
    (Slab.allocateN 64 Allocator.recording 8 65 (Slab.new 8 64) ⟨4096, [], []⟩).bind
      (fun r => (Slab.deallocateSeq Allocator.recording r.2.1 r.2.2 (List.range 65)).map
        (fun q => (q.1.caches_.items, q.1.caches_.items.getLast?)))
      = some ([none], some none) := by
  refine ⟨?_, ?_, ?_⟩
  · rfl
  · rfl
  · rfl

/-! ## The slab invariant -/

theorem Pool.allocate_ready (p p1 : Pool) (l : Nat) (hr : p.Ready)
    (h : p.allocate = some (p1, some l)) : p1.Ready ∧ p1.length_ ≠ 0 := by
  obtain ⟨hg, hlast⟩ := hr
  have hg1 := Pool.allocate_good p p1 _ hg h
  obtain ⟨g1, g2, g3, g4, g5, g6, g7⟩ := hg
  have hn : (p.capacity_ / BITS) % U32 ≤ p.usedMem.length := by
    rw [g3]; exact Nat.mod_le _ _
  rcases Pool.allocate_spec p hn hlast with ⟨h1, _, _⟩ | ⟨k, word, hk, hw, hfree, h3⟩
  · rw [h1] at h
    simp at h
  · rw [h3] at h
    simp only [Option.some.injEq, Prod.mk.injEq] at h
    obtain ⟨hp, _⟩ := h
    have hwlt : word < U64 := g4 word (List.getElem?_mem hw)
    have hpc := Pool.popcount_occupy p k word hw hwlt hfree
    have hlen : ({ p.occupy k word (count_trailing_zeros (compl64 word)) with last_ := k }
        : Pool).usedMem.length = p.usedMem.length := by
      rw [Pool.occupy_usedMem p k word hwlt hfree, List.length_set]
    rw [hp] at hpc hlen
    have hl1 : p1.length_ = popcount p1.usedMem := hg1.2.2.2.2.2.2
    have hk1 : p1.last_ = k := by rw [← hp]
    refine ⟨⟨hg1, by rw [hk1, hlen]; exact hk⟩, ?_⟩
    rw [hl1, hpc]
    omega

theorem Pool.deallocate_ready (p p1 : Pool) (ref : Nat) (hr : p.Ready)
    (hused : p.isUsed ref = true) (h : p.deallocate ref = some p1) : p1.Ready := by
  obtain ⟨hg, hlast⟩ := hr
  have hg1 := Pool.deallocate_good p p1 ref hg hused h
  unfold Pool.deallocate at h
  simp only at h
  cases hk : p.usedMem[ref / BITS]? with
  | none => rw [hk] at h; simp at h
  | some word =>
    rw [hk] at h
    simp only [Option.some.injEq] at h
    refine ⟨hg1, ?_⟩
    rw [← h]
    show p.last_ < (p.usedMem.set _ _).length
    rw [List.length_set]; exact hlast

theorem Pool.create_ready {σ : Type} (A : Allocator σ) (s s1 : σ) (size c : Nat) (p : Pool)
    (hsize : size < U64) (hc1 : 1 ≤ c) (hc2 : c + 64 ≤ U64)
    (h : Pool.create A s size c = (some p, s1)) :
    p.Ready ∧ ∃ p1 idx, p.allocate = some (p1, some idx) := by
  have hg := Pool.create_good A s s1 size c p hsize h
  obtain ⟨_, _, e3, e4, _, e6⟩ := Pool.create_eq A s s1 size c p h
  have hcap : p.capacity_ = (c + 63) / 64 * 64 := by
    rw [e3]; unfold BITS U64 at *; omega
  have hlenu : p.usedMem.length = p.capacity_ / 64 := by
    rw [e6, List.length_replicate]; rfl
  have hready : p.Ready := by
    refine ⟨hg, ?_⟩
    rw [e4, hlenu, hcap]; omega
  refine ⟨hready, ?_⟩
  have hn : (p.capacity_ / BITS) % U32 ≤ p.usedMem.length := by
    rw [hlenu]; exact Nat.mod_le _ _
  rcases Pool.allocate_spec p hn hready.2 with ⟨_, ⟨word, hw, hz⟩, _⟩ | ⟨k, word, _, _, _, h3⟩
  · exfalso
    rw [e6] at hw
    have hw0 : word = 0 := List.eq_of_mem_replicate (List.getElem?_mem hw)
    rw [hw0] at hz
    exact absurd hz (by decide)
  · exact ⟨_, _, h3⟩

theorem Slab.scan_none (cap : Nat) (caches : List (Option Pool)) :
    ∀ i, i < caches.length → Slab.scan cap caches i = some none →
      ∀ j, j ≤ i → ∀ p, caches[j]? = some (some p) → ∃ p1, p.allocate = some (p1, none) := by
  intro i
  induction i with
  | zero =>
    intro _ h j hj p hp
    have hj0 : j = 0 := by omega
    subst hj0
    unfold Slab.scan at h
    rw [hp] at h
    simp only at h
    cases ha : p.allocate with
    | none => rw [ha] at h; simp at h
    | some q =>
      obtain ⟨p1, r⟩ := q
      cases r with
      | none => exact ⟨p1, rfl⟩
      | some l => rw [ha] at h; simp at h
  | succ i ih =>
    intro hi h j hj p hp
    unfold Slab.scan at h
    cases hc : caches[i + 1]? with
    | none =>
      rw [List.getElem?_eq_none_iff] at hc
      omega
    | some c =>
      rw [hc] at h
      cases c with
      | none =>
        simp only at h
        rcases Nat.lt_or_ge j (i + 1) with hlt | hge
        · exact ih (by omega) h j (by omega) p hp
        · have hje : j = i + 1 := by omega
          rw [hje, hc] at hp
          simp at hp
      | some q =>
        simp only at h
        cases ha : q.allocate with
        | none => rw [ha] at h; simp at h
        | some t =>
          obtain ⟨p1, r⟩ := t
          cases r with
          | some l => rw [ha] at h; simp at h
          | none =>
            rw [ha] at h
            simp only at h
            rcases Nat.lt_or_ge j (i + 1) with hlt | hge
            · exact ih (by omega) h j (by omega) p hp
            · have hje : j = i + 1 := by omega
              rw [hje, hc] at hp
              simp only [Option.some.injEq] at hp
              rw [← hp]
              exact ⟨p1, ha⟩

theorem Slab.scan_some (cap : Nat) (caches caches1 : List (Option Pool)) (ref : SlabTrace) :
    ∀ i, Slab.scan cap caches i = some (some (caches1, ref)) →
      ∃ j p p1 l, caches[j]? = some (some p) ∧ p.allocate = some (p1, some l) ∧
        caches1 = caches.set j (some p1) := by
  intro i
  induction i with
  | zero =>
    intro h
    unfold Slab.scan at h
    cases hc : caches[0]? with
    | none => rw [hc] at h; simp at h
    | some c =>
      rw [hc] at h
      cases c with
      | none => simp at h
      | some q =>
        simp only at h
        cases ha : q.allocate with
        | none => rw [ha] at h; simp at h
        | some t =>
          obtain ⟨p1, r⟩ := t
          cases r with
          | none => rw [ha] at h; simp at h
          | some l =>
            rw [ha] at h
            simp only [Option.some.injEq, Prod.mk.injEq] at h
            exact ⟨0, q, p1, l, hc, ha, h.1.symm⟩
  | succ i ih =>
    intro h
    unfold Slab.scan at h
    cases hc : caches[i + 1]? with
    | none => rw [hc] at h; simp at h
    | some c =>
      rw [hc] at h
      cases c with
      | none => exact ih h
      | some q =>
        simp only at h
        cases ha : q.allocate with
        | none => rw [ha] at h; simp at h
        | some t =>
          obtain ⟨p1, r⟩ := t
          cases r with
          | none => rw [ha] at h; exact ih h
          | some l =>
            rw [ha] at h
            simp only [Option.some.injEq, Prod.mk.injEq] at h
            exact ⟨i + 1, q, p1, l, hc, ha, h.1.symm⟩

theorem Slab.scan_fresh (cap : Nat) (caches : List (Option Pool)) (j0 : Nat) (p0 p1 : Pool)
    (l : Nat) (h0 : caches[j0]? = some (some p0)) (ha : p0.allocate = some (p1, some l)) :
    ∀ i, i < caches.length → j0 ≤ i →
      (∀ j, j ≤ i → j ≠ j0 → ∀ p, caches[j]? = some (some p) →
        ∃ p2, p.allocate = some (p2, none)) →
      ∃ ref, Slab.scan cap caches i = some (some (caches.set j0 (some p1), ref)) := by
  intro i
  induction i with
  | zero =>
    intro _ hj hfull
    have hj0 : j0 = 0 := by omega
    subst hj0
    unfold Slab.scan
    rw [h0]
    simp only
    rw [ha]
    exact ⟨_, rfl⟩
  | succ i ih =>
    intro hi hj hfull
    unfold Slab.scan
    by_cases hje : j0 = i + 1
    · subst hje
      rw [h0]
      simp only
      rw [ha]
      exact ⟨_, rfl⟩
    · cases hc : caches[i + 1]? with
      | none =>
        rw [List.getElem?_eq_none_iff] at hc
        omega
      | some c =>
        cases c with
        | none =>
          simp only
          exact ih (by omega) (by omega) (fun j hj1 => hfull j (by omega))
        | some q =>
          obtain ⟨p2, hq⟩ := hfull (i + 1) (Nat.le_refl _) (fun h => hje h.symm) q hc
          simp only
          rw [hq]
          simp only
          exact ih (by omega) (by omega) (fun j hj1 => hfull j (by omega))

theorem Array.reserve_items {α σ : Type} (sizeofT : Nat) (A : Allocator σ) (fuel : Nat)
    (a a1 : Array α) (s s1 : σ) (length : Nat) (b : Bool)
    (h : Array.reserve sizeofT A fuel a s length = some (b, a1, s1)) : a1.items = a.items := by
  unfold Array.reserve at h
  split_ifs at h with c1
  · simp only [Option.some.injEq, Prod.mk.injEq] at h
    rw [← h.2.1]
  · cases hg : Array.growCapacity fuel length 16 with
    | none => rw [hg] at h; simp at h
    | some capacity =>
      rw [hg] at h
      simp only at h
      split_ifs at h with c2
      · simp only [Option.some.injEq, Prod.mk.injEq] at h
        rw [← h.2.1]
      · simp only [Option.some.injEq, Prod.mk.injEq] at h
        rw [← h.2.1]

theorem Array.push_back_items {α σ : Type} (sizeofT : Nat) (A : Allocator σ) (fuel : Nat)
    (a a1 : Array α) (s s1 : σ) (value : α) (b : Bool)
    (h : Array.push_back sizeofT A fuel a s value = some (b, a1, s1)) :
    a1.items = if b then a.items ++ [value] else a.items := by
  unfold Array.push_back at h
  cases hr : Array.reserve sizeofT A fuel a s ((a.items.length + 1) % U64) with
  | none => rw [hr] at h; simp at h
  | some t =>
    obtain ⟨b2, a2, s2⟩ := t
    have hi := Array.reserve_items sizeofT A fuel a a2 s s2 _ b2 hr
    rw [hr] at h
    cases b2 with
    | false =>
      simp only [Option.some.injEq, Prod.mk.injEq] at h
      obtain ⟨hb, ha, _⟩ := h
      rw [← hb, ← ha]
      simpa using hi
    | true =>
      simp only [Option.some.injEq, Prod.mk.injEq] at h
      obtain ⟨hb, ha, _⟩ := h
      rw [← hb, ← ha]
      simp [hi]

theorem List.mem_set_fresh (l : List (Option Pool)) (j : Nat) (p1 x : Pool)
    (h : some x ∈ l.set j (some p1)) : x = p1 ∨ ∃ n, n ≠ j ∧ l[n]? = some (some x) := by
  obtain ⟨n, hn⟩ := List.mem_iff_getElem?.mp h
  by_cases hnj : n = j
  · left
    subst hnj
    rw [List.getElem?_set] at hn
    simp only [if_true] at hn
    split_ifs at hn with c
    · exact (Option.some.inj (Option.some.inj hn)).symm
  · right
    rw [List.getElem?_set_ne (fun h => hnj h.symm)] at hn
    exact ⟨n, hnj, hn⟩

theorem Slab.firstInvalid_spec : ∀ (cs : List (Option Pool)) (j : Nat),
    Slab.firstInvalid cs = some j → cs[j]? = some none := by
  intro cs
  induction cs with
  | nil => intro j h; simp [Slab.firstInvalid] at h
  | cons c cs ih =>
    intro j h
    cases c with
    | none =>
      simp only [Slab.firstInvalid, Option.some.injEq] at h
      rw [← h]
      simp
    | some p =>
      simp only [Slab.firstInvalid, Option.map_eq_some'] at h
      obtain ⟨k, hk, hj⟩ := h
      rw [← hj]
      simpa using ih k hk

theorem Slab.allocateTraced_fresh {σ : Type} (sizeofCache : Nat) (A : Allocator σ)
    (fuel : Nat) (sl sl1 : Slab) (s s1 : σ) (r : Option SlabTrace) (j0 : Nat)
    (p0 p1 : Pool) (l : Nat)
    (h0 : sl.caches_.items[j0]? = some (some p0)) (ha : p0.allocate = some (p1, some l))
    (hfull : ∀ j, j ≠ j0 → ∀ p, sl.caches_.items[j]? = some (some p) →
      ∃ p2, p.allocate = some (p2, none))
    (h : Slab.allocateTraced sizeofCache A fuel sl s = some (r, sl1, s1)) :
    sl1.caches_.items = sl.caches_.items.set j0 (some p1) ∧ sl1.size_ = sl.size_ ∧
      sl1.capacity_ = sl.capacity_ := by
  cases fuel with
  | zero => simp [Slab.allocateTraced] at h
  | succ fuel =>
    have hj0 : j0 < sl.caches_.items.length := by
      rcases Nat.lt_or_ge j0 sl.caches_.items.length with hlt | hge
      · exact hlt
      · rw [List.getElem?_eq_none hge] at h0; simp at h0
    obtain ⟨ref, hscan⟩ := Slab.scan_fresh sl.capacity_ sl.caches_.items j0 p0 p1 l h0 ha
      (sl.caches_.items.length - 1) (by omega) (by omega) (fun j _ hne p hp => hfull j hne p hp)
    unfold Slab.allocateTraced at h
    simp only at h
    rw [if_neg (by omega), hscan] at h
    simp only [Option.some.injEq, Prod.mk.injEq] at h
    obtain ⟨_, hsl, _⟩ := h
    rw [← hsl]
    exact ⟨rfl, rfl, rfl⟩

theorem Slab.allocateTraced_inv {σ : Type} (sizeofCache : Nat) (A : Allocator σ)
    (fuel : Nat) (sl sl1 : Slab) (s s1 : σ) (r : Option SlabTrace) (hinv : sl.Inv)
    (h : Slab.allocateTraced sizeofCache A fuel sl s = some (r, sl1, s1)) : sl1.Inv := by
  obtain ⟨i1, i2, i3, i4⟩ := hinv
  cases fuel with
  | zero => simp [Slab.allocateTraced] at h
  | succ fuel =>
    unfold Slab.allocateTraced at h
    simp only at h
    cases hsc : (if sl.caches_.items.length = 0 then some none
        else Slab.scan sl.capacity_ sl.caches_.items (sl.caches_.items.length - 1)) with
    | none => rw [hsc] at h; simp at h
    | some t =>
      rw [hsc] at h
      cases t with
      | some q =>
        obtain ⟨caches, ref⟩ := q
        simp only [Option.some.injEq, Prod.mk.injEq] at h
        obtain ⟨_, hsl, _⟩ := h
        have hne : ¬ (sl.caches_.items.length = 0) := by
          intro h0
          rw [if_pos h0] at hsc
          simp at hsc
        rw [if_neg hne] at hsc
        obtain ⟨j, p, p1, l, hj, ha, hset⟩ := Slab.scan_some _ _ _ _ _ hsc
        have hp := i4 p (List.getElem?_mem hj)
        have hp1 := Pool.allocate_ready p p1 l hp.1 ha
        rw [← hsl]
        refine ⟨i1, i2, i3, ?_⟩
        intro x hx
        simp only [hset] at hx
        rcases List.mem_or_eq_of_mem_set hx with hm | hm
        · exact i4 x hm
        · rw [Option.some.inj hm]
          exact hp1
      | none =>
        simp only at h
        have hfull : ∀ (j : Nat) (p : Pool), sl.caches_.items[j]? = some (some p) →
            ∃ p2, p.allocate = some (p2, none) := by
          intro j p hp
          have hjlt : j < sl.caches_.items.length := by
            rcases Nat.lt_or_ge j sl.caches_.items.length with hlt | hge
            · exact hlt
            · rw [List.getElem?_eq_none hge] at hp; simp at hp
          rw [if_neg (by omega)] at hsc
          exact Slab.scan_none _ _ _ (by omega) hsc j (by omega) p hp
        cases hcr : (Pool.create A s sl.size_ sl.capacity_).1 with
        | none =>
          rw [hcr] at h
          simp only [Option.some.injEq, Prod.mk.injEq] at h
          rw [← h.2.1]
          exact ⟨i1, i2, i3, i4⟩
        | some pool =>
          rw [hcr] at h
          simp only at h
          have hcreate : Pool.create A s sl.size_ sl.capacity_
              = (some pool, (Pool.create A s sl.size_ sl.capacity_).2) := by
            rw [← hcr]
          obtain ⟨hready, p1, idx, hal⟩ := Pool.create_ready A s _ sl.size_ sl.capacity_ pool
            i1 i2 i3 hcreate
          have hp1 := Pool.allocate_ready pool p1 idx hready hal
          cases hfi : Slab.firstInvalid sl.caches_.items with
          | some j =>
            rw [hfi] at h
            simp only at h
            have hj := Slab.firstInvalid_spec _ _ hfi
            have hjlt : j < sl.caches_.items.length := by
              rcases Nat.lt_or_ge j sl.caches_.items.length with hlt | hge
              · exact hlt
              · rw [List.getElem?_eq_none hge] at hj; simp at hj
            obtain ⟨e1, e2, e3⟩ := Slab.allocateTraced_fresh sizeofCache A fuel _ sl1 _ s1 r j
              pool p1 idx (by simp only; rw [List.getElem?_set_self hjlt]) hal
              (by
                intro k hk p hp
                simp only at hp
                rw [List.getElem?_set_ne (fun h => hk h.symm)] at hp
                exact hfull k p hp) h
            simp only at e1 e2 e3
            refine ⟨by rw [e2]; exact i1, by rw [e3]; exact i2, by rw [e3]; exact i3, ?_⟩
            intro x hx
            rw [e1] at hx
            rcases List.mem_set_fresh _ _ _ _ hx with hm | ⟨n, hn, hm⟩
            · rw [hm]
              exact hp1
            · rw [List.getElem?_set_ne (fun h => hn h.symm)] at hm
              exact i4 x (List.getElem?_mem hm)
          | none =>
            rw [hfi] at h
            simp only at h
            cases hpb : Array.push_back sizeofCache A (fuel + 1) sl.caches_
                (Pool.create A s sl.size_ sl.capacity_).2 (some pool) with
            | none => rw [hpb] at h; simp at h
            | some t =>
              obtain ⟨b, arr, s2⟩ := t
              have hitems := Array.push_back_items _ _ _ _ _ _ _ _ _ hpb
              rw [hpb] at h
              cases b with
              | false =>
                simp only [Option.some.injEq, Prod.mk.injEq] at h
                rw [← h.2.1]
                simp only [Bool.false_eq_true, if_false] at hitems
                refine ⟨i1, i2, i3, ?_⟩
                intro x hx
                simp only [hitems] at hx
                exact i4 x hx
              | true =>
                simp only at h
                simp only [if_true] at hitems
                obtain ⟨e1, e2, e3⟩ := Slab.allocateTraced_fresh sizeofCache A fuel _ sl1 _ s1 r
                  sl.caches_.items.length pool p1 idx
                  (by simp only; rw [hitems]; exact List.getElem?_concat_length _ _) hal
                  (by
                    intro k hk p hp
                    simp only [hitems] at hp
                    rcases Nat.lt_or_ge k sl.caches_.items.length with hlt | hge
                    · rw [List.getElem?_append_left hlt] at hp
                      exact hfull k p hp
                    · rw [List.getElem?_eq_none (by simp; omega)] at hp
                      simp at hp) h
                simp only at e1 e2 e3
                refine ⟨by rw [e2]; exact i1, by rw [e3]; exact i2, by rw [e3]; exact i3, ?_⟩
                intro x hx
                rw [e1, hitems] at hx
                rcases List.mem_set_fresh _ _ _ _ hx with hm | ⟨n, hn, hm⟩
                · rw [hm]
                  exact hp1
                · rcases Nat.lt_or_ge n sl.caches_.items.length with hlt | hge
                  · rw [List.getElem?_append_left hlt] at hm
                    exact i4 x (List.getElem?_mem hm)
                  · rw [List.getElem?_eq_none (by simp; omega)] at hm
                    simp at hm

theorem Slab.compact_inv {σ : Type} (A : Allocator σ) :
    ∀ (fuel : Nat) (caches caches1 : List (Option Pool)) (k : Nat) (s s1 : σ),
      (∀ j, j ≠ k → ∀ p, caches[j]? = some (some p) → p.Ready ∧ p.length_ ≠ 0) →
      (∀ p, caches[k]? = some (some p) → p.Ready) →
      Slab.compact A fuel caches k s = some (caches1, s1) →
      ∀ p, some p ∈ caches1 → p.Ready ∧ p.length_ ≠ 0 := by
  intro fuel
  induction fuel with
  | zero =>
    intro caches caches1 k s s1 _ _ h
    simp [Slab.compact] at h
  | succ fuel ih =>
    intro caches caches1 k s s1 hoth hk h p hp
    unfold Slab.compact at h
    by_cases c1 : caches = []
    · rw [if_pos c1] at h
      simp only [Option.some.injEq, Prod.mk.injEq] at h
      rw [← h.1, c1] at hp
      simp at hp
    · rw [if_neg c1] at h
      cases hc : caches[k]? with
      | none => rw [hc] at h; simp at h
      | some c =>
        rw [hc] at h
        cases c with
        | none => simp at h
        | some pool =>
          simp only at h
          by_cases c2 : pool.length_ ≠ 0
          · rw [if_pos c2] at h
            simp only [Option.some.injEq, Prod.mk.injEq] at h
            rw [← h.1] at hp
            obtain ⟨n, hn⟩ := List.mem_iff_getElem?.mp hp
            by_cases hnk : n = k
            · rw [hnk, hc] at hn
              have hpe : pool = p := Option.some.inj (Option.some.inj hn)
              rw [← hpe]
              exact ⟨hk pool hc, c2⟩
            · exact hoth n hnk p hn
          · rw [if_neg c2] at h
            by_cases c3 : k ≠ caches.length - 1
            · rw [if_pos c3] at h
              simp only [Option.some.injEq, Prod.mk.injEq] at h
              rw [← h.1] at hp
              obtain ⟨n, hn⟩ := List.mem_iff_getElem?.mp hp
              by_cases hnk : n = k
              · rw [hnk, List.getElem?_set] at hn
                simp only [if_true] at hn
                split_ifs at hn with c5
                simp at hn
              · rw [List.getElem?_set_ne (fun h => hnk h.symm)] at hn
                exact hoth n hnk p hn
            · rw [if_neg c3] at h
              by_cases c4 : caches.dropLast = []
              · rw [if_pos c4] at h
                simp at h
              · rw [if_neg c4] at h
                have hkl : k = caches.length - 1 := not_not.mp c3
                have hlen : 0 < caches.length := List.length_pos.mpr c1
                have hdl : ∀ n, n < caches.length - 1 → caches.dropLast[n]? = caches[n]? := by
                  intro n hn
                  rw [List.getElem?_dropLast, if_pos hn]
                have hfin : ∀ x, some x ∈ caches.dropLast → x.Ready ∧ x.length_ ≠ 0 := by
                  intro x hx
                  obtain ⟨n, hn⟩ := List.mem_iff_getElem?.mp hx
                  have hnlt : n < caches.length - 1 := by
                    rcases Nat.lt_or_ge n (caches.length - 1) with hlt | hge
                    · exact hlt
                    · rw [List.getElem?_eq_none
                        (by rw [List.length_dropLast]; exact hge)] at hn
                      simp at hn
                  rw [hdl n hnlt] at hn
                  exact hoth n (by omega) x hn
                cases hgl : caches.dropLast.getLast? with
                | none =>
                  rw [hgl] at h
                  simp only [Option.some.injEq, Prod.mk.injEq] at h
                  rw [← h.1] at hp
                  exact hfin p hp
                | some c =>
                  rw [hgl] at h
                  cases c with
                  | none =>
                    simp only [Option.some.injEq, Prod.mk.injEq] at h
                    rw [← h.1] at hp
                    exact hfin p hp
                  | some q =>
                    simp only at h
                    refine ih caches.dropLast caches1 (caches.dropLast.length - 1) _ s1
                      ?_ ?_ h p hp
                    · intro j _ x hx
                      exact hfin x (List.getElem?_mem hx)
                    · intro x hx
                      exact (hfin x (List.getElem?_mem hx)).1

theorem Slab.deallocate_inv {σ : Type} (A : Allocator σ) (sl sl1 : Slab) (s s1 : σ)
    (index : Nat) (pool : Pool) (hinv : sl.Inv)
    (hpool : sl.caches_.items[(sl.split index).1]? = some (some pool))
    (hused : pool.isUsed (sl.split index).2 = true)
    (h : Slab.deallocate A sl s index = some (sl1, s1)) : sl1.Inv := by
  obtain ⟨i1, i2, i3, i4⟩ := hinv
  unfold Slab.split at hpool hused
  simp only at hpool hused
  unfold Slab.deallocate at h
  rw [if_neg (by omega)] at h
  simp only at h
  rw [hpool] at h
  simp only at h
  cases hd : pool.deallocate ((index % sl.capacity_) % U32) with
  | none => rw [hd] at h; simp at h
  | some p1 =>
    rw [hd] at h
    simp only at h
    have hready := Pool.deallocate_ready pool p1 _ (i4 pool (List.getElem?_mem hpool)).1 hused hd
    have hklt : (index / sl.capacity_) % U32 < sl.caches_.items.length := by
      rcases Nat.lt_or_ge ((index / sl.capacity_) % U32) sl.caches_.items.length with hlt | hge
      · exact hlt
      · rw [List.getElem?_eq_none hge] at hpool; simp at hpool
    cases hc : Slab.compact A (sl.caches_.items.length + 1)
        (sl.caches_.items.set ((index / sl.capacity_) % U32) (some p1))
        ((index / sl.capacity_) % U32) s with
    | none => rw [hc] at h; simp at h
    | some t =>
      obtain ⟨caches, s2⟩ := t
      rw [hc] at h
      simp only [Option.some.injEq, Prod.mk.injEq] at h
      rw [← h.1]
      refine ⟨i1, i2, i3, ?_⟩
      simp only
      refine Slab.compact_inv A _ _ caches _ s s2 ?_ ?_ hc
      · intro j hj p hp
        rw [List.getElem?_set_ne (fun h => hj h.symm)] at hp
        exact i4 p (List.getElem?_mem hp)
      · intro p hp
        rw [List.getElem?_set_self hklt] at hp
        rw [← Option.some.inj (Option.some.inj hp)]
        exact hready

theorem Slab.Reachable.inv (sl : Slab) (h : Slab.Reachable sl) : sl.Inv := by
  induction h with
  | new size capacity h1 h2 h3 =>
    refine ⟨h1, h2, h3, ?_⟩
    intro p hp
    simp [Slab.new, Array.empty] at hp
  | allocate sizeofCache A fuel sl sl1 s s1 r _ h ih =>
    exact Slab.allocateTraced_inv sizeofCache A fuel sl sl1 s s1 r ih h
  | deallocate A sl sl1 s s1 index pool _ hp hu h ih =>
    exact Slab.deallocate_inv A sl sl1 s s1 index pool ih hp hu h

/-! ## `Slab::save` and `Slab::load` -/

set_option maxRecDepth 100000 in
/-- C23. A slab whose per-cache capacity is below 32 does not survive a
round trip. On an initially empty `Slab` of object size 8 and per-cache
capacity 1, one `allocate()` leaves one populated cache. `save` to an empty
stream succeeds and writes 584 bytes. `load` of these bytes (scratch buffer
on a zeroed stack page) succeeds with size 8, capacity 1 and one cache slot,
but the slot is unpopulated and the stream is left at offset 32, before the
pool: `save` and `load` size the occupancy bitset as `capacity / 32 = 0`
words, so no occupancy bit is written, and `load` tests `used[0]` of a
zero-length buffer. -/
theorem slab_round_trip_loses_cache :
    (Slab.allocateN 64 Allocator.recording 8 1 (Slab.new 8 1) ⟨4096, [], []⟩).map
      (fun r => (r.2.1.size_, r.2.1.capacity_, r.2.1.caches_.items.map (fun c => c.isSome)))
      = some (8, 1, [true]) ∧
    (Slab.allocateN 64 Allocator.recording 8 1 (Slab.new 8 1) ⟨4096, [], []⟩).bind
      (fun r =>
        (Slab.save 48 Allocator.recording 64 65536 r.2.1 r.2.2 Mem.zero ⟨[], 0⟩).bind
          (fun q =>
            (Slab.load 48 64 Allocator.recording 64 131072 q.2.1 Mem.zero
                ⟨q.2.2.2.content, 0⟩).map
              (fun l =>
                (q.1, q.2.2.2.content.length,
                 l.1.map (fun sl =>
                   (sl.size_, sl.capacity_, sl.caches_.items.map (fun c => c.isSome))),
                 l.2.2.2.offset_))))
      = some (true, 584, some (8, 1, [false]), 32) := by
  refine ⟨?_, ?_⟩
  · rfl
  · rfl

/-! ## `Pool::load` on untrusted input -/

/-- C27 (as stated) fails: `Pool::load` copies the header fields without
checking them. On the 64-byte stream made of the header `"pool"`, version 1,
length 5, size 1, capacity 32 followed by 32 object bytes, `load` returns a
Pool whose capacity 32 is not a multiple of 64, whose occupancy bitset has
no word (popcount 0) and whose length is 5. -/
theorem pool_load_invariants_counterexample :
    (Pool.load Allocator.recording ⟨4096, [], []⟩
        ⟨[112, 111, 111, 108, 1, 0, 0, 0, 5, 0, 0, 0, 0, 0, 0, 0,
          1, 0, 0, 0, 0, 0, 0, 0, 32, 0, 0, 0, 0, 0, 0, 0] ++ List.replicate 32 0, 0⟩).1.map
      (fun p => (p.capacity_, p.capacity_ % 64, p.length_, p.usedMem, popcount p.usedMem))
      = some (32, 32, 5, [], 0) := by
  decide

theorem fromLE_lt : ∀ (l : List Nat), (∀ b ∈ l, b < 256) → fromLE l < 256 ^ l.length := by
  intro l
  induction l with
  | nil => intro _; simp [fromLE]
  | cons b bs ih =>
    intro h
    have hb := h b (List.mem_cons_self _ _)
    have hrest := ih (fun x hx => h x (List.mem_cons_of_mem _ hx))
    simp only [fromLE, List.length_cons, Nat.pow_succ]
    omega

/-- C27 (amended). Loaded pools carry what the stream says. For every stream
of bytes on which `Pool::load` returns a Pool: the Pool's size, length and
capacity are the header's fields and its occupancy bitset holds the
`capacity / 64` little-endian words that follow the 32-byte header.
Consequently, when the header's capacity is a multiple of 64 and the header's
length equals the popcount of those words, the Pool's capacity is a multiple
of 64 and its length equals the popcount of its occupancy bitset. -/
theorem pool_load_invariants {σ : Type} (A : Allocator σ) (s s1 : σ) (st st1 : Stream)
    (p : Pool) (h : PoolHeader)
    (hbytes : ∀ b ∈ st.content, b < 256)
    (hh : h = PoolHeader.ofBytes ((st.content.drop st.offset_).take 32))
    (hload : Pool.load A s st = (some p, s1, st1)) :
    p.size_ = h.size ∧ p.length_ = h.length ∧ p.capacity_ = h.capacity ∧
    p.usedMem = bytesToWords (h.capacity / 64)
      ((st.content.drop (st.offset_ + 32)).take (8 * (h.capacity / 64))) ∧
    (64 ∣ h.capacity →
      h.length = popcount (bytesToWords (h.capacity / 64)
        ((st.content.drop (st.offset_ + 32)).take (8 * (h.capacity / 64)))) →
      64 ∣ p.capacity_ ∧ p.length_ = popcount p.usedMem) := by
  have hcap : h.capacity < U64 := by
    rw [hh]
    unfold PoolHeader.ofBytes
    simp only
    have hl := fromLE_lt (List.take 8 (List.drop 24 (List.take 32 (List.drop st.offset_ st.content))))
      (fun b hb => hbytes b
        (List.mem_of_mem_drop (List.mem_of_mem_take (List.mem_of_mem_drop (List.mem_of_mem_take hb)))))
    have hlen8 : (List.take 8 (List.drop 24 (List.take 32 (List.drop st.offset_ st.content)))).length
        ≤ 8 := by
      rw [List.length_take]
      exact Nat.min_le_left _ _
    calc fromLE (List.take 8 (List.drop 24 (List.take 32 (List.drop st.offset_ st.content))))
        < 256 ^ (List.take 8 (List.drop 24 (List.take 32
            (List.drop st.offset_ st.content)))).length := hl
      _ ≤ 256 ^ 8 := Nat.pow_le_pow_right (by decide) hlen8
      _ = U64 := by decide
  have hr0 : (st.read 32).2.1 = (st.content.drop st.offset_).take 32 := rfl
  have hfields : p.size_ = h.size ∧ p.length_ = h.length ∧ p.capacity_ = h.capacity ∧
      p.usedMem = bytesToWords (h.capacity / 64)
        ((st.content.drop (st.offset_ + 32)).take (8 * (h.capacity / 64))) := by
    unfold Pool.load at hload
    simp only [hr0, ← hh] at hload
    split_ifs at hload with c1 c2 c3 c4 c5 c6 <;>
      simp only [Prod.mk.injEq, Option.some.injEq, reduceCtorEq, false_and] at hload
    obtain ⟨hp, _, _⟩ := hload
    subst hp
    refine ⟨rfl, rfl, rfl, ?_⟩
    simp only
    have hgot : ((st.content.drop st.offset_).take 32).length = 32 := by
      unfold Stream.read at c1
      simpa using c1
    have hmod : (h.capacity / BITS * 8) % U64 = 8 * (h.capacity / 64) := by
      unfold BITS U64 at *
      omega
    unfold Stream.read
    simp only [hgot, hmod]
    rfl
  obtain ⟨f1, f2, f3, f4⟩ := hfields
  refine ⟨f1, f2, f3, f4, ?_⟩
  intro hdiv hpop
  rw [f3, f2, f4]
  exact ⟨hdiv, hpop⟩

theorem pool_load_invariants_witness :
    ∃ p : Pool,
      (Pool.load Allocator.recording ⟨4096, [], []⟩
        ⟨[112, 111, 111, 108, 1, 0, 0, 0, 1, 0, 0, 0, 0, 0, 0, 0,
          1, 0, 0, 0, 0, 0, 0, 0, 64, 0, 0, 0, 0, 0, 0, 0,
          1, 0, 0, 0, 0, 0, 0, 0] ++ List.replicate 64 0, 0⟩).1 = some p ∧
      64 ∣ p.capacity_ ∧ p.length_ = popcount p.usedMem :=
  ⟨{ size_ := 1, length_ := 1, capacity_ := 64, data_ := 4128, used_ := 4096, last_ := 0,
     dataMem := List.replicate 64 0, usedMem := [1] },
   by decide,
   (pool_load_invariants Allocator.recording ⟨4096, [], []⟩
      ⟨4208, [(4128, 64), (4096, 8)], []⟩
      ⟨[112, 111, 111, 108, 1, 0, 0, 0, 1, 0, 0, 0, 0, 0, 0, 0,
        1, 0, 0, 0, 0, 0, 0, 0, 64, 0, 0, 0, 0, 0, 0, 0,
        1, 0, 0, 0, 0, 0, 0, 0] ++ List.replicate 64 0, 0⟩
      ⟨[112, 111, 111, 108, 1, 0, 0, 0, 1, 0, 0, 0, 0, 0, 0, 0,
        1, 0, 0, 0, 0, 0, 0, 0, 64, 0, 0, 0, 0, 0, 0, 0,
        1, 0, 0, 0, 0, 0, 0, 0] ++ List.replicate 64 0, 104⟩
      { size_ := 1, length_ := 1, capacity_ := 64, data_ := 4128, used_ := 4096, last_ := 0,
        dataMem := List.replicate 64 0, usedMem := [1] }
      { magic := poolMagic, version := 1, length := 1, size := 1, capacity := 64 }
      (by decide) (by decide) (by decide)).2.2.2.2 (by decide) (by decide)⟩

/-! ## `Array::copy` -/

/-- C30. `Array::copy` copies no element. The loop of `copy` is
`for (Ulen i = length_; i < length_; i++)`: it starts at `length_` and its
body never runs. For the array `[1, 2, 3]` and an allocator that grants the
buffer, `copy` returns an array of length 0 (capacity 16), not `[1, 2, 3]`. -/
theorem array_copy_returns_empty :
    (Array.copy 8 Allocator.recording 8
        ({ items := [1, 2, 3], capacity_ := 16, data_ := 4096 } : Array Nat)
        ⟨8192, [], []⟩).map (fun r => r.1.map (fun a => (a.items, a.items.length, a.capacity_)))
      = some (some ([], 0, 16)) := by
  decide

/-! ## `Slab::save`: the bytes written -/

/-- C25. Pool binary layout. For every Pool (its three fields 64-bit values,
its occupancy buffer of `capacity / 64` words and its object buffer of
`size * capacity` bytes, as `create` and `load` build them) and a stream
positioned inside its content, `save` succeeds and writes, at the stream position and leaving the rest of the stream as it was,
exactly `32 + 8 * (capacity / 64) + size * capacity` bytes (the product as the
64-bit value the code computes; it is the exact product when that is below
`2^64`): the 4 bytes `'p','o','o','l'`, version 1 as a little-endian `u32`,
then `length`, `size`, `capacity` as little-endian `u64` at offsets 8, 16 and
24, then the `capacity / 64` occupancy words as little-endian `u64` in
ascending word order, then the raw object bytes. `save` is a `const` member:
the embedding returns the stream only, the Pool is not an output. -/
theorem pool_save_layout (p : Pool) (st : Stream)
    (g1 : p.size_ < U64) (g2 : p.capacity_ < U64) (hlen : p.length_ < U64)
    (g3 : p.usedMem.length = p.capacity_ / 64)
    (g5 : p.dataMem.length = (p.size_ * p.capacity_) % U64)
    (hst : st.offset_ ≤ st.content.length) :
    (p.save st).1 = true ∧
    (p.save st).2.offset_
      = st.offset_ + (32 + 8 * (p.capacity_ / 64) + (p.size_ * p.capacity_) % U64) ∧
    (p.size_ * p.capacity_ < U64 →
      (p.save st).2.offset_
        = st.offset_ + (32 + 8 * (p.capacity_ / 64) + p.size_ * p.capacity_)) ∧
    (p.save st).2.content
      = st.content.take st.offset_
        ++ ([112, 111, 111, 108] ++ toLE 4 1 ++ toLE 8 p.length_ ++ toLE 8 p.size_
              ++ toLE 8 p.capacity_ ++ wordsToBytes p.usedMem ++ p.dataMem)
        ++ st.content.drop (p.save st).2.offset_ ∧
    ([112, 111, 111, 108] ++ toLE 4 1 ++ toLE 8 p.length_ ++ toLE 8 p.size_
        ++ toLE 8 p.capacity_ ++ wordsToBytes p.usedMem ++ p.dataMem).length
      = 32 + 8 * (p.capacity_ / 64) + (p.size_ * p.capacity_) % U64 ∧
    (([112, 111, 111, 108] ++ toLE 4 1 ++ toLE 8 p.length_ ++ toLE 8 p.size_
        ++ toLE 8 p.capacity_ ++ wordsToBytes p.usedMem ++ p.dataMem).drop 4).take 4
      = [1, 0, 0, 0] ∧
    (([112, 111, 111, 108] ++ toLE 4 1 ++ toLE 8 p.length_ ++ toLE 8 p.size_
        ++ toLE 8 p.capacity_ ++ wordsToBytes p.usedMem ++ p.dataMem).drop 8).take 8
      = toLE 8 p.length_ ∧
    (([112, 111, 111, 108] ++ toLE 4 1 ++ toLE 8 p.length_ ++ toLE 8 p.size_
        ++ toLE 8 p.capacity_ ++ wordsToBytes p.usedMem ++ p.dataMem).drop 16).take 8
      = toLE 8 p.size_ ∧
    (([112, 111, 111, 108] ++ toLE 4 1 ++ toLE 8 p.length_ ++ toLE 8 p.size_
        ++ toLE 8 p.capacity_ ++ wordsToBytes p.usedMem ++ p.dataMem).drop 24).take 8
      = toLE 8 p.capacity_ ∧
    (([112, 111, 111, 108] ++ toLE 4 1 ++ toLE 8 p.length_ ++ toLE 8 p.size_
        ++ toLE 8 p.capacity_ ++ wordsToBytes p.usedMem ++ p.dataMem).drop 32).take
          (8 * (p.capacity_ / 64))
      = wordsToBytes p.usedMem ∧
    ([112, 111, 111, 108] ++ toLE 4 1 ++ toLE 8 p.length_ ++ toLE 8 p.size_
        ++ toLE 8 p.capacity_ ++ wordsToBytes p.usedMem ++ p.dataMem).drop
          (32 + 8 * (p.capacity_ / 64))
      = p.dataMem ∧
    p.usedMem.length = p.capacity_ / 64 := by
  have hB : BITS = 64 := rfl
  have e1 : (1 : Nat) % U32 = 1 := by decide
  have e2 : p.length_ % U64 = p.length_ := Nat.mod_eq_of_lt hlen
  have e3 : p.size_ % U64 = p.size_ := Nat.mod_eq_of_lt g1
  have e4 : p.capacity_ % U64 = p.capacity_ := Nat.mod_eq_of_lt g2
  have hut : p.usedMem.take (p.capacity_ / BITS) = p.usedMem :=
    List.take_of_length_le (by rw [hB]; omega)
  have hdt : p.dataMem.take ((p.size_ * p.capacity_) % U64) = p.dataMem :=
    List.take_of_length_le (by omega)
  have hw := wordsToBytes_length p.usedMem
  have hhead : ([112, 111, 111, 108] ++ toLE 4 1 ++ toLE 8 p.length_ ++ toLE 8 p.size_
      ++ toLE 8 p.capacity_).length = 32 := by
    simp only [List.length_append, toLE_length, List.length_cons, List.length_nil]
  have hhb : ([112, 111, 111, 108] ++ toLE 4 1 ++ toLE 8 p.length_ ++ toLE 8 p.size_
      ++ toLE 8 p.capacity_ ++ wordsToBytes p.usedMem).length = 32 + 8 * (p.capacity_ / 64) := by
    rw [List.length_append, hhead, hw, g3]
  have htot : ([112, 111, 111, 108] ++ toLE 4 1 ++ toLE 8 p.length_ ++ toLE 8 p.size_
      ++ toLE 8 p.capacity_ ++ wordsToBytes p.usedMem ++ p.dataMem).length
      = 32 + 8 * (p.capacity_ / 64) + (p.size_ * p.capacity_) % U64 := by
    rw [List.length_append, hhb, g5]
  have hsave : p.save st = (true,
      { content := st.content.take st.offset_
          ++ ([112, 111, 111, 108] ++ toLE 4 1 ++ toLE 8 p.length_ ++ toLE 8 p.size_
                ++ toLE 8 p.capacity_ ++ wordsToBytes p.usedMem ++ p.dataMem)
          ++ st.content.drop (st.offset_
              + (32 + 8 * (p.capacity_ / 64) + (p.size_ * p.capacity_) % U64)),
        offset_ := st.offset_
              + (32 + 8 * (p.capacity_ / 64) + (p.size_ * p.capacity_) % U64) }) := by
    have hst_eq : st = { content := st.content.take st.offset_ ++ st.content.drop st.offset_,
                         offset_ := (st.content.take st.offset_).length } := by
      cases st with
      | mk c o =>
        simp only [List.take_append_drop, List.length_take] at hst ⊢
        rw [Nat.min_eq_left hst]
    have hoff : (st.content.take st.offset_).length = st.offset_ := by
      rw [List.length_take]; exact Nat.min_eq_left hst
    have h := Pool.save_eq p (st.content.take st.offset_) (st.content.drop st.offset_)
      (by rw [hB]; exact g3) g5
    rw [← hst_eq, e1, e2, e3, e4] at h
    rw [h]
    clear h
    have hpm : PoolHeader.toBytes
        { magic := poolMagic, version := 1, length := p.length_, size := p.size_,
          capacity := p.capacity_ }
        = [112, 111, 111, 108] ++ toLE 4 1 ++ toLE 8 p.length_ ++ toLE 8 p.size_
            ++ toLE 8 p.capacity_ := rfl
    have hN : (PoolHeader.toBytes
        { magic := poolMagic, version := 1, length := p.length_, size := p.size_,
          capacity := p.capacity_ }).length = 32 := by
      rw [hpm]; exact hhead
    rw [hN, hw, g3, g5, List.drop_drop, List.drop_drop, List.drop_drop]
    have hX : (((st.content.take st.offset_ ++ ([112, 111, 111, 108] ++ toLE 4 1
          ++ toLE 8 p.length_ ++ toLE 8 p.size_ ++ toLE 8 p.capacity_))
          ++ wordsToBytes p.usedMem) ++ p.dataMem)
        = st.content.take st.offset_
          ++ ([112, 111, 111, 108] ++ toLE 4 1 ++ toLE 8 p.length_ ++ toLE 8 p.size_
                ++ toLE 8 p.capacity_ ++ wordsToBytes p.usedMem ++ p.dataMem) := by
      simp only [List.append_assoc]
    have hY : (st.content.take st.offset_
          ++ ([112, 111, 111, 108] ++ toLE 4 1 ++ toLE 8 p.length_ ++ toLE 8 p.size_
                ++ toLE 8 p.capacity_ ++ wordsToBytes p.usedMem ++ p.dataMem)).length
        = st.offset_ + (32 + 8 * (p.capacity_ / 64) + (p.size_ * p.capacity_) % U64) := by
      rw [List.length_append, hoff, htot]
    rw [hpm, hX, hY]
    have hD : st.offset_ + (32 + (8 * (p.capacity_ / 64) + (p.size_ * p.capacity_) % U64))
        = st.offset_ + (32 + 8 * (p.capacity_ / 64) + (p.size_ * p.capacity_) % U64) := by
      omega
    rw [hD]
  obtain ⟨s1, s2, s3, s4, s5⟩ := header_split [112, 111, 111, 108] (toLE 4 1)
    (toLE 8 p.length_) (toLE 8 p.size_)
    (toLE 8 p.capacity_ ++ wordsToBytes p.usedMem ++ p.dataMem) rfl (toLE_length _ _)
    (toLE_length _ _) (toLE_length _ _)
  simp only [← List.append_assoc] at s1 s2 s3 s4 s5
  rw [hsave]
  refine ⟨rfl, rfl, ?_, rfl, htot, s2, s3, s4, ?_, ?_, ?_, g3⟩
  · intro hlt
    simp only
    rw [Nat.mod_eq_of_lt hlt]
  · rw [s5, List.append_assoc, List.take_left' (toLE_length _ _)]
  · have h32 : ([112, 111, 111, 108] ++ toLE 4 1 ++ toLE 8 p.length_ ++ toLE 8 p.size_
        ++ toLE 8 p.capacity_ ++ wordsToBytes p.usedMem ++ p.dataMem)
        = ([112, 111, 111, 108] ++ toLE 4 1 ++ toLE 8 p.length_ ++ toLE 8 p.size_
            ++ toLE 8 p.capacity_) ++ (wordsToBytes p.usedMem ++ p.dataMem) := by
      simp only [List.append_assoc]
    rw [h32, List.drop_left' hhead, List.take_left' (by rw [hw, g3])]
  · rw [List.drop_left' hhb]

set_option maxRecDepth 100000 in
theorem pool_save_layout_witness :
    (Pool.freshExample.save { content := [7, 7, 7], offset_ := 3 }).2.offset_
      = 3 + (32 + 8 * (Pool.freshExample.capacity_ / 64)
              + (Pool.freshExample.size_ * Pool.freshExample.capacity_) % U64) :=
  (pool_save_layout Pool.freshExample { content := [7, 7, 7], offset_ := 3 }
    (by decide) (by decide) (by decide) rfl rfl (by decide)).2.1

/-! ## `Pool::create` -/

/-- C26 (as stated) fails: with a requested capacity `c = 2^64 - 1` the
rounding `((c + 63) / 64) * 64` wraps around `2^64`: on an allocator that
grants both (empty) buffers, `Pool::create(8, 2^64 - 1)` returns a Pool of
capacity 0, which is not `≥ c`. -/
theorem pool_creation_counterexample :
    (Pool.create Allocator.recording ⟨4096, [], []⟩ 8 (2 ^ 64 - 1)).1.map
      (fun p => (p.capacity_, p.usedMem, p.dataMem)) = some (0, [], []) ∧
    ¬ (2 ^ 64 - 1 ≤ 0) := by
  refine ⟨by decide, by decide⟩

/-- C26 (amended). Pool creation. For every object size and requested
capacity `c ≤ 2^64 - 64`, with `C = ((c + 63) / 64) * 64` the least multiple
of 64 that is `≥ c`: `Pool::create` asks the allocator for `size * C` zeroed
bytes (the 64-bit product) and then for `C / 64` zeroed words. If the first
request is refused it returns empty. If the second is refused it passes the
first buffer back to `deallocate` with the length it was acquired with and
returns empty. Otherwise it returns a Pool over the two buffers with that
size, capacity `C`, length 0, `C / 64` occupancy words all zero and
`size * C` data bytes all zero. -/
theorem pool_creation {σ : Type} (A : Allocator σ) (s : σ) (size c : Nat)
    (hc : c + 64 ≤ U64) :
    64 ∣ (c + 63) / 64 * 64 ∧ c ≤ (c + 63) / 64 * 64 ∧
    (∀ k, 64 ∣ k → c ≤ k → (c + 63) / 64 * 64 ≤ k) ∧
    ((A.allocate s 1 ((size * ((c + 63) / 64 * 64)) % U64) true).1 = 0 →
      Pool.create A s size c
        = (none, (A.allocate s 1 ((size * ((c + 63) / 64 * 64)) % U64) true).2)) ∧
    ((A.allocate s 1 ((size * ((c + 63) / 64 * 64)) % U64) true).1 ≠ 0 →
      (A.allocate (A.allocate s 1 ((size * ((c + 63) / 64 * 64)) % U64) true).2 8
        ((c + 63) / 64 * 64 / 64) true).1 = 0 →
      Pool.create A s size c
        = (none,
           A.deallocate
             (A.allocate (A.allocate s 1 ((size * ((c + 63) / 64 * 64)) % U64) true).2 8
               ((c + 63) / 64 * 64 / 64) true).2
             1 (A.allocate s 1 ((size * ((c + 63) / 64 * 64)) % U64) true).1
             ((size * ((c + 63) / 64 * 64)) % U64))) ∧
    ((A.allocate s 1 ((size * ((c + 63) / 64 * 64)) % U64) true).1 ≠ 0 →
      (A.allocate (A.allocate s 1 ((size * ((c + 63) / 64 * 64)) % U64) true).2 8
        ((c + 63) / 64 * 64 / 64) true).1 ≠ 0 →
      ∃ p, Pool.create A s size c
          = (some p,
             (A.allocate (A.allocate s 1 ((size * ((c + 63) / 64 * 64)) % U64) true).2 8
               ((c + 63) / 64 * 64 / 64) true).2) ∧
        p.size_ = size ∧ p.capacity_ = (c + 63) / 64 * 64 ∧ p.length_ = 0 ∧
        p.usedMem = List.replicate ((c + 63) / 64 * 64 / 64) 0 ∧
        p.dataMem = List.replicate ((size * ((c + 63) / 64 * 64)) % U64) 0 ∧
        (size * ((c + 63) / 64 * 64) < U64 →
          p.dataMem = List.replicate (size * ((c + 63) / 64 * 64)) 0) ∧
        p.data_ = (A.allocate s 1 ((size * ((c + 63) / 64 * 64)) % U64) true).1 ∧
        p.used_ = (A.allocate (A.allocate s 1 ((size * ((c + 63) / 64 * 64)) % U64) true).2 8
          ((c + 63) / 64 * 64 / 64) true).1) := by
  have hcap : (((c + (64 - 1)) % U64) / 64 * 64) % U64 = (c + 63) / 64 * 64 := by
    unfold U64 at *
    omega
  refine ⟨Nat.dvd_mul_left 64 _, by omega, ?_, ?_, ?_, ?_⟩
  · intro k hk hck
    obtain ⟨j, rfl⟩ := hk
    omega
  · intro h1
    unfold Pool.create BITS
    simp only [hcap]
    rw [if_pos h1]
  · intro h1 h2
    unfold Pool.create BITS
    simp only [hcap]
    rw [if_neg h1, if_pos h2]
  · intro h1 h2
    unfold Pool.create BITS
    simp only [hcap]
    rw [if_neg h1, if_neg h2]
    refine ⟨_, rfl, rfl, rfl, rfl, rfl, rfl, ?_, rfl, rfl⟩
    intro hlt
    simp only
    rw [Nat.mod_eq_of_lt hlt]

theorem pool_creation_witness :
    ∃ p, Pool.create Allocator.bump 4096 8 64 = (some p, 4648) ∧
      p.capacity_ = (64 + 63) / 64 * 64 ∧ p.length_ = 0 ∧
      p.usedMem = List.replicate ((64 + 63) / 64 * 64 / 64) 0 :=
  match (pool_creation Allocator.bump 4096 8 64 (by decide)).2.2.2.2.2
      (by decide) (by decide) with
  | ⟨p, h, _, hcap, hlen, hused, _⟩ => ⟨p, h, hcap, hlen, hused⟩

/-! ## `Pool::load`: rejection and unwinding -/

/-- C29. `Pool::load` unwinds on failure. When the header was accepted (32
bytes read, magic `"pool"`, version 1) and `load` returns empty, the
allocator calls of `load` are, in this order: `alloc` of the `capacity / 64`
words (`u`), `alloc` of the `size * capacity` bytes (`d`), then `free` of the
address `u` returned with the length `u` was asked with, then `free` of the
address `d` returned with the length `d` was asked with. Every buffer that
was obtained is passed back once, with its address and length; a refused
buffer contributes a `free` of the null address. -/
theorem pool_load_unwinds {σ : Type} (A : Allocator σ) (s : σ) (st : Stream)
    (h : PoolHeader) (u d : Nat × σ)
    (hh : h = PoolHeader.ofBytes (st.read 32).2.1)
    (hread : (st.read 32).1 = true) (hm : h.magic = poolMagic) (hv : h.version = 1)
    (hu : u = A.alloc s ((h.capacity / 64 * 8) % U64) false)
    (hd : d = A.alloc u.2 (((h.size * h.capacity) % U64 * 1) % U64) false)
    (hfail : (Pool.load A s st).1 = none) :
    (Pool.load A s st).2.1
      = A.free (A.free d.2 u.1 ((h.capacity / 64 * 8) % U64)) d.1
          (((h.size * h.capacity) % U64 * 1) % U64) := by
  subst hh hu hd
  have hread1 : ¬ ((st.read 32).1 = false) := by rw [hread]; decide
  unfold Pool.load at hfail ⊢
  simp only [hread1, hm, hv, if_false, ne_eq, not_true_eq_false] at hfail ⊢
  unfold Allocator.allocate Allocator.deallocate BITS at hfail ⊢
  split_ifs at hfail ⊢ <;> first | rfl | contradiction

theorem pool_load_unwinds_witness :
    (Pool.load Allocator.recording ⟨4096, [], []⟩
        ⟨[112, 111, 111, 108, 1, 0, 0, 0, 0, 0, 0, 0, 0, 0, 0, 0,
          1, 0, 0, 0, 0, 0, 0, 0, 64, 0, 0, 0, 0, 0, 0, 0, 9, 9, 9, 9], 0⟩).2.1
      = (⟨4208, [(4128, 64), (4096, 8)], [(4128, 64), (4096, 8)]⟩ : Heap) :=
  (pool_load_unwinds Allocator.recording ⟨4096, [], []⟩
    ⟨[112, 111, 111, 108, 1, 0, 0, 0, 0, 0, 0, 0, 0, 0, 0, 0,
      1, 0, 0, 0, 0, 0, 0, 0, 64, 0, 0, 0, 0, 0, 0, 0, 9, 9, 9, 9], 0⟩
    { magic := poolMagic, version := 1, length := 0, size := 1, capacity := 64 }
    (4096, ⟨4128, [(4096, 8)], []⟩) (4128, ⟨4208, [(4128, 64), (4096, 8)], []⟩)
    (by decide) (by decide) rfl rfl (by decide) (by decide) (by decide)).trans (by decide)

theorem Stream.read_header (st : Stream) :
    ((st.read 32).1 = false ↔ (st.content.drop st.offset_).length < 32) ∧
    (st.read 32).2.1.take 4 = (st.content.drop st.offset_).take 4 ∧
    ((st.read 32).2.1.drop 4).take 4 = ((st.content.drop st.offset_).drop 4).take 4 := by
  unfold Stream.read
  simp only
  refine ⟨?_, ?_, ?_⟩
  · rw [decide_eq_false_iff_not, List.length_take]
    omega
  · rw [List.take_take]
    rfl
  · rw [List.drop_take, List.take_take]
    rfl

/-- C28. Load rejects a bad header. For every stream whose remaining bytes
are fewer than the 32 bytes of a header, or whose first 4 bytes differ from
the expected magic, or whose version field (the little-endian `u32` at
offset 4) is not 1: with the magic `"pool"`, `Pool::load` returns an empty
result and the allocator state is the one before the call; with the magic
`"slab"`, `Slab::load` returns an empty result and allocator state and memory
are the ones before the call. The allocator is arbitrary, so an unchanged
state means that none of its operations was called. -/
theorem load_rejects_bad_header {σ : Type} (A : Allocator σ) (s : σ) (m : Mem) (st : Stream)
    (magic : List Nat) (sizeofBlock sizeofCache fuel scratchBase : Nat)
    (hbad : (st.content.drop st.offset_).length < 32 ∨
      (st.content.drop st.offset_).take 4 ≠ magic ∨
      fromLE (((st.content.drop st.offset_).drop 4).take 4) ≠ 1) :
    (magic = poolMagic → (Pool.load A s st).1 = none ∧ (Pool.load A s st).2.1 = s) ∧
    (magic = slabMagic →
      ∃ st1, Slab.load sizeofBlock sizeofCache A fuel scratchBase s m st
        = some (none, s, m, st1)) := by
  obtain ⟨h1, h2, h3⟩ := Stream.read_header st
  constructor
  · intro hmagic
    subst hmagic
    unfold Pool.load
    simp only
    by_cases hr : (st.read 32).1 = false
    · rw [if_pos hr]
      exact ⟨rfl, rfl⟩
    · rw [if_neg hr]
      have hlen : ¬ (st.content.drop st.offset_).length < 32 := fun h => hr (h1.mpr h)
      by_cases hm : (PoolHeader.ofBytes (st.read 32).2.1).magic ≠ poolMagic
      · rw [if_pos hm]
        exact ⟨rfl, rfl⟩
      · rw [if_neg hm]
        have hv : (PoolHeader.ofBytes (st.read 32).2.1).version ≠ 1 := by
          unfold PoolHeader.ofBytes at hm ⊢
          simp only at hm ⊢
          rw [h3]
          rw [h2] at hm
          rcases hbad with h | h | h
          · exact absurd h hlen
          · exact absurd h hm
          · exact h
        rw [if_pos hv]
        exact ⟨rfl, rfl⟩
  · intro hmagic
    subst hmagic
    unfold Slab.load
    simp only
    by_cases hr : (st.read 32).1 = false
    · rw [if_pos hr]
      exact ⟨_, rfl⟩
    · rw [if_neg hr]
      have hlen : ¬ (st.content.drop st.offset_).length < 32 := fun h => hr (h1.mpr h)
      by_cases hm : (SlabHeader.ofBytes (st.read 32).2.1).magic ≠ slabMagic
      · rw [if_pos hm]
        exact ⟨_, rfl⟩
      · rw [if_neg hm]
        have hv : (SlabHeader.ofBytes (st.read 32).2.1).version ≠ 1 := by
          unfold SlabHeader.ofBytes at hm ⊢
          simp only at hm ⊢
          rw [h3]
          rw [h2] at hm
          rcases hbad with h | h | h
          · exact absurd h hlen
          · exact absurd h hm
          · exact h
        rw [if_pos hv]
        exact ⟨_, rfl⟩

theorem load_rejects_bad_header_witness :
    (Pool.load Allocator.recording ⟨4096, [], []⟩
        ⟨[112, 111, 111, 108, 2, 0, 0, 0] ++ List.replicate 24 0, 0⟩).1 = none ∧
    (Pool.load Allocator.recording ⟨4096, [], []⟩
        ⟨[112, 111, 111, 108, 2, 0, 0, 0] ++ List.replicate 24 0, 0⟩).2.1
      = (⟨4096, [], []⟩ : Heap) :=
  (load_rejects_bad_header Allocator.recording ⟨4096, [], []⟩ Mem.zero
    ⟨[112, 111, 111, 108, 2, 0, 0, 0] ++ List.replicate 24 0, 0⟩ poolMagic 48 64 64 65536
    (by decide)).1 rfl

/-! ## `Array::pop_front` -/

/-- C38. `Array::pop_front` does not shift the elements and stores outside the
array. The loop is `for (Ulen i = 1; i < length_; i--)`: after the first
iteration `i` is 0, the second iteration stores `data_[0]` to
`data_[0 - 1]`, index `2^64 - 1` in `Ulen` arithmetic, one slot before the
buffer, and the next `i--` ends the loop. For the array `[1, 2, 3]` the call
leaves `[2, 2]`, not `[2, 3]`, and the indices accessed are 1, 0, 0 and
`2^64 - 1`. -/
theorem array_pop_front_misplaces :
    (Array.pop_front 8 ({ items := [1, 2, 3], capacity_ := 16, data_ := 4096 } : Array Nat)).map
      (fun r => (r.1.items, r.2))
      = some ([2, 2], [1, 0, 0, 18446744073709551615]) := by
  decide

/-! ## `File::read` and `File::write` -/

/-- C37. `File::read` and `File::write` stop after a partial transfer of more
than half of the data. The loop condition `total < data.length()` compares
the bytes transferred so far with the length of the slice that is left,
because `data = data.slice(rd)` has shortened `data`. For a buffer of 10
bytes and a file of 10 bytes whose `read_file` delivers at most 6 bytes per
call, the first call delivers 6 bytes, `total = 6`, `data.length() = 4`, and
the loop ends: `File::read` returns 6 with 6 bytes stored, and
`FileStream::read` returns `false`. A second call on the rest would deliver
the 4 missing bytes. `File::write` of 10 bytes to the empty file with the
same limit returns 6 and the file holds 6 bytes. -/
theorem file_read_stops_short :
    File.read FsFile.tenBytes 8 0 10 = some (6, [1, 2, 3, 4, 5, 6]) ∧
    FileStream.read FsFile.tenBytes 8 0 10 = some (false, [1, 2, 3, 4, 5, 6], 6) ∧
    Filesystem.read_file FsFile.tenBytes 6 4 = (4, [7, 8, 9, 10]) ∧
    (File.write { FsFile.tenBytes with content := [] } 8 0 [1, 2, 3, 4, 5, 6, 7, 8, 9, 10]).map
      (fun r => (r.1, r.2.content)) = some (6, [1, 2, 3, 4, 5, 6]) := by
  refine ⟨by decide, by decide, by decide, by decide⟩

/-! ## `StringBuilder::lpad` and `rpad` -/

/-- C39. `StringBuilder::lpad(n, view, pad)` pads with `n - 1` characters, not
`n - l`. For width 5, the view `"ab"` (`l = 2`) and the pad character `' '`
on an empty builder, `lpad` appends 6 characters, four blanks followed by
`"ab"`, where `max(n, l) = 5`; `rpad` with the same arguments appends
`"ab"` followed by three blanks, 5 characters. For width 2 and the same view
(`n = l`, no padding due) `lpad` still appends one blank before `"ab"`. -/
theorem string_lpad_pads_too_much :
    (StringBuilder.lpad_view Allocator.recording 8 StringBuilder.new ⟨4096, [], []⟩ 5 [97, 98]
        32).map (fun r => (r.1.build_.items, r.1.build_.items.length, r.1.error_))
      = some ([32, 32, 32, 32, 97, 98], 6, false) ∧
    (StringBuilder.rpad_view Allocator.recording 8 StringBuilder.new ⟨4096, [], []⟩ 5 [97, 98]
        32).map (fun r => (r.1.build_.items, r.1.build_.items.length, r.1.error_))
      = some ([97, 98, 32, 32, 32], 5, false) ∧
    (StringBuilder.lpad_view Allocator.recording 8 StringBuilder.new ⟨4096, [], []⟩ 2 [97, 98]
        32).map (fun r => (r.1.build_.items, r.1.build_.items.length, r.1.error_))
      = some ([32, 97, 98], 3, false) := by
  refine ⟨by decide, by decide, by decide⟩

/-! ## `Rune::encode_utf8` -/

theorem Utf8.or_80 : ∀ x, x < 64 → 0x80 ||| x = 0x80 + x := by decide

theorem Utf8.or_C0 : ∀ x, x < 32 → 0xC0 ||| x = 0xC0 + x := by decide

theorem Utf8.or_E0 : ∀ x, x < 16 → 0xE0 ||| x = 0xE0 + x := by decide

theorem Utf8.or_F0 : ∀ x, x < 8 → 0xF0 ||| x = 0xF0 + x := by decide

theorem Utf8.and_3F (v : Nat) : v &&& 0x3F = v % 64 := Nat.and_pow_two_sub_one_eq_mod v 6

theorem Utf8.standardDecode_encoding (v : Nat) (h1 : v ≤ 0x10FFFF)
    (h2 : ¬ (0xD800 ≤ v ∧ v ≤ 0xDFFF)) :
    Utf8.standardDecode (Utf8.standardEncoding v) = some v := by
  unfold Utf8.standardEncoding
  by_cases c1 : v < 0x80
  · rw [if_pos c1]
    simp only [Utf8.standardDecode]
    rw [if_pos c1]
  · rw [if_neg c1]
    by_cases c2 : v < 0x800
    · rw [if_pos c2]
      simp only [Utf8.standardDecode]
      have hv : (0xC0 + v / 64 - 0xC0) * 64 + (0x80 + v % 64 - 0x80) = v := by omega
      rw [hv, if_pos ⟨by omega, by omega, by omega, by omega, by omega⟩]
    · rw [if_neg c2]
      by_cases c3 : v < 0x10000
      · rw [if_pos c3]
        simp only [Utf8.standardDecode]
        have hv : (0xE0 + v / 4096 - 0xE0) * 4096 + (0x80 + v / 64 % 64 - 0x80) * 64
            + (0x80 + v % 64 - 0x80) = v := by omega
        rw [hv, if_pos ⟨by omega, by omega, by omega, by omega, by omega, by omega, by omega, h2⟩]
      · rw [if_neg c3]
        simp only [Utf8.standardDecode]
        have hv : (0xF0 + v / 262144 - 0xF0) * 262144 + (0x80 + v / 4096 % 64 - 0x80) * 4096
            + (0x80 + v / 64 % 64 - 0x80) * 64 + (0x80 + v % 64 - 0x80) = v := by omega
        rw [hv, if_pos ⟨by omega, by omega, by omega, by omega, by omega, by omega, by omega,
          by omega, by omega, h1⟩]

theorem Utf8.standardEncoding_length (v : Nat) :
    1 ≤ (Utf8.standardEncoding v).length ∧ (Utf8.standardEncoding v).length ≤ 4 := by
  unfold Utf8.standardEncoding
  split_ifs <;> simp

theorem Rune.encode_utf8_eq (v data : Nat) (dest : List Nat) (h1 : v ≤ 0x10FFFF)
    (h2 : ¬ (0xD800 ≤ v ∧ v ≤ 0xDFFF)) (hd : data ≠ 0)
    (hlen : (Utf8.standardEncoding v).length ≤ dest.length) :
    Rune.encode_utf8 v data dest
      = ((Utf8.standardEncoding v).length,
         Utf8.standardEncoding v ++ dest.drop (Utf8.standardEncoding v).length) := by
  unfold Rune.encode_utf8
  rw [if_neg (by omega), if_neg (by omega), if_neg hd]
  unfold Utf8.standardEncoding at hlen ⊢
  by_cases c1 : v < 0x80
  · rw [if_pos c1] at hlen
    rw [if_pos c1, if_pos c1]
    rcases dest with _ | ⟨d0, rest⟩
    · simp at hlen
    · have e : v % 256 = v := by omega
      simp [e]
  · rw [if_neg c1] at hlen
    rw [if_neg c1, if_neg c1]
    by_cases c2 : v < 0x800
    · rw [if_pos c2] at hlen
      rw [if_pos c2, if_pos c2]
      rcases dest with _ | ⟨d0, _ | ⟨d1, rest⟩⟩
      · simp at hlen
      · simp at hlen
      · have e0 : (0xC0 ||| (v >>> 6)) % 256 = 0xC0 + v / 64 := by
          rw [Nat.shiftRight_eq_div_pow, Utf8.or_C0 _ (by omega)]
          omega
        have e1 : (0x80 ||| (v &&& 0x3F)) % 256 = 0x80 + v % 64 := by
          rw [Utf8.and_3F, Utf8.or_80 _ (by omega)]
          omega
        simp [e0, e1]
    · rw [if_neg c2] at hlen
      rw [if_neg c2, if_neg c2]
      by_cases c3 : v < 0x10000
      · rw [if_pos c3] at hlen
        rw [if_pos c3, if_pos c3]
        rcases dest with _ | ⟨d0, _ | ⟨d1, _ | ⟨d2, rest⟩⟩⟩
        · simp at hlen
        · simp at hlen
        · simp at hlen
        · have e0 : (0xE0 ||| (v >>> 12)) % 256 = 0xE0 + v / 4096 := by
            rw [Nat.shiftRight_eq_div_pow, Utf8.or_E0 _ (by omega)]
            omega
          have e1 : (0x80 ||| ((v >>> 6) &&& 0x3F)) % 256 = 0x80 + v / 64 % 64 := by
            rw [Utf8.and_3F, Nat.shiftRight_eq_div_pow, Utf8.or_80 _ (by omega)]
            omega
          have e2 : (0x80 ||| (v &&& 0x3F)) % 256 = 0x80 + v % 64 := by
            rw [Utf8.and_3F, Utf8.or_80 _ (by omega)]
            omega
          simp [e0, e1, e2]
      · rw [if_neg c3] at hlen
        rw [if_neg c3, if_neg c3]
        rcases dest with _ | ⟨d0, _ | ⟨d1, _ | ⟨d2, _ | ⟨d3, rest⟩⟩⟩⟩
        · simp at hlen
        · simp at hlen
        · simp at hlen
        · simp at hlen
        · have e0 : (0xF0 ||| (v >>> 18)) % 256 = 0xF0 + v / 262144 := by
            rw [Nat.shiftRight_eq_div_pow, Utf8.or_F0 _ (by omega)]
            omega
          have e1 : (0x80 ||| ((v >>> 12) &&& 0x3F)) % 256 = 0x80 + v / 4096 % 64 := by
            rw [Utf8.and_3F, Nat.shiftRight_eq_div_pow, Utf8.or_80 _ (by omega)]
            omega
          have e2 : (0x80 ||| ((v >>> 6) &&& 0x3F)) % 256 = 0x80 + v / 64 % 64 := by
            rw [Utf8.and_3F, Nat.shiftRight_eq_div_pow, Utf8.or_80 _ (by omega)]
            omega
          have e3 : (0x80 ||| (v &&& 0x3F)) % 256 = 0x80 + v % 64 := by
            rw [Utf8.and_3F, Utf8.or_80 _ (by omega)]
            omega
          simp [e0, e1, e2, e3]

theorem Rune.encode_utf8_short (v data : Nat) (dest : List Nat)
    (hlen : dest.length < (Utf8.standardEncoding v).length) :
    Rune.encode_utf8 v data dest = (0, dest) := by
  unfold Rune.encode_utf8
  unfold Utf8.standardEncoding at hlen
  split_ifs at hlen ⊢ <;>
    first | rfl | (simp only [List.length_cons, List.length_nil] at hlen; omega)

/-- C40. `Rune::encode_utf8` is the standard UTF-8 encoder. For every Unicode
scalar value `v` (`v ≤ 0x10FFFF`, not in `0xD800..0xDFFF`): the standard
encoding of `v` has a length `k` in `{1, 2, 3, 4}`, consists of bytes, and
decodes to `v`; on a non-null destination of at least `k` bytes (so on every
destination of length `≥ 4`) `encode_utf8` returns `k`, the first `k` bytes of
the destination are the standard encoding and the other bytes are unchanged;
on a destination shorter than `k` bytes it returns 0 and writes nothing. For
every `v > 0x10FFFF` or in the surrogate range it returns 0 and writes
nothing. -/
theorem rune_encode_utf8_standard (v data : Nat) (dest : List Nat) :
    (v ≤ 0x10FFFF ∧ ¬ (0xD800 ≤ v ∧ v ≤ 0xDFFF) →
      1 ≤ (Utf8.standardEncoding v).length ∧ (Utf8.standardEncoding v).length ≤ 4 ∧
      (∀ b ∈ Utf8.standardEncoding v, b < 256) ∧
      Utf8.standardDecode (Utf8.standardEncoding v) = some v ∧
      (data ≠ 0 → (Utf8.standardEncoding v).length ≤ dest.length →
        Rune.encode_utf8 v data dest
          = ((Utf8.standardEncoding v).length,
             Utf8.standardEncoding v ++ dest.drop (Utf8.standardEncoding v).length)) ∧
      (data ≠ 0 → 4 ≤ dest.length →
        (Rune.encode_utf8 v data dest).1 = (Utf8.standardEncoding v).length ∧
        (Rune.encode_utf8 v data dest).2.take (Rune.encode_utf8 v data dest).1
          = Utf8.standardEncoding v ∧
        (Rune.encode_utf8 v data dest).2.drop (Rune.encode_utf8 v data dest).1
          = dest.drop (Rune.encode_utf8 v data dest).1 ∧
        (Rune.encode_utf8 v data dest).2.length = dest.length) ∧
      (dest.length < (Utf8.standardEncoding v).length →
        Rune.encode_utf8 v data dest = (0, dest))) ∧
    (v > 0x10FFFF ∨ (0xD800 ≤ v ∧ v ≤ 0xDFFF) → Rune.encode_utf8 v data dest = (0, dest)) := by
  refine ⟨?_, ?_⟩
  · rintro ⟨h1, h2⟩
    obtain ⟨l1, l4⟩ := Utf8.standardEncoding_length v
    refine ⟨l1, l4, ?_, Utf8.standardDecode_encoding v h1 h2,
      fun hd hlen => Rune.encode_utf8_eq v data dest h1 h2 hd hlen, ?_,
      fun hlen => Rune.encode_utf8_short v data dest hlen⟩
    · intro b hb
      unfold Utf8.standardEncoding at hb
      split_ifs at hb <;> simp at hb <;> omega
    · intro hd h4
      have he := Rune.encode_utf8_eq v data dest h1 h2 hd (by omega)
      rw [he]
      refine ⟨rfl, ?_, ?_, ?_⟩
      · simp
      · simp
      · simp only [List.length_append, List.length_drop]
        omega
  · intro h
    unfold Rune.encode_utf8
    rcases h with h | h
    · rw [if_pos h]
    · rw [if_neg (by omega), if_pos ⟨h.1, h.2⟩]

/-! ## `Pool::create` and `drop` on an arena -/

/-- C36 (as stated) fails: on the arena over `[4096, 8192)`,
`Pool::create(size = 8, capacity = 64)` takes the 512 object bytes at 4096
and the 8 bytes of the occupancy word at 4608 and leaves the cursor at 4624.
`drop` frees the object bytes first, which do not end at the cursor (no
effect), then the occupancy word, which does: the cursor ends at 4608, not
at 4096. -/
theorem pool_create_drop_counterexample :
    (ArenaAllocator.new 4096 4096).cursor_ = 4096 ∧
    (Pool.create Allocator.arena (ArenaAllocator.new 4096 4096, Mem.zero) 8 64).1.map
      (fun p => (p.data_, p.used_, p.size_, p.capacity_)) = some (4096, 4608, 8, 64) ∧
    (Pool.create Allocator.arena (ArenaAllocator.new 4096 4096, Mem.zero) 8 64).2.1.cursor_
      = 4624 ∧
    (Pool.create Allocator.arena (ArenaAllocator.new 4096 4096, Mem.zero) 8 64).1.map
      (fun p => (Pool.drop Allocator.arena
        (Pool.create Allocator.arena (ArenaAllocator.new 4096 4096, Mem.zero) 8 64).2
        p).1.cursor_) = some 4608 := by
  refine ⟨by decide, by decide, by decide, by decide⟩

theorem ArenaAllocator.alloc_fit (a : ArenaAllocator) (m : Mem) (n : Nat) (zero : Bool)
    (hno : a.cursor_ + Allocator.round n < U64)
    (h : a.cursor_ + Allocator.round n ≤ a.region_.end_) :
    a.alloc m n zero
      = (a.cursor_, { a with cursor_ := a.cursor_ + Allocator.round n },
         if zero then Allocator.memzero m a.cursor_ n else m) := by
  unfold ArenaAllocator.alloc
  simp only
  rw [Nat.mod_eq_of_lt hno, if_neg (by omega)]
  cases zero <;> rfl

/-- C36 (amended). `Pool::create` followed by `drop` on an arena gives back
the occupancy buffer only. For every arena with a non-zero cursor and room
for both buffers, every `size ≥ 1` and every requested capacity `c` with
`1 ≤ c ≤ 2^64 - 64`, with `C` the capacity rounded up to a multiple of 64:
`Pool::create` succeeds, takes the `size * C` object bytes at the cursor and
the `C / 64` occupancy words right after them; `drop` frees the two buffers
in the order of their allocation, so the free of the object bytes finds a
block that does not end at the cursor and has no effect, and the free of the
occupancy words moves the cursor back to their start. The cursor after
`drop` is the cursor before the creation plus `round(size * C)`, which is
above the cursor before the creation when `size * C < 2^64`. -/
theorem pool_create_drop_on_arena (a : ArenaAllocator) (m : Mem) (size c : Nat)
    (hsize : 1 ≤ size) (hc1 : 1 ≤ c) (hc2 : c + 64 ≤ U64) (hpos : 0 < a.cursor_)
    (hend : a.region_.end_ < U64)
    (hroom : a.cursor_ + Allocator.round ((size * ((c + 63) / 64 * 64)) % U64)
      + Allocator.round (8 * ((c + 63) / 64 * 64 / 64)) ≤ a.region_.end_) :
    ∃ p s1, Pool.create Allocator.arena (a, m) size c = (some p, s1) ∧
      p.data_ = a.cursor_ ∧
      p.used_ = a.cursor_ + Allocator.round ((size * ((c + 63) / 64 * 64)) % U64) ∧
      s1.1.cursor_ = a.cursor_ + Allocator.round ((size * ((c + 63) / 64 * 64)) % U64)
        + Allocator.round (8 * ((c + 63) / 64 * 64 / 64)) ∧
      (Pool.drop Allocator.arena s1 p).1.cursor_
        = a.cursor_ + Allocator.round ((size * ((c + 63) / 64 * 64)) % U64) ∧
      (Pool.drop Allocator.arena s1 p).1.region_ = a.region_ ∧
      (size * ((c + 63) / 64 * 64) < U64 →
        a.cursor_ < (Pool.drop Allocator.arena s1 p).1.cursor_) := by
  have hU : U64 = 2 ^ 64 := rfl
  have hend2 : a.region_.end_ < 2 ^ 64 := hend
  have hcap : (((c + (BITS - 1)) % U64) / BITS * BITS) % U64 = (c + 63) / 64 * 64 := by
    unfold BITS
    rw [hU] at hc2 ⊢
    omega
  have hC1 : 64 ≤ (c + 63) / 64 * 64 := by omega
  have hC2 : (c + 63) / 64 * 64 < U64 := by rw [hU] at hc2 ⊢; omega
  have hC3 : 64 ∣ (c + 63) / 64 * 64 := Nat.dvd_mul_left 64 _
  generalize hCdef : (c + 63) / 64 * 64 = C at hcap hC1 hC2 hC3 hroom ⊢
  have hnb : ((size * C) % U64 * 1) % U64 = (size * C) % U64 := by
    rw [Nat.mul_one, Nat.mod_mod]
  have hnw : (C / BITS * 8) % U64 = 8 * (C / 64) := by
    unfold BITS
    rw [hU] at hC2 ⊢
    omega
  have hrw : 16 ≤ Allocator.round (8 * (C / 64)) := by
    rw [Allocator.round_of_le _ (by rw [hU] at hC2 ⊢; omega)]
    omega
  have hrw2 := Allocator.round_lt (8 * (C / 64))
  generalize hR1 : Allocator.round ((size * C) % U64) = R1 at hroom ⊢
  generalize hR2 : Allocator.round (8 * (C / 64)) = R2 at hroom hrw hrw2 ⊢
  have h1 := ArenaAllocator.alloc_fit a m ((size * C) % U64) true
    (by rw [hR1]; omega) (by rw [hR1]; omega)
  have h2 := ArenaAllocator.alloc_fit { a with cursor_ := a.cursor_ + R1 }
    (Allocator.memzero m a.cursor_ ((size * C) % U64)) (8 * (C / 64)) true
    (by simp only; rw [hR2]; omega) (by simp only; rw [hR2]; omega)
  rw [hR1] at h1
  rw [hR2] at h2
  simp only [if_true] at h1 h2
  have hcreate : Pool.create Allocator.arena (a, m) size c
      = (some { size_ := size, length_ := 0, capacity_ := C, data_ := a.cursor_,
                used_ := a.cursor_ + R1, last_ := 0,
                dataMem := List.replicate ((size * C) % U64) 0,
                usedMem := List.replicate (C / BITS) 0 },
         ({ a with cursor_ := a.cursor_ + R1 + R2 },
          Allocator.memzero (Allocator.memzero m a.cursor_ ((size * C) % U64))
            (a.cursor_ + R1) (8 * (C / 64)))) := by
    unfold Pool.create Allocator.allocate Allocator.arena
    simp only [hcap, hnb, hnw, h1, h2]
    rw [if_neg (by omega), if_neg (by omega)]
  have hdrop : (Pool.drop Allocator.arena
      ({ a with cursor_ := a.cursor_ + R1 + R2 },
        Allocator.memzero (Allocator.memzero m a.cursor_ ((size * C) % U64))
          (a.cursor_ + R1) (8 * (C / 64)))
      { size_ := size, length_ := 0, capacity_ := C, data_ := a.cursor_,
        used_ := a.cursor_ + R1, last_ := 0,
        dataMem := List.replicate ((size * C) % U64) 0,
        usedMem := List.replicate (C / BITS) 0 }).1
      = { a with cursor_ := a.cursor_ + R1 } := by
    have hf1 : ArenaAllocator.free { a with cursor_ := a.cursor_ + R1 + R2 } a.cursor_
        ((size * C) % U64) = { a with cursor_ := a.cursor_ + R1 + R2 } := by
      unfold ArenaAllocator.free
      simp only [hR1]
      rw [if_neg (by omega), if_neg (by rw [hU]; omega)]
    have hf2 : ArenaAllocator.free { a with cursor_ := a.cursor_ + R1 + R2 } (a.cursor_ + R1)
        (8 * (C / 64)) = { a with cursor_ := a.cursor_ + R1 } := by
      unfold ArenaAllocator.free
      simp only [hR2]
      rw [if_neg (by omega), if_pos (by rw [hU]; omega)]
      congr 1
      rw [hU] at hrw2 ⊢
      omega
    unfold Pool.drop Allocator.deallocate Allocator.arena
    simp only [hnb, hnw, hf1, hf2]
  refine ⟨_, _, hcreate, rfl, rfl, rfl, ?_, ?_, ?_⟩
  · rw [hdrop]
  · rw [hdrop]
  · intro hlt
    rw [hdrop]
    simp only
    have hpos2 : 0 < R1 := by
      rw [← hR1, Nat.mod_eq_of_lt hlt]
      have hsc : 64 ≤ size * C := by
        calc 64 ≤ C := hC1
          _ = 1 * C := (Nat.one_mul C).symm
          _ ≤ size * C := Nat.mul_le_mul_right C hsize
      have hdvd : 64 ∣ size * C := Dvd.dvd.mul_left hC3 size
      have hr := Allocator.round_eq (size * C) hlt
      rw [hr]
      unfold U64 at hlt ⊢
      omega
    omega

theorem pool_create_drop_on_arena_witness :
    ∃ p s1, Pool.create Allocator.arena (ArenaAllocator.new 4096 4096, Mem.zero) 8 64
        = (some p, s1) ∧
      (Pool.drop Allocator.arena s1 p).1.cursor_
        = (ArenaAllocator.new 4096 4096).cursor_
          + Allocator.round ((8 * ((64 + 63) / 64 * 64)) % U64) :=
  match pool_create_drop_on_arena (ArenaAllocator.new 4096 4096) Mem.zero 8 64 (by decide)
      (by decide) (by decide) (by decide) (by decide) (by decide) with
  | ⟨p, s1, h, _, _, _, hd, _⟩ => ⟨p, s1, h, hd⟩

/-! ## `Pool::allocate`: the slot that is taken -/

theorem Pool.allocateScan_order (p : Pool) (n : Nat) (hn : n ≤ p.usedMem.length) :
    ∀ w, w < n →
      (p.allocateScan n w = some (p, none) ∧
        ∀ k, k ≤ w → ∃ word, p.usedMem[k]? = some word ∧ compl64 word = 0) ∨
      (∃ k word, k ≤ w ∧ p.usedMem[k]? = some word ∧ compl64 word ≠ 0 ∧
        (∀ j, k < j → j ≤ w → ∃ wj, p.usedMem[j]? = some wj ∧ compl64 wj = 0) ∧
        p.allocateScan n w
          = some ({ p.occupy k word (count_trailing_zeros (compl64 word)) with last_ := k },
                  some ((k * BITS + count_trailing_zeros (compl64 word)) % U32))) := by
  intro w
  induction w with
  | zero =>
    intro hw
    rcases Pool.allocateScan_spec p n hn 0 hw with h | ⟨k, word, hk, h1, h2, h3⟩
    · exact Or.inl h
    · right
      exact ⟨k, word, hk, h1, h2, fun j hj1 hj2 => absurd hj2 (by omega), h3⟩
  | succ w ih =>
    intro hw
    have hlt : w + 1 < p.usedMem.length := by omega
    by_cases hfree : compl64 p.usedMem[w + 1] ≠ 0
    · right
      refine ⟨w + 1, p.usedMem[w + 1], Nat.le_refl _, List.getElem?_eq_getElem hlt, hfree,
        fun j hj1 hj2 => absurd hj2 (by omega), ?_⟩
      exact Pool.allocateScan_hit p n (w + 1) _ hw (List.getElem?_eq_getElem hlt) hfree
    · have hstep : p.allocateScan n (w + 1) = p.allocateScan n w := by
        rw [Pool.allocateScan]
        simp only [hw, if_true, List.getElem?_eq_getElem hlt, hfree, if_false]
      rw [hstep]
      rcases ih (by omega) with ⟨h1, h2⟩ | ⟨k, word, hk, h1, h2, h3, h4⟩
      · left
        refine ⟨h1, ?_⟩
        intro k hk
        by_cases hk1 : k = w + 1
        · subst hk1
          exact ⟨p.usedMem[w + 1], List.getElem?_eq_getElem hlt, not_not.mp hfree⟩
        · exact h2 k (by omega)
      · right
        refine ⟨k, word, by omega, h1, h2, ?_, h4⟩
        intro j hj1 hj2
        by_cases hj : j = w + 1
        · subst hj
          exact ⟨p.usedMem[w + 1], List.getElem?_eq_getElem hlt, not_not.mp hfree⟩
        · exact h3 j hj1 (by omega)

theorem lowest_clear_bit (word : Nat) (hw : word < U64) (hfree : compl64 word ≠ 0) :
    count_trailing_zeros (compl64 word) < 64 ∧
    word.testBit (count_trailing_zeros (compl64 word)) = false ∧
    ∀ b, b < count_trailing_zeros (compl64 word) → word.testBit b = true := by
  obtain ⟨h1, _, h3⟩ := count_trailing_zeros_spec (compl64 word) hfree (compl64_lt word)
  refine ⟨h1, (free_bit_spec word hw hfree).2, ?_⟩
  intro b hb
  have h := h3 b hb
  rw [compl64_testBit word hw] at h
  have hb64 : b < 64 := by omega
  simpa [hb64] using h

/-- C31 (as stated) fails: the pool `Pool.aliasExample` (capacity `2^32 + 64`,
64 objects in use, so not full) has its cached word `last = 0` full and its
top word, index `2^26`, empty. `allocate()` takes bit 0 of word `w = 2^26`
and sets `last = 2^26`, but the index it returns is
`(64 * 2^26 + 0) mod 2^32 = 0`, not `64 * w + tz = 2^32`. -/
theorem pool_slot_selection_counterexample :
    Pool.aliasExample.length_ < Pool.aliasExample.capacity_ ∧
    Pool.aliasExample.usedMem[Pool.aliasExample.last_]? = some (U64 - 1) ∧
    Pool.aliasExample.usedMem[67108864]? = some 0 ∧
    count_trailing_zeros (compl64 0) = 0 ∧
    Pool.aliasExample.allocate.map (fun r => (r.2, r.1.last_)) = some (some 0, 67108864) ∧
    64 * 67108864 + 0 ≠ 0 := by
  have hk0 : Pool.aliasExample.usedMem[0]? = some (U64 - 1) := List.getElem?_cons_zero
  have htop : Pool.aliasExample.usedMem[67108864]? = some 0 :=
    getElem?_cons_replicate (U64 - 1) 0 67108864 67108863 (by decide)
  have hz : count_trailing_zeros (compl64 0) = 0 := by decide
  refine ⟨by decide, hk0, htop, hz, ?_, by decide⟩
  rw [Pool.allocate_miss Pool.aliasExample (U64 - 1) hk0 (by decide)]
  have h := Pool.allocateScan_hit Pool.aliasExample 67108865 67108864 0 (by decide) htop
    (by decide)
  rw [hz] at h
  have hn : (Pool.aliasExample.capacity_ / BITS) % U32 = 67108865 := by decide
  have hs : ((Pool.aliasExample.capacity_ / BITS) % U32 + (U32 - 1)) % U32 = 67108864 := by
    decide
  rw [hs, hn, h]
  rfl

/-- C31 (amended). Pool slot selection order. For every non-full Pool of
capacity a multiple of 64 and at most `2^32` (so that every slot index fits
the 32-bit `PoolRef`), in a consistent state and with `last` a valid word
index: `allocate()` returns the index `64 * w + tz`, where `w` is the cached
word index `last` if word `last` has a clear bit, and otherwise the greatest
word index whose word has a clear bit, and `tz` is the position of the
lowest-order clear bit of word `w`; after the call `last == w`. -/
theorem pool_slot_selection (p : Pool) (hg : p.Good) (hdiv : 64 ∣ p.capacity_)
    (hcap32 : p.capacity_ ≤ U32) (hlast : p.last_ < p.capacity_ / 64)
    (hroom : p.length_ < p.capacity_) :
    ∃ w word tz p1,
      p.usedMem[w]? = some word ∧ word ≠ U64 - 1 ∧
      (∀ wl, p.usedMem[p.last_]? = some wl → wl ≠ U64 - 1 → w = p.last_) ∧
      (∀ wl, p.usedMem[p.last_]? = some wl → wl = U64 - 1 →
        ∀ j, w < j → j < p.capacity_ / 64 → p.usedMem[j]? = some (U64 - 1)) ∧
      tz < 64 ∧ word.testBit tz = false ∧ (∀ b, b < tz → word.testBit b = true) ∧
      p.allocate = some (p1, some (64 * w + tz)) ∧ p1.last_ = w := by
  obtain ⟨g1, g2, g3, g4, g5, g6, g7⟩ := hg
  have hB : BITS = 64 := rfl
  rw [hB] at g3
  have hlen : p.last_ < p.usedMem.length := by rw [g3]; exact hlast
  have hn : (p.capacity_ / BITS) % U32 = p.usedMem.length := by
    rw [g3, hB]
    unfold U32 at *
    omega
  have hcap : 64 * p.usedMem.length = p.capacity_ := by
    rw [g3]
    omega
  have hk : p.usedMem[p.last_]? = some p.usedMem[p.last_] := List.getElem?_eq_getElem hlen
  by_cases hfree : compl64 p.usedMem[p.last_] ≠ 0
  · have hwlt : p.usedMem[p.last_] < U64 := g4 _ (List.getElem?_mem hk)
    obtain ⟨t1, t2, t3⟩ := lowest_clear_bit _ hwlt hfree
    have hidx : (p.last_ * BITS + count_trailing_zeros (compl64 p.usedMem[p.last_])) % U32
        = 64 * p.last_ + count_trailing_zeros (compl64 p.usedMem[p.last_]) := by
      rw [hB]
      unfold U32 at *
      omega
    refine ⟨p.last_, p.usedMem[p.last_], count_trailing_zeros (compl64 p.usedMem[p.last_]),
      p.occupy p.last_ p.usedMem[p.last_] (count_trailing_zeros (compl64 p.usedMem[p.last_])),
      hk, ?_, fun _ _ _ => rfl, ?_, t1, t2, t3, ?_, rfl⟩
    · intro h
      exact hfree ((compl64_eq_zero _ hwlt).mpr h)
    · intro wl hwl hfull
      rw [hk] at hwl
      rw [← Option.some.inj hwl] at hfull
      exact absurd ((compl64_eq_zero _ hwlt).mpr hfull) hfree
    · unfold Pool.allocate
      simp only [hk]
      rw [if_pos hfree, hidx]
  · have hfull : compl64 p.usedMem[p.last_] = 0 := not_not.mp hfree
    have hmiss := Pool.allocate_miss p _ hk hfull
    have hpos : 0 < p.usedMem.length := by omega
    have hstart : ((p.capacity_ / BITS) % U32 + (U32 - 1)) % U32 = p.usedMem.length - 1 := by
      rw [hn]
      unfold U32 at *
      omega
    rw [hstart, hn] at hmiss
    rcases Pool.allocateScan_order p p.usedMem.length (Nat.le_refl _) (p.usedMem.length - 1)
      (by omega) with ⟨_, h2⟩ | ⟨k, word, hk1, hk2, hk3, hk4, hk5⟩
    · exfalso
      have hall : ∀ w ∈ p.usedMem, w = U64 - 1 := by
        intro w hw
        obtain ⟨i, hi⟩ := List.mem_iff_getElem?.mp hw
        have hilt : i < p.usedMem.length := by
          rcases Nat.lt_or_ge i p.usedMem.length with hlt | hge
          · exact hlt
          · rw [List.getElem?_eq_none hge] at hi; exact absurd hi (by simp)
        obtain ⟨word, hw1, hw2⟩ := h2 i (by omega)
        rw [hi] at hw1
        have hww : w = word := Option.some.inj hw1
        rw [hww]
        exact (compl64_eq_zero word (g4 word (hww ▸ hw))).mp hw2
      have hpc := popcount_full p.usedMem hall
      rw [g7, hpc] at hroom
      omega
    · have hwlt : word < U64 := g4 word (List.getElem?_mem hk2)
      obtain ⟨t1, t2, t3⟩ := lowest_clear_bit word hwlt hk3
      have hidx : (k * BITS + count_trailing_zeros (compl64 word)) % U32
          = 64 * k + count_trailing_zeros (compl64 word) := by
        rw [hB]
        unfold U32 at *
        omega
      refine ⟨k, word, count_trailing_zeros (compl64 word),
        { p.occupy k word (count_trailing_zeros (compl64 word)) with last_ := k },
        hk2, ?_, ?_, ?_, t1, t2, t3, ?_, rfl⟩
      · intro h
        exact hk3 ((compl64_eq_zero _ hwlt).mpr h)
      · intro wl hwl hne
        exfalso
        rw [hk] at hwl
        rw [← Option.some.inj hwl] at hne
        exact hne ((compl64_eq_zero _ (g4 _ (List.getElem?_mem hk))).mp hfull)
      · intro wl _ _ j hj1 hj2
        obtain ⟨wj, hw1, hw2⟩ := hk4 j hj1 (by rw [g3]; omega)
        rw [hw1, (compl64_eq_zero wj (g4 wj (List.getElem?_mem hw1))).mp hw2]
      · rw [hmiss, hk5, hidx]

set_option maxRecDepth 100000 in
theorem Pool.smallExample_good : Pool.smallExample.Good := by
  refine ⟨by decide, by decide, by decide, by decide, by decide, ?_, by decide⟩
  intro b hb
  rw [List.eq_of_mem_replicate hb]
  decide

theorem pool_slot_selection_witness :
    ∃ w word tz p1,
      Pool.smallExample.usedMem[w]? = some word ∧ word ≠ U64 - 1 ∧
      tz < 64 ∧ word.testBit tz = false ∧
      Pool.smallExample.allocate = some (p1, some (64 * w + tz)) ∧ p1.last_ = w :=
  match pool_slot_selection Pool.smallExample Pool.smallExample_good (by decide) (by decide)
      (by decide) (by decide) with
  | ⟨w, word, tz, p1, h1, h2, _, _, h5, h6, _, h8, h9⟩ => ⟨w, word, tz, p1, h1, h2, h5, h6, h8, h9⟩

/-! ## Arena allocations do not overlap -/

/-- C33 (as stated) fails: on the arena over `[4096, 5120)` the call
`alloc(2^64 - 16)` succeeds. The rounded length is `2^64 - 16`, the sum
`cursor + round(n)` wraps around `2^64` to 4080, which is not above `end`;
the call returns 4096 and leaves the cursor at 4080. The range
`[4096, 4096 + round(n))` does not lie inside `[4096, 5120)`, and the next
`alloc(16)` succeeds with the address 4080, below `begin`. -/
theorem arena_allocations_counterexample :
    (ArenaAllocator.new 4096 1024).region_ = { beg := 4096, end_ := 5120 } ∧
    ((ArenaAllocator.new 4096 1024).allocSeq Mem.zero [2 ^ 64 - 16, 16]).1 = [4096, 4080] ∧
    Allocator.round (2 ^ 64 - 16) = 2 ^ 64 - 16 ∧
    ¬ (4096 + Allocator.round (2 ^ 64 - 16) ≤ 5120) ∧
    ¬ ((4096 : Nat) ≤ 4080) := by
  refine ⟨by decide, by decide, by decide, by decide, by decide⟩

theorem Allocator.round_dvd (n : Nat) (h : n + 16 ≤ U64) : 16 ∣ Allocator.round n := by
  rw [Allocator.round_of_le n h]
  exact Nat.dvd_mul_left 16 _

theorem ArenaAllocator.allocSeq_layout (ns : List Nat) :
    ∀ (a : ArenaAllocator) (m : Mem),
      0 < a.cursor_ → a.region_.beg ≤ a.cursor_ → a.cursor_ ≤ a.region_.end_ →
      16 ∣ a.cursor_ - a.region_.beg →
      (∀ n ∈ ns, n + 16 ≤ U64 ∧ a.region_.end_ + Allocator.round n < U64) →
      (∀ x ∈ (a.allocSeq m ns).1, x ≠ 0) →
      ∀ (i x n : Nat), (a.allocSeq m ns).1[i]? = some x → ns[i]? = some n →
        a.cursor_ ≤ x ∧ x + Allocator.round n ≤ a.region_.end_ ∧
        16 ∣ x - a.region_.beg ∧
        ∀ (j y k : Nat), i < j → (a.allocSeq m ns).1[j]? = some y → ns[j]? = some k →
          x + Allocator.round n ≤ y := by
  induction ns with
  | nil =>
    intro a m _ _ _ _ _ _ i x n _ hn
    simp at hn
  | cons n0 ns ih =>
    intro a m hpos hlo hhi hal hreq hok i x n hx hn
    obtain ⟨hn0, hw0⟩ := hreq n0 (List.mem_cons_self _ _)
    have hseq : (a.allocSeq m (n0 :: ns)).1
        = (a.alloc m n0 false).1
          :: ((a.alloc m n0 false).2.1.allocSeq (a.alloc m n0 false).2.2 ns).1 := rfl
    rw [hseq] at hok hx
    rcases ArenaAllocator.alloc_cases a m n0 false with hfail | ⟨h1, h2, h3⟩
    · exfalso
      rw [hfail] at hok
      exact hok 0 (List.mem_cons_self _ _) rfl
    · have hmod : (a.cursor_ + Allocator.round n0) % U64 = a.cursor_ + Allocator.round n0 :=
        Nat.mod_eq_of_lt (by omega)
      rw [hmod] at h2 h3
      have hd0 := Allocator.round_dvd n0 hn0
      have hrec := ih (a.alloc m n0 false).2.1 (a.alloc m n0 false).2.2
        (by rw [h2]; simp only; omega) (by rw [h2]; simp only; omega)
        (by rw [h2]; simp only; omega) (by rw [h2]; simp only; omega)
        (by
          intro k hk
          rw [h2]
          exact hreq k (List.mem_cons_of_mem _ hk))
        (fun y hy => hok y (List.mem_cons_of_mem _ hy))
      have hc1 : (a.alloc m n0 false).2.1.cursor_ = a.cursor_ + Allocator.round n0 := by
        rw [h2]
      have hr1 : (a.alloc m n0 false).2.1.region_ = a.region_ := by
        rw [h2]
      rw [hc1, hr1] at hrec
      cases i with
      | zero =>
        simp only [List.getElem?_cons_zero, Option.some.injEq] at hx hn
        rw [← hx, ← hn, h1]
        refine ⟨Nat.le_refl _, h3, hal, ?_⟩
        intro j y k hj hy hk
        cases j with
        | zero => omega
        | succ j =>
          rw [hseq] at hy
          simp only [List.getElem?_cons_succ] at hy hk
          exact (hrec j y k hy hk).1
      | succ i =>
        simp only [List.getElem?_cons_succ] at hx hn
        obtain ⟨r1, r2, r3, r4⟩ := hrec i x n hx hn
        refine ⟨by omega, r2, r3, ?_⟩
        intro j y k hj hy hk
        cases j with
        | zero => omega
        | succ j =>
          rw [hseq] at hy
          simp only [List.getElem?_cons_succ] at hy hk
          exact r4 j y k (by omega) hy hk

/-- C33 (amended). Arena allocations never overlap. For every arena with a
non-zero base whose cursor lies in `[begin, end]` at a multiple of 16 from
`begin`, and every sequence of successful `alloc` calls with lengths
`n_1 .. n_k` (no intervening free, shrink, grow or reset) such that no address
computation wraps around `2^64` (`n_i ≤ 2^64 - 16` and
`end + round(n_i) < 2^64`): each returned range `[addr_i, addr_i + round(n_i))`
lies inside `[begin, end)`, satisfies `owns(addr_i, n_i)`, starts at an offset
from `begin` that is a multiple of 16, and ends at or before the start of
every later range, so that no address belongs to two of the ranges. -/
theorem arena_allocations_disjoint (a : ArenaAllocator) (m : Mem) (ns : List Nat)
    (hbase : 0 < a.region_.beg) (hinv : a.Inv) (hal : 16 ∣ a.cursor_ - a.region_.beg)
    (hreq : ∀ n ∈ ns, n + 16 ≤ U64 ∧ a.region_.end_ + Allocator.round n < U64)
    (hok : ∀ x ∈ (a.allocSeq m ns).1, x ≠ 0) :
    ∀ (i x n : Nat), (a.allocSeq m ns).1[i]? = some x → ns[i]? = some n →
      a.region_.beg ≤ x ∧ x + Allocator.round n ≤ a.region_.end_ ∧
      a.owns x n = true ∧ 16 ∣ x - a.region_.beg ∧
      ∀ (j y k : Nat), i < j → (a.allocSeq m ns).1[j]? = some y → ns[j]? = some k →
        x + Allocator.round n ≤ y ∧
        ∀ z, ¬ (x ≤ z ∧ z < x + Allocator.round n ∧ y ≤ z ∧ z < y + Allocator.round k) := by
  intro i x n hx hn
  obtain ⟨hlo, hhi⟩ := hinv
  obtain ⟨r1, r2, r3, r4⟩ := ArenaAllocator.allocSeq_layout ns a m (by omega) hlo hhi hal hreq
    hok i x n hx hn
  obtain ⟨q1, q2⟩ := hreq n (List.getElem?_mem hn)
  have hle := Allocator.le_round n q1
  refine ⟨by omega, r2, ?_, r3, ?_⟩
  · unfold ArenaAllocator.owns
    rw [Nat.mod_eq_of_lt (by omega)]
    simp only [ge_iff_le, Bool.and_eq_true, decide_eq_true_eq]
    omega
  · intro j y k hj hy hk
    have h := r4 j y k hj hy hk
    exact ⟨h, fun z hz => by omega⟩

theorem arena_allocations_disjoint_witness :
    (4096 : Nat) ≤ 4128 ∧ 4128 + Allocator.round 20 ≤ 5120 ∧
    (ArenaAllocator.new 4096 1024).owns 4128 20 = true ∧ 16 ∣ 4128 - 4096 :=
  match arena_allocations_disjoint (ArenaAllocator.new 4096 1024) Mem.zero [24, 20, 100]
      (by decide) (by decide) (by decide) (by decide) (by decide) 1 4128 20 (by decide)
      (by decide) with
  | ⟨h1, h2, h3, h4, _⟩ => ⟨h1, h2, h3, h4⟩

/-! ## `Slab::deallocate` on the only cache -/

set_option maxRecDepth 100000 in
/-- C34. `Slab::deallocate` takes `last()` of an empty caches sequence. On an
initially empty `Slab` of object size 8 and per-cache capacity 64, one
`allocate()` returns the ref with index 0 and leaves one cache holding one
object. `deallocate` of that ref empties the cache, which is the last one:
`caches_.pop_back()` leaves the sequence empty, and the next statement,
`cache = &caches_.last()`, forms `data_[length_ - 1]` with `length_ = 0`, the
slot before the buffer, which `cache->is_valid()` then reads. The embedding
reports the access outside the sequence as a fault. With two live objects
the same `deallocate` returns and leaves the cache in place. -/
theorem slab_deallocate_last_of_empty :
    (Slab.allocateN 64 Allocator.recording 8 1 (Slab.new 8 64) ⟨4096, [], []⟩).map
      (fun r => (r.1, r.2.1.caches_.items.map (fun c => c.map (fun p => p.length_))))
      = some ([some { cache := 0, localIndex := 0, index := 0 }], [some 1]) ∧
    (Slab.allocateN 64 Allocator.recording 8 1 (Slab.new 8 64) ⟨4096, [], []⟩).bind
      (fun r => Slab.deallocate Allocator.recording r.2.1 r.2.2 0) = none ∧
    (Slab.allocateN 64 Allocator.recording 8 1 (Slab.new 8 64) ⟨4096, [], []⟩).map
      (fun r => r.2.1.caches_.items.dropLast) = some [] ∧
    (Slab.allocateN 64 Allocator.recording 8 2 (Slab.new 8 64) ⟨4096, [], []⟩).bind
      (fun r => (Slab.deallocate Allocator.recording r.2.1 r.2.2 0).map
        (fun q => q.1.caches_.items.map (fun c => c.map (fun p => p.length_))))
      = some [some 1] := by
  refine ⟨?_, ?_, ?_, ?_⟩
  · rfl
  · rfl
  · rfl
  · rfl

/-! ## `Slab::allocate`: which cache is taken -/

theorem Pool.allocate_total (p : Pool) (hr : p.Ready) : ∃ p1 r, p.allocate = some (p1, r) := by
  obtain ⟨hg, hlast⟩ := hr
  have hn : (p.capacity_ / BITS) % U32 ≤ p.usedMem.length := by
    rw [hg.2.2.1]; exact Nat.mod_le _ _
  rcases Pool.allocate_spec p hn hlast with ⟨h, _⟩ | ⟨k, word, _, _, _, h⟩
  · exact ⟨_, _, h⟩
  · exact ⟨_, _, h⟩

theorem Slab.scan_total (cap : Nat) (caches : List (Option Pool))
    (hr : ∀ p, some p ∈ caches → p.Ready) : ∀ i, ∃ r, Slab.scan cap caches i = some r := by
  intro i
  induction i with
  | zero =>
    unfold Slab.scan
    cases hc : caches[0]? with
    | none => exact ⟨_, rfl⟩
    | some c =>
      cases c with
      | none => exact ⟨_, rfl⟩
      | some q =>
        obtain ⟨p1, r, ha⟩ := Pool.allocate_total q (hr q (List.getElem?_mem hc))
        simp only
        rw [ha]
        cases r with
        | none => exact ⟨_, rfl⟩
        | some l => exact ⟨_, rfl⟩
  | succ i ih =>
    unfold Slab.scan
    cases hc : caches[i + 1]? with
    | none => exact ⟨_, rfl⟩
    | some c =>
      cases c with
      | none => exact ih
      | some q =>
        obtain ⟨p1, r, ha⟩ := Pool.allocate_total q (hr q (List.getElem?_mem hc))
        simp only
        rw [ha]
        cases r with
        | none => exact ih
        | some l => exact ⟨_, rfl⟩

theorem Slab.scan_hit (cap : Nat) (caches caches1 : List (Option Pool)) (ref : SlabTrace) :
    ∀ i, Slab.scan cap caches i = some (some (caches1, ref)) →
      ∃ j p p1 l, j ≤ i ∧ caches[j]? = some (some p) ∧ p.allocate = some (p1, some l) ∧
        caches1 = caches.set j (some p1) ∧
        ref = { cache := j, localIndex := l, index := ((j * cap) % U64 % U32 + l) % U32 } ∧
        ∀ (k : Nat) (q : Pool), j < k → k ≤ i → caches[k]? = some (some q) →
          ∃ p2, q.allocate = some (p2, none) := by
  intro i
  induction i with
  | zero =>
    intro h
    unfold Slab.scan at h
    cases hc : caches[0]? with
    | none => rw [hc] at h; simp at h
    | some c =>
      rw [hc] at h
      cases c with
      | none => simp at h
      | some q =>
        simp only at h
        cases ha : q.allocate with
        | none => rw [ha] at h; simp at h
        | some t =>
          obtain ⟨p1, r⟩ := t
          cases r with
          | none => rw [ha] at h; simp at h
          | some l =>
            rw [ha] at h
            simp only [Option.some.injEq, Prod.mk.injEq] at h
            exact ⟨0, q, p1, l, Nat.le_refl _, hc, ha, h.1.symm, h.2.symm,
              fun k _ hk1 hk2 => absurd hk2 (by omega)⟩
  | succ i ih =>
    intro h
    unfold Slab.scan at h
    cases hc : caches[i + 1]? with
    | none => rw [hc] at h; simp at h
    | some c =>
      rw [hc] at h
      cases c with
      | none =>
        obtain ⟨j, p, p1, l, h1, h2, h3, h4, h5, h6⟩ := ih h
        refine ⟨j, p, p1, l, by omega, h2, h3, h4, h5, ?_⟩
        intro k q hk1 hk2 hq
        by_cases hk : k = i + 1
        · rw [hk, hc] at hq
          simp at hq
        · exact h6 k q hk1 (by omega) hq
      | some q =>
        simp only at h
        cases ha : q.allocate with
        | none => rw [ha] at h; simp at h
        | some t =>
          obtain ⟨p1, r⟩ := t
          cases r with
          | none =>
            rw [ha] at h
            obtain ⟨j, p, p2, l, h1, h2, h3, h4, h5, h6⟩ := ih h
            refine ⟨j, p, p2, l, by omega, h2, h3, h4, h5, ?_⟩
            intro k q1 hk1 hk2 hq
            by_cases hk : k = i + 1
            · rw [hk, hc] at hq
              rw [← Option.some.inj (Option.some.inj hq)]
              exact ⟨p1, ha⟩
            · exact h6 k q1 hk1 (by omega) hq
          | some l =>
            rw [ha] at h
            simp only [Option.some.injEq, Prod.mk.injEq] at h
            exact ⟨i + 1, q, p1, l, Nat.le_refl _, hc, ha, h.1.symm, h.2.symm,
              fun k _ hk1 hk2 => absurd hk2 (by omega)⟩

theorem Slab.scan_at (cap : Nat) (caches : List (Option Pool)) (j0 : Nat) (p0 p1 : Pool)
    (l : Nat) (h0 : caches[j0]? = some (some p0)) (ha : p0.allocate = some (p1, some l)) :
    ∀ i, i < caches.length → j0 ≤ i →
      (∀ j, j0 < j → j ≤ i → ∀ p, caches[j]? = some (some p) →
        ∃ p2, p.allocate = some (p2, none)) →
      Slab.scan cap caches i = some (some (caches.set j0 (some p1),
        { cache := j0, localIndex := l, index := ((j0 * cap) % U64 % U32 + l) % U32 })) := by
  intro i
  induction i with
  | zero =>
    intro _ hj hfull
    have hj0 : j0 = 0 := by omega
    subst hj0
    unfold Slab.scan
    rw [h0]
    simp only
    rw [ha]
  | succ i ih =>
    intro hi hj hfull
    unfold Slab.scan
    by_cases hje : j0 = i + 1
    · subst hje
      rw [h0]
      simp only
      rw [ha]
    · cases hc : caches[i + 1]? with
      | none =>
        rw [List.getElem?_eq_none_iff] at hc
        omega
      | some c =>
        cases c with
        | none =>
          simp only
          exact ih (by omega) (by omega) (fun j hj1 hj2 => hfull j hj1 (by omega))
        | some q =>
          obtain ⟨p2, hq⟩ := hfull (i + 1) (by omega) (Nat.le_refl _) q hc
          simp only
          rw [hq]
          simp only
          exact ih (by omega) (by omega) (fun j hj1 hj2 => hfull j hj1 (by omega))

theorem Slab.firstInvalid_none : ∀ (cs : List (Option Pool)),
    Slab.firstInvalid cs = none → ∀ (k : Nat), cs[k]? ≠ some none := by
  intro cs
  induction cs with
  | nil => intro _ k; simp
  | cons c cs ih =>
    intro h k
    cases c with
    | none => simp [Slab.firstInvalid] at h
    | some p =>
      simp only [Slab.firstInvalid, Option.map_eq_none'] at h
      cases k with
      | zero => simp
      | succ k =>
        simp only [List.getElem?_cons_succ]
        exact ih h k

theorem Array.growCapacity_total (length : Nat) (hl : length ≤ U32) :
    ∀ (k fuel cap : Nat), length ≤ cap * 2 ^ k → k < fuel →
      ∃ c, Array.growCapacity fuel length cap = some c := by
  intro k
  induction k with
  | zero =>
    intro fuel cap hle hf
    cases fuel with
    | zero => omega
    | succ f =>
      unfold Array.growCapacity
      rw [if_neg (by omega)]
      exact ⟨_, rfl⟩
  | succ k ih =>
    intro fuel cap hle hf
    cases fuel with
    | zero => omega
    | succ f =>
      unfold Array.growCapacity
      by_cases hc : cap < length
      · rw [if_pos hc]
        apply ih f _ _ (by omega)
        have h1 : (cap * 250) % U64 = cap * 250 := by
          apply Nat.mod_eq_of_lt
          unfold U64 U32 at *
          omega
        rw [h1]
        have h2 : cap * 2 ≤ cap * 250 / 100 := by omega
        calc length ≤ cap * 2 ^ (k + 1) := hle
          _ = cap * 2 * 2 ^ k := by rw [Nat.pow_succ]; ring
          _ ≤ cap * 250 / 100 * 2 ^ k := Nat.mul_le_mul_right _ h2
      · rw [if_neg hc]
        exact ⟨_, rfl⟩

theorem Array.push_back_total {α σ : Type} (sizeofT : Nat) (A : Allocator σ) (fuel : Nat)
    (a : Array α) (s : σ) (value : α) (hl : a.items.length < U32) (hf : 30 ≤ fuel) :
    ∃ b a1 s1, Array.push_back sizeofT A fuel a s value = some (b, a1, s1) := by
  have hlen : (a.items.length + 1) % U64 = a.items.length + 1 := by
    apply Nat.mod_eq_of_lt
    unfold U64 U32 at *
    omega
  have hres : ∃ t, Array.reserve sizeofT A fuel a s (a.items.length + 1) = some t := by
    unfold Array.reserve
    by_cases c1 : a.items.length + 1 < a.capacity_
    · rw [if_pos c1]
      exact ⟨_, rfl⟩
    · rw [if_neg c1]
      obtain ⟨c, hc⟩ := Array.growCapacity_total (a.items.length + 1) (by omega) 28 fuel 16
        (by unfold U32 at hl; omega) (by omega)
      rw [hc]
      simp only
      by_cases c2 : (A.allocate s sizeofT c false).1 = 0
      · rw [if_pos c2]
        exact ⟨_, rfl⟩
      · rw [if_neg c2]
        exact ⟨_, rfl⟩
  obtain ⟨⟨b, a1, s1⟩, ht⟩ := hres
  unfold Array.push_back
  rw [hlen, ht]
  cases b with
  | false => exact ⟨_, _, _, rfl⟩
  | true => exact ⟨_, _, _, rfl⟩

theorem Array.push_back_refused {α σ : Type} (sizeofT : Nat) (A : Allocator σ) (fuel : Nat)
    (a a1 : Array α) (s s1 : σ) (value : α)
    (h : Array.push_back sizeofT A fuel a s value = some (false, a1, s1)) :
    ∃ c, Array.growCapacity fuel ((a.items.length + 1) % U64) 16 = some c ∧
      (A.allocate s sizeofT c false).1 = 0 := by
  unfold Array.push_back at h
  cases hr : Array.reserve sizeofT A fuel a s ((a.items.length + 1) % U64) with
  | none => rw [hr] at h; simp at h
  | some t =>
    obtain ⟨b, a2, s2⟩ := t
    rw [hr] at h
    cases b with
    | true => simp at h
    | false =>
      unfold Array.reserve at hr
      by_cases c1 : (a.items.length + 1) % U64 < a.capacity_
      · rw [if_pos c1] at hr
        simp at hr
      · rw [if_neg c1] at hr
        cases hg : Array.growCapacity fuel ((a.items.length + 1) % U64) 16 with
        | none => rw [hg] at hr; simp at hr
        | some c =>
          rw [hg] at hr
          simp only at hr
          by_cases c2 : (A.allocate s sizeofT c false).1 = 0
          · exact ⟨c, rfl, c2⟩
          · rw [if_neg c2] at hr
            simp at hr

theorem Pool.create_refused {σ : Type} (A : Allocator σ) (s : σ) (size c : Nat)
    (h : (Pool.create A s size c).1 = none) :
    (A.allocate s 1
      ((size * ((((c + (BITS - 1)) % U64) / BITS * BITS) % U64)) % U64) true).1 = 0 ∨
    (A.allocate (A.allocate s 1
        ((size * ((((c + (BITS - 1)) % U64) / BITS * BITS) % U64)) % U64) true).2 8
      (((((c + (BITS - 1)) % U64) / BITS * BITS) % U64) / BITS) true).1 = 0 := by
  unfold Pool.create at h
  simp only at h
  by_cases c1 : (A.allocate s 1
      ((size * ((((c + (BITS - 1)) % U64) / BITS * BITS) % U64)) % U64) true).1 = 0
  · exact Or.inl c1
  · rw [if_neg c1] at h
    by_cases c2 : (A.allocate (A.allocate s 1
        ((size * ((((c + (BITS - 1)) % U64) / BITS * BITS) % U64)) % U64) true).2 8
        (((((c + (BITS - 1)) % U64) / BITS * BITS) % U64) / BITS) true).1 = 0
    · exact Or.inr c2
    · rw [if_neg c2] at h
      simp at h

theorem Slab.allocateTraced_hit {σ : Type} (sizeofCache : Nat) (A : Allocator σ)
    (fuel : Nat) (sl : Slab) (s : σ) (j0 : Nat) (p0 p1 : Pool) (l : Nat)
    (h0 : sl.caches_.items[j0]? = some (some p0)) (ha : p0.allocate = some (p1, some l))
    (hfull : ∀ j, j0 < j → ∀ p, sl.caches_.items[j]? = some (some p) →
      ∃ p2, p.allocate = some (p2, none)) :
    Slab.allocateTraced sizeofCache A (fuel + 1) sl s
      = some (some { cache := j0, localIndex := l,
                     index := ((j0 * sl.capacity_) % U64 % U32 + l) % U32 },
              { sl with caches_ := { sl.caches_ with
                  items := sl.caches_.items.set j0 (some p1) } }, s) := by
  have hj0 : j0 < sl.caches_.items.length := by
    rcases Nat.lt_or_ge j0 sl.caches_.items.length with hlt | hge
    · exact hlt
    · rw [List.getElem?_eq_none hge] at h0; simp at h0
  have hscan := Slab.scan_at sl.capacity_ sl.caches_.items j0 p0 p1 l h0 ha
    (sl.caches_.items.length - 1) (by omega) (by omega) (fun j hj1 _ p hp => hfull j hj1 p hp)
  unfold Slab.allocateTraced
  simp only
  rw [if_neg (by omega), hscan]

theorem Slab.allocateTraced_cases {σ : Type} (sizeofCache : Nat) (A : Allocator σ)
    (fuel : Nat) (sl sl1 : Slab) (s s1 : σ) (r : Option SlabTrace) (hinv : sl.Inv)
    (h : Slab.allocateTraced sizeofCache A fuel sl s = some (r, sl1, s1)) :
    sl1.size_ = sl.size_ ∧ sl1.capacity_ = sl.capacity_ ∧
    ((∃ i p p1 l, sl.caches_.items[i]? = some (some p) ∧ p.allocate = some (p1, some l) ∧
        (∀ (j : Nat) (q : Pool), i < j → sl.caches_.items[j]? = some (some q) →
          ∃ p2, q.allocate = some (p2, none)) ∧
        r = some { cache := i, localIndex := l,
                   index := ((i * sl.capacity_) % U64 % U32 + l) % U32 } ∧
        sl1.caches_.items = sl.caches_.items.set i (some p1)) ∨
     ((∀ (j : Nat) (q : Pool), sl.caches_.items[j]? = some (some q) →
          ∃ p2, q.allocate = some (p2, none)) ∧
      (((Pool.create A s sl.size_ sl.capacity_).1 = none ∧ r = none ∧ sl1 = sl) ∨
       ∃ pool p1 l, (Pool.create A s sl.size_ sl.capacity_).1 = some pool ∧
         pool.allocate = some (p1, some l) ∧
         ((∃ j, Slab.firstInvalid sl.caches_.items = some j ∧
             r = some { cache := j, localIndex := l,
                        index := ((j * sl.capacity_) % U64 % U32 + l) % U32 } ∧
             sl1.caches_.items = sl.caches_.items.set j (some p1)) ∨
          (Slab.firstInvalid sl.caches_.items = none ∧
            ((r = none ∧ sl1.caches_.items = sl.caches_.items ∧
               ∃ arr s2, Array.push_back sizeofCache A fuel sl.caches_
                 (Pool.create A s sl.size_ sl.capacity_).2 (some pool)
                   = some (false, arr, s2)) ∨
             (r = some { cache := sl.caches_.items.length, localIndex := l,
                         index := ((sl.caches_.items.length * sl.capacity_) % U64 % U32 + l)
                           % U32 } ∧
               sl1.caches_.items = sl.caches_.items ++ [some p1]))))))) := by
  obtain ⟨i1, i2, i3, i4⟩ := hinv
  cases fuel with
  | zero => simp [Slab.allocateTraced] at h
  | succ fuel =>
    unfold Slab.allocateTraced at h
    simp only at h
    cases hsc : (if sl.caches_.items.length = 0 then some none
        else Slab.scan sl.capacity_ sl.caches_.items (sl.caches_.items.length - 1)) with
    | none => rw [hsc] at h; simp at h
    | some t =>
      rw [hsc] at h
      cases t with
      | some q =>
        obtain ⟨caches, ref⟩ := q
        simp only [Option.some.injEq, Prod.mk.injEq] at h
        obtain ⟨hr, hsl, _⟩ := h
        have hne : ¬ (sl.caches_.items.length = 0) := by
          intro h0
          rw [if_pos h0] at hsc
          simp at hsc
        rw [if_neg hne] at hsc
        obtain ⟨j, p, p1, l, hj1, hj, ha, hset, href, hab⟩ := Slab.scan_hit _ _ _ _ _ hsc
        rw [← hsl]
        refine ⟨rfl, rfl, Or.inl ⟨j, p, p1, l, hj, ha, ?_, ?_, hset⟩⟩
        · intro k q hk hq
          have hklt : k < sl.caches_.items.length := by
            rcases Nat.lt_or_ge k sl.caches_.items.length with hlt | hge
            · exact hlt
            · rw [List.getElem?_eq_none hge] at hq; simp at hq
          exact hab k q hk (by omega) hq
        · rw [← hr, href]
      | none =>
        simp only at h
        have hfull : ∀ (j : Nat) (p : Pool), sl.caches_.items[j]? = some (some p) →
            ∃ p2, p.allocate = some (p2, none) := by
          intro j p hp
          have hjlt : j < sl.caches_.items.length := by
            rcases Nat.lt_or_ge j sl.caches_.items.length with hlt | hge
            · exact hlt
            · rw [List.getElem?_eq_none hge] at hp; simp at hp
          rw [if_neg (by omega)] at hsc
          exact Slab.scan_none _ _ _ (by omega) hsc j (by omega) p hp
        cases hcr : (Pool.create A s sl.size_ sl.capacity_).1 with
        | none =>
          rw [hcr] at h
          simp only [Option.some.injEq, Prod.mk.injEq] at h
          rw [← h.2.1]
          exact ⟨rfl, rfl, Or.inr ⟨hfull, Or.inl ⟨rfl, h.1.symm, rfl⟩⟩⟩
        | some pool =>
          rw [hcr] at h
          simp only at h
          have hcreate : Pool.create A s sl.size_ sl.capacity_
              = (some pool, (Pool.create A s sl.size_ sl.capacity_).2) := by
            rw [← hcr]
          obtain ⟨hready, p1, idx, hal⟩ := Pool.create_ready A s _ sl.size_ sl.capacity_ pool
            i1 i2 i3 hcreate
          cases hfi : Slab.firstInvalid sl.caches_.items with
          | some j =>
            rw [hfi] at h
            simp only at h
            have hj := Slab.firstInvalid_spec _ _ hfi
            have hjlt : j < sl.caches_.items.length := by
              rcases Nat.lt_or_ge j sl.caches_.items.length with hlt | hge
              · exact hlt
              · rw [List.getElem?_eq_none hge] at hj; simp at hj
            cases fuel with
            | zero => simp [Slab.allocateTraced] at h
            | succ fuel =>
              rw [Slab.allocateTraced_hit sizeofCache A fuel _ _ j pool p1 idx
                (by simp only; rw [List.getElem?_set_self hjlt]) hal
                (by
                  intro k hk p hp
                  simp only at hp
                  rw [List.getElem?_set_ne (by omega)] at hp
                  exact hfull k p hp)] at h
              simp only [Option.some.injEq, Prod.mk.injEq] at h
              obtain ⟨hr, hsl, _⟩ := h
              rw [← hsl]
              refine ⟨rfl, rfl, Or.inr ⟨hfull, Or.inr ⟨pool, p1, idx, rfl, hal,
                Or.inl ⟨j, rfl, hr.symm, ?_⟩⟩⟩⟩
              simp only [List.set_set]
          | none =>
            rw [hfi] at h
            simp only at h
            cases hpb : Array.push_back sizeofCache A (fuel + 1) sl.caches_
                (Pool.create A s sl.size_ sl.capacity_).2 (some pool) with
            | none => rw [hpb] at h; simp at h
            | some t =>
              obtain ⟨b, arr, s2⟩ := t
              have hitems := Array.push_back_items _ _ _ _ _ _ _ _ _ hpb
              rw [hpb] at h
              cases b with
              | false =>
                simp only [Option.some.injEq, Prod.mk.injEq] at h
                rw [← h.2.1]
                simp only [Bool.false_eq_true, if_false] at hitems
                exact ⟨rfl, rfl, Or.inr ⟨hfull, Or.inr ⟨pool, p1, idx, rfl, hal,
                  Or.inr ⟨rfl, Or.inl ⟨h.1.symm, hitems, arr, s2, hpb⟩⟩⟩⟩⟩
              | true =>
                simp only at h
                simp only [if_true] at hitems
                cases fuel with
                | zero => simp [Slab.allocateTraced] at h
                | succ fuel =>
                  rw [Slab.allocateTraced_hit sizeofCache A fuel _ _ sl.caches_.items.length
                    pool p1 idx
                    (by simp only; rw [hitems]; exact List.getElem?_concat_length _ _) hal
                    (by
                      intro k hk p hp
                      simp only [hitems] at hp
                      rw [List.getElem?_eq_none (by simp; omega)] at hp
                      simp at hp)] at h
                  simp only [Option.some.injEq, Prod.mk.injEq] at h
                  obtain ⟨hr, hsl, _⟩ := h
                  rw [← hsl]
                  refine ⟨rfl, rfl, Or.inr ⟨hfull, Or.inr ⟨pool, p1, idx, rfl, hal,
                    Or.inr ⟨rfl, Or.inr ⟨hr.symm, ?_⟩⟩⟩⟩⟩
                  simp only [hitems]
                  rw [List.set_append_right _ _ (Nat.le_refl _)]
                  simp

theorem Slab.allocateTraced_returns {σ : Type} (sizeofCache : Nat) (A : Allocator σ)
    (fuel : Nat) (sl : Slab) (s : σ) (hinv : sl.Inv)
    (hlen : sl.caches_.items.length < U32) (hfuel : 64 ≤ fuel) :
    ∃ r sl1 s1, Slab.allocateTraced sizeofCache A fuel sl s = some (r, sl1, s1) := by
  obtain ⟨i1, i2, i3, i4⟩ := hinv
  obtain ⟨f, hf⟩ : ∃ f, fuel = f + 2 := ⟨fuel - 2, by omega⟩
  subst hf
  obtain ⟨t, hsc⟩ : ∃ t, (if sl.caches_.items.length = 0 then some none
      else Slab.scan sl.capacity_ sl.caches_.items (sl.caches_.items.length - 1)) = some t := by
    by_cases h0 : sl.caches_.items.length = 0
    · rw [if_pos h0]; exact ⟨_, rfl⟩
    · rw [if_neg h0]
      exact Slab.scan_total _ _ (fun p hp => (i4 p hp).1) _
  unfold Slab.allocateTraced
  simp only
  rw [hsc]
  cases t with
  | some q =>
    obtain ⟨caches, ref⟩ := q
    exact ⟨_, _, _, rfl⟩
  | none =>
    simp only
    have hfull : ∀ (j : Nat) (p : Pool), sl.caches_.items[j]? = some (some p) →
        ∃ p2, p.allocate = some (p2, none) := by
      intro j p hp
      have hjlt : j < sl.caches_.items.length := by
        rcases Nat.lt_or_ge j sl.caches_.items.length with hlt | hge
        · exact hlt
        · rw [List.getElem?_eq_none hge] at hp; simp at hp
      rw [if_neg (by omega)] at hsc
      exact Slab.scan_none _ _ _ (by omega) hsc j (by omega) p hp
    cases hcr : (Pool.create A s sl.size_ sl.capacity_).1 with
    | none => exact ⟨_, _, _, rfl⟩
    | some pool =>
      simp only
      have hcreate : Pool.create A s sl.size_ sl.capacity_
          = (some pool, (Pool.create A s sl.size_ sl.capacity_).2) := by
        rw [← hcr]
      obtain ⟨hready, p1, idx, hal⟩ := Pool.create_ready A s _ sl.size_ sl.capacity_ pool
        i1 i2 i3 hcreate
      cases hfi : Slab.firstInvalid sl.caches_.items with
      | some j =>
        simp only
        have hj := Slab.firstInvalid_spec _ _ hfi
        have hjlt : j < sl.caches_.items.length := by
          rcases Nat.lt_or_ge j sl.caches_.items.length with hlt | hge
          · exact hlt
          · rw [List.getElem?_eq_none hge] at hj; simp at hj
        rw [Slab.allocateTraced_hit sizeofCache A f _ _ j pool p1 idx
          (by simp only; rw [List.getElem?_set_self hjlt]) hal
          (by
            intro k hk p hp
            simp only at hp
            rw [List.getElem?_set_ne (by omega)] at hp
            exact hfull k p hp)]
        exact ⟨_, _, _, rfl⟩
      | none =>
        simp only
        obtain ⟨b, arr, s2, hpb⟩ := Array.push_back_total sizeofCache A (f + 1 + 1) sl.caches_
          (Pool.create A s sl.size_ sl.capacity_).2 (some pool) hlen (by omega)
        have hitems := Array.push_back_items _ _ _ _ _ _ _ _ _ hpb
        rw [hpb]
        cases b with
        | false => exact ⟨_, _, _, rfl⟩
        | true =>
          simp only
          simp only [if_true] at hitems
          rw [Slab.allocateTraced_hit sizeofCache A f _ _ sl.caches_.items.length
            pool p1 idx
            (by simp only; rw [hitems]; exact List.getElem?_concat_length _ _) hal
            (by
              intro k hk p hp
              simp only [hitems] at hp
              rw [List.getElem?_eq_none (by simp; omega)] at hp
              simp at hp)]
          exact ⟨_, _, _, rfl⟩

set_option maxRecDepth 100000 in
/-- C35 (as stated) fails: with a per-cache capacity of `2^64 - 1` (which is
`≥ 1`) `Pool::create` rounds the capacity up to a multiple of 64 in 64-bit
arithmetic and gets 0. On the initially empty slab it asks the allocator for
two buffers of 0 bytes and succeeds: the new Pool has capacity 0, no object
bytes and no occupancy word, so it has no slot, free or not. It is appended,
and the pass of the retry calls its `allocate()`, whose first statement
reads `used_[last_]`, word 0 of an occupancy buffer of no words. The second
pass has no free slot to find, and what the call does depends on memory that
is not the Pool's: a run that finds the word 0 there takes its lowest clear
bit and returns index 0, a slot the Pool does not have; a run that finds all
ones there goes on to the scan loop, which covers `n_words = 0` words and
returns empty, so that the retry finds nothing and retries again. The
embedding reports the access outside the buffer as a fault of
`Pool::allocate` and of `Slab::allocate`. -/
theorem slab_allocate_returns_counterexample :
    (Pool.create Allocator.recording ⟨4096, [], []⟩ 8 18446744073709551615).1.map
      (fun p => (p.capacity_, p.dataMem, p.usedMem, p.last_, p.usedMem[p.last_]?))
      = some (0, [], [], 0, none) ∧
    (Pool.create Allocator.recording ⟨4096, [], []⟩ 8 18446744073709551615).2.allocs
      = [(4112, 0), (4096, 0)] ∧
    count_trailing_zeros (compl64 0) = 0 ∧
    compl64 18446744073709551615 = 0 ∧
    (Pool.create Allocator.recording ⟨4096, [], []⟩ 8 18446744073709551615).1.map
      (fun p => ((p.capacity_ / BITS) % U32,
        (p.allocateScan ((p.capacity_ / BITS) % U32)
          (((p.capacity_ / BITS) % U32 + (U32 - 1)) % U32)).map (fun q => q.2)))
      = some (0, some none) ∧
    (Pool.create Allocator.recording ⟨4096, [], []⟩ 8 18446744073709551615).1.map
      (fun p => p.allocate) = some none ∧
    Slab.allocateTraced 64 Allocator.recording 64 (Slab.new 8 18446744073709551615)
      ⟨4096, [], []⟩ = none :=
  ⟨rfl, rfl, by decide, by decide, rfl, rfl, rfl⟩

/-- C35 (amended). `Slab::allocate` terminates. For every Slab state reachable
by `allocate`/`deallocate` from an empty Slab with a per-cache capacity
between 1 and `2^64 - 64`, with fewer than `2^32` cache slots, `allocate()`
returns (64 nested calls and loop steps suffice) after at most one recursive
retry: its result is the hit of the first pass over the caches; or it is
empty without a retry; or, with the new Pool installed in an unpopulated
slot or appended, it is the hit of the pass of the retry, found in the new
Pool. It returns empty only when the allocator refused a request of this
very call: one of the two buffers of `Pool::create` (the `size * C` object
bytes asked for in the state `s` of the call, or the `C / 64` occupancy words
asked for in the state after that, `C` the capacity rounded up to a multiple
of 64), or, with the Pool created and no unpopulated slot, the buffer of `c`
cache entries that `push_back` asks for in the state after `Pool::create`,
`c` the capacity its sizing loop computes for one more entry. -/
theorem slab_allocate_returns {σ : Type} (sizeofCache : Nat) (A : Allocator σ) (fuel : Nat)
    (sl : Slab) (s : σ) (hreach : Slab.Reachable sl)
    (hlen : sl.caches_.items.length < U32) (hfuel : 64 ≤ fuel) :
    ∃ r sl1 s1, Slab.allocateTraced sizeofCache A fuel sl s = some (r, sl1, s1) ∧
      ((∃ tr, sl.caches_.items.length ≠ 0 ∧
          Slab.scan sl.capacity_ sl.caches_.items (sl.caches_.items.length - 1)
            = some (some (sl1.caches_.items, tr)) ∧ r = some tr) ∨
       (r = none ∧ sl1.caches_.items = sl.caches_.items) ∨
       (∃ pool tr, (Pool.create A s sl.size_ sl.capacity_).1 = some pool ∧ r = some tr ∧
          ((∃ j, sl.caches_.items[j]? = some none ∧ tr.cache = j ∧
              Slab.scan sl.capacity_ (sl.caches_.items.set j (some pool))
                (sl.caches_.items.length - 1) = some (some (sl1.caches_.items, tr))) ∨
           (tr.cache = sl.caches_.items.length ∧
              Slab.scan sl.capacity_ (sl.caches_.items ++ [some pool])
                sl.caches_.items.length = some (some (sl1.caches_.items, tr)))))) ∧
      (r = none →
        (A.allocate s 1 ((sl.size_ * ((sl.capacity_ + 63) / 64 * 64)) % U64) true).1 = 0 ∨
        (A.allocate
            (A.allocate s 1 ((sl.size_ * ((sl.capacity_ + 63) / 64 * 64)) % U64) true).2 8
            ((sl.capacity_ + 63) / 64 * 64 / 64) true).1 = 0 ∨
        (∃ pool c, (Pool.create A s sl.size_ sl.capacity_).1 = some pool ∧
          (∀ (k : Nat), sl.caches_.items[k]? ≠ some none) ∧
          Array.growCapacity fuel (sl.caches_.items.length + 1) 16 = some c ∧
          (A.allocate (Pool.create A s sl.size_ sl.capacity_).2 sizeofCache c false).1
            = 0)) := by
  have hinv := Slab.Reachable.inv sl hreach
  obtain ⟨r, sl1, s1, h⟩ := Slab.allocateTraced_returns sizeofCache A fuel sl s hinv hlen hfuel
  obtain ⟨e1, e2, hcases⟩ := Slab.allocateTraced_cases sizeofCache A fuel sl sl1 s s1 r hinv h
  obtain ⟨_, i2, i3, _⟩ := hinv
  have hcap : (((sl.capacity_ + (BITS - 1)) % U64) / BITS * BITS) % U64
      = (sl.capacity_ + 63) / 64 * 64 := by
    unfold BITS U64 at *
    omega
  have hB : BITS = 64 := rfl
  have hlen1 : (sl.caches_.items.length + 1) % U64 = sl.caches_.items.length + 1 := by
    apply Nat.mod_eq_of_lt
    unfold U64 U32 at *
    omega
  have hlt : ∀ (j : Nat) (c : Option Pool), sl.caches_.items[j]? = some c →
      j < sl.caches_.items.length := by
    intro j c hj
    rcases Nat.lt_or_ge j sl.caches_.items.length with hlt | hge
    · exact hlt
    · rw [List.getElem?_eq_none hge] at hj; simp at hj
  refine ⟨r, sl1, s1, h, ?_⟩
  rcases hcases with ⟨i, p, p1, l, hp, ha, hab, hr, hit⟩ | ⟨hfull, hc⟩
  · have hi := hlt i _ hp
    refine ⟨Or.inl ⟨_, by omega, ?_, hr⟩, ?_⟩
    · rw [hit]
      exact Slab.scan_at sl.capacity_ sl.caches_.items i p p1 l hp ha _ (by omega) (by omega)
        (fun j hj1 _ q hq => hab j q hj1 hq)
    · intro hn
      rw [hn] at hr
      simp at hr
  · rcases hc with ⟨hcr, hr, hsl⟩ | ⟨pool, p1, l, hcr, hal, hc2⟩
    · refine ⟨Or.inr (Or.inl ⟨hr, by rw [hsl]⟩), ?_⟩
      intro _
      have h0 := Pool.create_refused A s sl.size_ sl.capacity_ hcr
      rw [hcap, hB] at h0
      rcases h0 with h0 | h0
      · exact Or.inl h0
      · exact Or.inr (Or.inl h0)
    · rcases hc2 with ⟨j, hfi, hr, hit⟩ | ⟨hfi, hc3⟩
      · have hj := Slab.firstInvalid_spec _ _ hfi
        have hjlt := hlt j _ hj
        refine ⟨Or.inr (Or.inr ⟨pool, _, hcr, hr, Or.inl ⟨j, hj, rfl, ?_⟩⟩), ?_⟩
        · have hsc := Slab.scan_at sl.capacity_ (sl.caches_.items.set j (some pool)) j pool p1 l
            (List.getElem?_set_self hjlt) hal (sl.caches_.items.length - 1)
            (by rw [List.length_set]; omega) (by omega)
            (by
              intro k hk1 _ q hq
              rw [List.getElem?_set_ne (by omega)] at hq
              exact hfull k q hq)
          rw [hsc, hit, List.set_set]
        · intro hn
          rw [hn] at hr
          simp at hr
      · rcases hc3 with ⟨hr, hit, arr, s2, hpb⟩ | ⟨hr, hit⟩
        · refine ⟨Or.inr (Or.inl ⟨hr, hit⟩), ?_⟩
          intro _
          obtain ⟨c, hg, h0⟩ :=
            Array.push_back_refused sizeofCache A fuel sl.caches_ arr _ s2 _ hpb
          rw [hlen1] at hg
          exact Or.inr (Or.inr ⟨pool, c, hcr, Slab.firstInvalid_none _ hfi, hg, h0⟩)
        · refine ⟨Or.inr (Or.inr ⟨pool, _, hcr, hr, Or.inr ⟨rfl, ?_⟩⟩), ?_⟩
          · have hsc := Slab.scan_at sl.capacity_ (sl.caches_.items ++ [some pool])
              sl.caches_.items.length pool p1 l (List.getElem?_concat_length _ _) hal
              sl.caches_.items.length (by simp) (Nat.le_refl _)
              (fun k hk1 hk2 _ _ => absurd hk2 (by omega))
            rw [hsc, hit, List.set_append_right _ _ (Nat.le_refl _)]
            simp
          · intro hn
            rw [hn] at hr
            simp at hr

set_option maxRecDepth 100000 in
theorem slab_allocate_returns_witness :
    ∃ r sl1 s1, Slab.allocateTraced 64 Allocator.recording 64 (Slab.new 8 64) ⟨4096, [], []⟩
        = some (r, sl1, s1) ∧ r ≠ none :=
  match slab_allocate_returns 64 Allocator.recording 64 (Slab.new 8 64) ⟨4096, [], []⟩
      (Slab.Reachable.new 8 64 (by decide) (by decide) (by decide)) (by decide)
      (by decide) with
  | ⟨r, sl1, s1, h, _, h2⟩ =>
    ⟨r, sl1, s1, h, fun hn => by
      rcases h2 hn with h3 | h3 | ⟨pool, c, _, _, hc, h3⟩
      · exact absurd h3 (by decide)
      · exact absurd h3 (by decide)
      · have hc16 : Array.growCapacity 64 ((Slab.new 8 64).caches_.items.length + 1) 16
            = some 16 := by decide
        rw [hc16] at hc
        rw [← Option.some.inj hc] at h3
        exact absurd h3 (by decide)⟩

end ctl
